import Mathlib

/-!
Verification of the seating-allocation engine of the student exam seating
project: conflict-graph construction and DSatur coloring
(`conflict_graph.py`), constrained room assignment (`room_assignment.py`)
and grid seat placement (`seat_layout.py`).

Python dicts are modelled as insertion-ordered association lists,
Python sets as `Finset` (only cardinality and membership are ever used),
and Python exceptions as `Except` values.
-/

namespace Seating

/-! ### Association-list helpers (Python `dict` / `defaultdict`) -/

/-- Lookup in an insertion-ordered association list (first matching key,
which is the unique one when keys are nodup, as for a Python dict). -/
def alookup {κ α : Type} [DecidableEq κ] (k : κ) : List (κ × α) → Option α
  | [] => none
  | (k', v) :: rest => if k' = k then some v else alookup k rest

/-- Python `d[k] = v`: replace the value at an existing key in place,
otherwise append a new entry at the end (dict insertion order). -/
def dictInsert {κ α : Type} [DecidableEq κ] (k : κ) (v : α) :
    List (κ × α) → List (κ × α)
  | [] => [(k, v)]
  | (k', v') :: rest =>
      if k' = k then (k, v) :: rest else (k', v') :: dictInsert k v rest

/-- Update the value at the first matching key (no-op when absent). -/
def aupdate {κ α : Type} [DecidableEq κ] (k : κ) (f : α → α) :
    List (κ × α) → List (κ × α)
  | [] => []
  | (k', v) :: rest =>
      if k' = k then (k', f v) :: rest else (k', v) :: aupdate k f rest

/-- Python `defaultdict(list)`: `d[k].extend(xs)` — extend the list at an
existing key, otherwise create the entry (even when `xs` is empty, as a
`defaultdict` access does). -/
def aextend {κ α : Type} [DecidableEq κ] (k : κ) (xs : List α) :
    List (κ × List α) → List (κ × List α)
  | [] => [(k, xs)]
  | (k', l) :: rest =>
      if k' = k then (k', l ++ xs) :: rest else (k', l) :: aextend k xs rest

/-- Python `defaultdict(list)`: `d[k].append(x)`. -/
def aappend {κ α : Type} [DecidableEq κ] (k : κ) (x : α)
    (m : List (κ × List α)) : List (κ × List α) :=
  aextend k [x] m

/-- The keys of an association list, in order. -/
def akeys {κ α : Type} (m : List (κ × α)) : List κ := m.map Prod.fst

/-- All values of a `defaultdict(list)`-style map, concatenated. -/
def avaluesJoin {κ α : Type} (m : List (κ × List α)) : List α :=
  (m.map Prod.snd).flatten

/-- Distinct elements of a list in order of first occurrence
(Python `dict`-key order when inserting along the list). -/
def firstKeys {κ : Type} [DecidableEq κ] (l : List κ) : List κ :=
  l.foldl (fun acc k => if k ∈ acc then acc else acc ++ [k]) []

/-- Group a list by a key, Python `defaultdict(list)` style: group order is
first occurrence of the key, order inside a group is list order. -/
def groupByKey {κ α : Type} [DecidableEq κ] (key : α → κ) (l : List α) :
    List (κ × List α) :=
  l.foldl (fun gs a => aappend (key a) a gs) []

/-- All ordered pairs `(l[i], l[j])` with `i < j`, in the order a Python
double loop `for i ... for j in range(i+1, ...)` visits them. -/
def pairsOf {α : Type} : List α → List (α × α)
  | [] => []
  | a :: l => l.map (fun b => (a, b)) ++ pairsOf l

/-- Python `max(l, key=...)`: first element attaining the maximal key
(ties keep the earlier element). `better b y` means `y` strictly beats `b`. -/
def pyMaxBy {α : Type} (better : α → α → Bool) : List α → Option α
  | [] => none
  | x :: xs => some (xs.foldl (fun best y => if better best y then y else best) x)

/-- `max` with a `Nat` key. -/
def pyMaxNat {α : Type} (key : α → Nat) (l : List α) : Option α :=
  pyMaxBy (fun b y => key b < key y) l

/-- Strict lexicographic order on pairs of naturals (Python tuple `<`). -/
def lexLt (a b : Nat × Nat) : Bool :=
  a.1 < b.1 || (a.1 = b.1 && a.2 < b.2)

/-- `max` with a `Nat × Nat` key compared lexicographically. -/
def pyMaxPair {α : Type} (key : α → Nat × Nat) (l : List α) : Option α :=
  pyMaxBy (fun b y => lexLt (key b) (key y)) l

/-- Insert into an already-sorted prefix, after every element that sorts
no later (so equal elements keep their original order). -/
def insertStable {α : Type} (le : α → α → Bool) (x : α) : List α → List α
  | [] => [x]
  | y :: ys => if le y x then y :: insertStable le x ys else x :: y :: ys

/-- Python `sorted(l, ...)` as a stable sort for the total preorder `le`
(stability plus the preorder determine the output uniquely, so any stable
sort — this insertion sort or CPython's timsort — yields the same list). -/
def pySorted {α : Type} (le : α → α → Bool) (l : List α) : List α :=
  l.foldl (fun acc x => insertStable le x acc) []

/-- The loop `color = 0; while color in used: color += 1`, with enough fuel
to terminate. -/
def mexAux (used : List Nat) : Nat → Nat → Nat
  | 0, c => c
  | fuel + 1, c => if c ∈ used then mexAux used fuel (c + 1) else c

/-- Smallest natural not in `used` (the lowest available color). -/
def mex (used : List Nat) : Nat := mexAux used (used.length + 1) 0

/-! ### The conflict graph (`networkx.Graph` as used by the source) -/

/-- An undirected graph: node list in insertion order, edges as a list of
endpoint pairs.  Edge weights are dropped: the source's `dsatur_coloring`
never reads them (it only uses adjacency), and duplicated entries in
`edges` are harmless because adjacency is membership. -/
structure Graph (V : Type) where
  nodes : List V
  edges : List (V × V)
deriving DecidableEq

/-- Membership of an undirected edge in an edge list (`graph.has_edge`). -/
def hasEdgeList {V : Type} [DecidableEq V] (es : List (V × V)) (u v : V) : Bool :=
  es.any fun e => (e.1 = u && e.2 = v) || (e.1 = v && e.2 = u)

def Graph.hasEdge {V : Type} [DecidableEq V] (g : Graph V) (u v : V) : Bool :=
  hasEdgeList g.edges u v

/-- `graph.neighbors(v)`: the nodes adjacent to `v`. -/
def Graph.neighbors {V : Type} [DecidableEq V] (g : Graph V) (v : V) : List V :=
  g.nodes.filter (fun u => g.hasEdge v u)

/-- `graph.degree(v)` for a loop-free graph (all claims assume loop-free
graphs; `networkx` would count a self-loop twice). -/
def Graph.degree {V : Type} [DecidableEq V] (g : Graph V) (v : V) : Nat :=
  (g.neighbors v).length

/-! ### DSatur coloring (`dsatur_coloring`) -/

/-- Colors already used by the colored neighbors of `v`
(`{colors[nbr] for nbr in graph.neighbors(node) if nbr in colors}`;
modelled as a list, membership and distinct-count agree with the set). -/
def usedColors {V : Type} [DecidableEq V] (g : Graph V)
    (colors : List (V × Nat)) (v : V) : List Nat :=
  (g.neighbors v).filterMap (fun u => alookup u colors)

/-- Saturation degree: number of distinct colors among colored neighbors. -/
def satDegree {V : Type} [DecidableEq V] (g : Graph V)
    (colors : List (V × Nat)) (v : V) : Nat :=
  (usedColors g colors v).dedup.length

/-- The main `while len(colors) < len(graph.nodes)` loop of
`dsatur_coloring`: pick the uncolored node with maximal
(saturation, degree) — Python's `max`, ties keep the earlier node in node
order — and give it the lowest color unused among its colored neighbors.
`fuel` bounds the iteration count; `graph.nodes.length` is enough. -/
def dsaturLoop {V : Type} [DecidableEq V] (g : Graph V) :
    Nat → List (V × Nat) → List (V × Nat)
  | 0, colors => colors
  | fuel + 1, colors =>
      let uncolored := g.nodes.filter (fun v => (alookup v colors).isNone)
      match pyMaxPair (fun v => (satDegree g colors v, g.degree v)) uncolored with
      | none => colors
      | some v => dsaturLoop g fuel (colors ++ [(v, mex (usedColors g colors v))])

/-- `dsatur_coloring(graph)`: empty graph gives the empty mapping;
otherwise the highest-degree node (first on ties, Python `max` over the
degree dict) gets color 0 and the saturation loop colors the rest. -/
def dsatur_coloring {V : Type} [DecidableEq V] (g : Graph V) : List (V × Nat) :=
  match pyMaxNat (fun v => g.degree v) g.nodes with
  | none => []
  | some start => dsaturLoop g g.nodes.length [(start, 0)]

/-! ### Roster rows and the conflict-graph builder
(`build_enhanced_conflict_graph`, `get_colored_groups`) -/

/-- One roster DataFrame row.  Fields are the columns the engine reads;
`year` is kept as an integer (the roster supplies it as one, the code
round-trips it through `str`/`int`). -/
structure Row where
  studentID : String
  name : String
  subject : String
  department : String
  examDate : String
  examTime : String
  year : Int
  batch : String
deriving DecidableEq

/-- The hard-conflict pass: for every pair `i < j` of rows with identical
exam date and time, an edge (weight 10 in the source; weights are not
load-bearing for coloring). -/
def timeConflictEdges (df : List Row) : List (String × String) :=
  (pairsOf df).filterMap fun p =>
    if p.1.examDate = p.2.examDate ∧ p.1.examTime = p.2.examTime then
      some (p.1.studentID, p.2.studentID)
    else none

/-- `graph.add_node` for every `StudentID`: node set with first-occurrence
insertion order, as `networkx` keeps it. -/
def rosterNodes (df : List Row) : List String :=
  firstKeys (df.map (·.studentID))

/-- The friend pass: keep the supplied pairs whose endpoints are both in
the roster.  (In the source an existing edge only gets its weight bumped;
the edge set is unchanged, so appending the pair is adjacency-equivalent.) -/
def friendEdges (df : List Row) (friendPairs : List (String × String)) :
    List (String × String) :=
  friendPairs.filter fun p =>
    p.1 ∈ df.map (·.studentID) && p.2 ∈ df.map (·.studentID)

/-- Section key `(Batch, Year, Department)` of a row. -/
def sectionKey (r : Row) : String × Int × String :=
  (r.batch, r.year, r.department)

/-- The section pass: inside every `(batch, year, department)` group, an
edge (weight 2) between each pair that has no edge yet.  `existing` is the
edge set before this pass; section groups are disjoint, so within-pass
additions never collide with later checks when student ids are distinct. -/
def sectionEdges (df : List Row) (existing : List (String × String)) :
    List (String × String) :=
  (((groupByKey sectionKey df).map (fun kv => kv.2.map (·.studentID))).map
    (fun students =>
      if students.length > 1 then
        (pairsOf students).filter (fun p => ¬ hasEdgeList existing p.1 p.2)
      else [])).flatten

/-- `build_enhanced_conflict_graph(df, friend_pairs, section_separation)`. -/
def build_enhanced_conflict_graph (df : List Row)
    (friendPairs : List (String × String)) (sectionSeparation : Bool) :
    Graph String :=
  let baseEdges := timeConflictEdges df ++ friendEdges df friendPairs
  { nodes := rosterNodes df
    edges := baseEdges ++
      (if sectionSeparation then sectionEdges df baseEdges else []) }

/-- The basic conflict graph used when both separation flags are off:
exam time conflicts only. -/
def basic_conflict_graph (df : List Row) : Graph String :=
  { nodes := rosterNodes df, edges := timeConflictEdges df }

/-- Turn a coloring into the `defaultdict(list)` of groups
(`groups[color].append(student)` over the mapping in insertion order). -/
def groupsOfColoring (cm : List (String × Nat)) : List (Nat × List String) :=
  cm.foldl (fun gs sc => aappend sc.2 sc.1 gs) []

/-- The graph `get_colored_groups` colors: the enhanced graph when either
separation flag is on (friend pairs dropped when friend separation is off),
else the basic exam-conflict graph. -/
def gcgGraph (df : List Row) (friendPairs : List (String × String))
    (enableFriendSeparation enableSectionSeparation : Bool) : Graph String :=
  if enableFriendSeparation || enableSectionSeparation then
    build_enhanced_conflict_graph df
      (if enableFriendSeparation then friendPairs else []) enableSectionSeparation
  else basic_conflict_graph df

/-- `get_colored_groups(df, friend_pairs, enable_friend_separation,
enable_section_separation)`.  The `friend_pairs=None → fetch from DB` path
is modelled by the caller supplying the fetched set as `friendPairs`. -/
def get_colored_groups (df : List Row) (friendPairs : List (String × String))
    (enableFriendSeparation enableSectionSeparation : Bool) :
    List (Nat × List String) :=
  groupsOfColoring (dsatur_coloring
    (gcgGraph df friendPairs enableFriendSeparation enableSectionSeparation))

/-! ### Room assignment (`room_assignment.py`) -/

/-- A Python exception as a value; both failure sites of
`assign_rooms_to_groups` raise `ValueError(msg)`. -/
inductive PyError where
  | valueError (msg : String)
deriving DecidableEq

/-- The metadata record `extract_student_metadata` builds per student
(the fields downstream code reads; `Year` round-trips `str`/`int` and is
kept as an integer; `Branch` is set from the `Batch` column). -/
structure StudentMeta where
  name : String
  subject : String
  department : String
  examTime : String
  examDate : String
  year : Int
  branch : String
  batch : String
deriving DecidableEq

/-- `extract_student_metadata(df)`: a dict keyed by student id (later rows
overwrite earlier ones, as dict assignment does). -/
def extract_student_metadata (df : List Row) : List (String × StudentMeta) :=
  df.foldl (fun md r => dictInsert r.studentID
    { name := r.name, subject := r.subject, department := r.department
      examTime := r.examTime, examDate := r.examDate, year := r.year
      branch := r.batch, batch := r.batch } md) []

/-- `Student.__init__(student_id, metadata)`. -/
structure Student where
  id : String
  year : Int
  subject : String
  department : String
  branch : String
  batch : String
deriving DecidableEq

def Student.ofMeta (sid : String) (m : StudentMeta) : Student :=
  { id := sid, year := m.year, subject := m.subject
    department := m.department, branch := m.branch, batch := m.batch }

/-- A raw room-configuration dict.  `none` models an absent key; for
`allowed_years`, `none` also covers the empty string (both fall back to
all years 1–6), and a present string/list value is modelled as the parsed
year list. -/
structure RoomConfigInput where
  room_name : String
  capacity : Nat
  max_subjects : Option Nat
  max_branches : Option Nat
  max_departments : Option Nat
  max_years : Option Nat
  allowed_years : Option (List Int)
deriving DecidableEq

def defaultAllowedYears : Finset Int := {1, 2, 3, 4, 5, 6}

/-- `RoomConfig.__init__`: `max_subjects`/`max_branches` default to 0,
`max_departments`/`max_years` default to 2, `allowed_years` defaults to
all years 1–6. -/
structure RoomConfig where
  room_id : String
  capacity : Nat
  max_subjects : Nat
  max_branches : Nat
  max_departments : Nat
  max_years : Nat
  allowed_years : Finset Int
deriving DecidableEq

def RoomConfig.ofConfig (c : RoomConfigInput) : RoomConfig :=
  { room_id := c.room_name
    capacity := c.capacity
    max_subjects := c.max_subjects.getD 0
    max_branches := c.max_branches.getD 0
    max_departments := c.max_departments.getD 2
    max_years := c.max_years.getD 2
    allowed_years :=
      match c.allowed_years with
      | none => defaultAllowedYears
      | some l => l.toFinset }

/-- One room's entry in `room_status` (`remaining_capacity` plus the
attribute sets; FFD also tracks the placed `students`, which the
backtracking variant simply never reads). -/
structure RoomStatus where
  remaining_capacity : Nat
  subjects : Finset String
  branches : Finset String
  years : Finset Int
  departments : Finset String
  students : List String
deriving DecidableEq

def RoomStatus.init (r : RoomConfig) : RoomStatus :=
  { remaining_capacity := r.capacity, subjects := ∅, branches := ∅
    years := ∅, departments := ∅, students := [] }

def RoomStatus.empty : RoomStatus :=
  { remaining_capacity := 0, subjects := ∅, branches := ∅
    years := ∅, departments := ∅, students := [] }

/-- The `room_status` dict comprehension over the room list. -/
def initRoomStatus (rooms : List RoomConfig) : List (String × RoomStatus) :=
  rooms.foldl (fun st r => dictInsert r.room_id (RoomStatus.init r) st) []

/-- `room_status[room_id]` (the default is unreachable: looked-up ids come
from the room list the dict was built over). -/
def statusOf (st : List (String × RoomStatus)) (rid : String) : RoomStatus :=
  (alookup rid st).getD RoomStatus.empty

def groupYears (g : List Student) : Finset Int := (g.map Student.year).toFinset
def groupSubjects (g : List Student) : Finset String := (g.map Student.subject).toFinset
def groupBranches (g : List Student) : Finset String := (g.map Student.branch).toFinset
def groupDepartments (g : List Student) : Finset String := (g.map Student.department).toFinset

/-- The acceptance predicate a room applies to a group: capacity,
allowed years, then the four diversity ceilings (each skipped when its
configured maximum is 0).  This is the FFD loop's inline constraint block,
and `can_place` of the backtracking variant repeats it verbatim. -/
def roomAccepts (room : RoomConfig) (status : RoomStatus)
    (group : List Student) : Bool :=
  if group.length > status.remaining_capacity then false
  else if ¬ (groupYears group ⊆ room.allowed_years) then false
  else if room.max_years > 0 ∧
      (status.years ∪ groupYears group).card > room.max_years then false
  else if room.max_departments > 0 ∧
      (status.departments ∪ groupDepartments group).card > room.max_departments then false
  else if room.max_subjects > 0 ∧
      (status.subjects ∪ groupSubjects group).card > room.max_subjects then false
  else if room.max_branches > 0 ∧
      (status.branches ∪ groupBranches group).card > room.max_branches then false
  else true

/-- The mutation both algorithms perform when a group enters a room. -/
def placeInStatus (status : RoomStatus) (group : List Student) : RoomStatus :=
  { remaining_capacity := status.remaining_capacity - group.length
    subjects := status.subjects ∪ groupSubjects group
    branches := status.branches ∪ groupBranches group
    years := status.years ∪ groupYears group
    departments := status.departments ∪ groupDepartments group
    students := status.students ++ group.map Student.id }

/-- `sorted(groups.values(), key=len, reverse=True)` — stable descending. -/
def sortGroupsDesc (groups : List (List Student)) : List (List Student) :=
  pySorted (fun a b => b.length ≤ a.length) groups

/-- `sorted(rooms, key=remaining_capacity, reverse=True)` — recomputed for
every group in the FFD loop. -/
def ffdSortRooms (rooms : List RoomConfig) (st : List (String × RoomStatus)) :
    List RoomConfig :=
  pySorted (fun a b =>
    (statusOf st b.room_id).remaining_capacity ≤
    (statusOf st a.room_id).remaining_capacity) rooms

/-- The inner `for room in sorted_rooms` search of the FFD loop. -/
def ffdFindRoom (st : List (String × RoomStatus)) (group : List Student) :
    List RoomConfig → Option RoomConfig
  | [] => none
  | r :: rs =>
      if roomAccepts r (statusOf st r.room_id) group then some r
      else ffdFindRoom st group rs

/-- The allocation state both algorithms thread: the accumulating
`assignments` dict and the `room_status` dict. -/
structure AllocState where
  assignments : List (String × List String)
  status : List (String × RoomStatus)
deriving DecidableEq

def AllocState.place (st : AllocState) (rid : String) (group : List Student) :
    AllocState :=
  { assignments := aextend rid (group.map Student.id) st.assignments
    status := aupdate rid (fun s => placeInStatus s group) st.status }

/-- The FFD main loop over the sorted groups; `none` models
`all_groups_placed = False`. -/
def ffdLoop (rooms : List RoomConfig) :
    List (List Student) → AllocState → Option AllocState
  | [], st => some st
  | group :: rest, st =>
      match ffdFindRoom st.status group (ffdSortRooms rooms st.status) with
      | none => none
      | some r => ffdLoop rooms rest (st.place r.room_id group)

/-- `first_fit_decreasing(groups, rooms)`: `None` on failure, else the
nonempty-valued entries of the assignments dict. -/
def first_fit_decreasing (groups : List (List Student))
    (rooms : List RoomConfig) : Option (List (String × List String)) :=
  match ffdLoop rooms (sortGroupsDesc groups)
      { assignments := [], status := initRoomStatus rooms } with
  | none => none
  | some st => some (st.assignments.filter (fun kv => !kv.2.isEmpty))

/-- `can_place(room_id, group_students)`: looks the config up by id
(first match, like `next(r for r in rooms if ...)`) and applies the same
constraint block as FFD.  A missing id would raise `StopIteration`; it is
unreachable because queried ids come from the room list itself. -/
def can_place (rooms : List RoomConfig) (status : List (String × RoomStatus))
    (rid : String) (group : List Student) : Bool :=
  match rooms.find? (fun r => r.room_id = rid) with
  | none => false
  | some roomConfig => roomAccepts roomConfig (statusOf status rid) group

/-- Python's undo of a failed placement: `room_status` is restored from the
saved snapshot and the group's ids are filtered out of the room's
assignment list (the `defaultdict` keeps the touched key, possibly with an
empty list). -/
def AllocState.undo (placed : AllocState) (snapshot : AllocState)
    (rid : String) (group : List Student) : AllocState :=
  { assignments := aupdate rid
      (fun l => l.filter (fun sid => ¬ sid ∈ group.map Student.id))
      placed.assignments
    status := snapshot.status }

/-- The `for room in rooms` loop inside `dfs`: `dfsRest` is the recursive
descent into the remaining groups.  On a failed subtree the next room is
tried from the undone state, exactly as the Python mutate-and-undo does. -/
def btTryRooms (rooms : List RoomConfig)
    (dfsRest : AllocState → Option AllocState) (group : List Student) :
    List RoomConfig → AllocState → Option AllocState
  | [], _ => none
  | r :: rs, st =>
      if can_place rooms st.status r.room_id group then
        match dfsRest (st.place r.room_id group) with
        | some st' => some st'
        | none =>
            btTryRooms rooms dfsRest group rs
              ((st.place r.room_id group).undo st r.room_id group)
      else btTryRooms rooms dfsRest group rs st

/-- The recursive `dfs(index)` of `backtracking_assign`, with the state
passed explicitly: Python mutates shared dicts and undoes on backtrack;
here the callee returns and the caller continues from the undone state. -/
def btDfs (rooms : List RoomConfig) :
    List (List Student) → AllocState → Option AllocState
  | [], st => some st
  | group :: rest, st =>
      btTryRooms rooms (btDfs rooms rest) group rooms st

/-- `backtracking_assign(groups, rooms)`: the nonempty-valued entries on
success, `ValueError` when the search is exhausted. -/
def backtracking_assign (groups : List (List Student))
    (rooms : List RoomConfig) :
    Except PyError (List (String × List String)) :=
  match btDfs rooms (sortGroupsDesc groups)
      { assignments := [], status := initRoomStatus rooms } with
  | some st => Except.ok (st.assignments.filter (fun kv => !kv.2.isEmpty))
  | none => Except.error (PyError.valueError
      "No valid room assignment possible with current constraints")

/-- `assign_rooms_to_groups(groups, student_metadata, rooms_config)`.
Student metadata is supplied as a total map (a missing id would raise
`KeyError` before any allocation; the claims quantify over runs that
return). -/
def assign_rooms_to_groups (groups : List (Nat × List String))
    (meta : String → StudentMeta) (roomsConfig : List RoomConfigInput) :
    Except PyError (List (String × List String)) :=
  let roomObjects := roomsConfig.map RoomConfig.ofConfig
  let studentGroups : List (Nat × List Student) :=
    groups.foldl (fun sg cg =>
      dictInsert cg.1 (cg.2.map (fun sid => Student.ofMeta sid (meta sid))) sg) []
  let totalStudents := (studentGroups.map (fun kv => kv.2.length)).sum
  let totalCapacity := (roomObjects.map RoomConfig.capacity).sum
  if totalStudents > totalCapacity then
    Except.error (PyError.valueError
      s!"Not enough room capacity. Need {totalStudents} seats, have {totalCapacity}")
  else
    match first_fit_decreasing (studentGroups.map Prod.snd) roomObjects with
    | some res => Except.ok res
    | none => backtracking_assign (studentGroups.map Prod.snd) roomObjects

/-- The `room_objects` list of `assign_rooms_to_groups`. -/
def roomObjectsOf (roomsConfig : List RoomConfigInput) : List RoomConfig :=
  roomsConfig.map RoomConfig.ofConfig

/-- The `student_groups` values of `assign_rooms_to_groups` (insertion
order), for distinct color keys. -/
def studentGroupLists (meta : String → StudentMeta)
    (groups : List (Nat × List String)) : List (List Student) :=
  groups.map (fun cg => cg.2.map (fun sid => Student.ofMeta sid (meta sid)))

/-- `total_students` of `assign_rooms_to_groups`. -/
def totalStudentsOf (groups : List (Nat × List String)) : Nat :=
  (groups.map (fun cg => cg.2.length)).sum

/-- `total_capacity` of `assign_rooms_to_groups`. -/
def totalCapacityOf (roomsConfig : List RoomConfigInput) : Nat :=
  ((roomsConfig.map RoomConfig.ofConfig).map RoomConfig.capacity).sum

/-! ### Allocation-state invariants used by the room-assignment proofs -/

/-- The ids assigned to a room so far. -/
def assignedTo (st : AllocState) (rid : String) : List String :=
  (alookup rid st.assignments).getD []

/-- All ids across a list of student groups, in order. -/
def idsOf (gs : List (List Student)) : List String :=
  (gs.map (List.map Student.id)).flatten

/-- Every student record in a group agrees with the metadata it was built
from (`Student(sid, student_metadata[sid])`). -/
def GroupMeta (meta : String → StudentMeta) (group : List Student) : Prop :=
  ∀ s ∈ group, s = Student.ofMeta s.id (meta s.id)

/-- What a room's tracked status and assigned list satisfy throughout both
allocation algorithms. -/
def RoomOk (meta : String → StudentMeta) (r : RoomConfig)
    (l : List String) (s : RoomStatus) : Prop :=
  s.remaining_capacity + l.length = r.capacity ∧
  s.subjects = (l.map (fun sid => (meta sid).subject)).toFinset ∧
  s.branches = (l.map (fun sid => (meta sid).branch)).toFinset ∧
  s.years = (l.map (fun sid => (meta sid).year)).toFinset ∧
  s.departments = (l.map (fun sid => (meta sid).department)).toFinset ∧
  (∀ sid ∈ l, (meta sid).year ∈ r.allowed_years) ∧
  (r.max_years > 0 →
    (l.map (fun sid => (meta sid).year)).toFinset.card ≤ r.max_years) ∧
  (r.max_departments > 0 →
    (l.map (fun sid => (meta sid).department)).toFinset.card ≤ r.max_departments) ∧
  (r.max_subjects > 0 →
    (l.map (fun sid => (meta sid).subject)).toFinset.card ≤ r.max_subjects) ∧
  (r.max_branches > 0 →
    (l.map (fun sid => (meta sid).branch)).toFinset.card ≤ r.max_branches)

/-- The loop invariant of FFD and the backtracking search: assignment keys
are distinct room ids, the assigned ids are exactly the placed ids, and
every room's status is in sync with its assigned list and satisfies all of
its constraints. -/
def Consistent (rooms : List RoomConfig) (meta : String → StudentMeta)
    (st : AllocState) (placed : List String) : Prop :=
  (akeys st.assignments).Nodup ∧
  (∀ k ∈ akeys st.assignments, ∃ r ∈ rooms, r.room_id = k) ∧
  (avaluesJoin st.assignments).Perm placed ∧
  ∀ r ∈ rooms, ∃ s, alookup r.room_id st.status = some s ∧
    RoomOk meta r (assignedTo st r.room_id) s

/-! ### Seat layout (`seat_layout.py`) -/

/-- `get_adjacent_positions(x, y, cols, rows)`: the in-bounds
8-neighborhood of a cell. -/
def get_adjacent_positions (x y cols rows : Nat) : List (Nat × Nat) :=
  (([-1, 0, 1] : List Int).map (fun dx =>
    (([-1, 0, 1] : List Int).map (fun dy =>
      if dx = 0 ∧ dy = 0 then []
      else
        let nx : Int := (x : Int) + dx
        let ny : Int := (y : Int) + dy
        if 0 ≤ nx ∧ nx < (cols : Int) ∧ 0 ≤ ny ∧ ny < (rows : Int) then
          [(nx.toNat, ny.toNat)]
        else [])).flatten)).flatten

/-- `is_adjacent_to_friend`: would seating `student_id` at `(x, y)` put it
next to one of its friends?  (`student_id not in friend_graph` is the
`none` lookup, giving an empty friend set.) -/
def is_adjacent_to_friend (x y : Nat) (student_id : String)
    (assigned_positions : List ((Nat × Nat) × String))
    (friend_graph : List (String × List String)) (cols rows : Nat) : Bool :=
  let friends := (alookup student_id friend_graph).getD []
  (get_adjacent_positions x y cols rows).any fun pos =>
    match alookup pos assigned_positions with
    | some adjacent_student => adjacent_student ∈ friends
    | none => false

/-- `find_non_adjacent_position`: first free cell (row-major) whose
occupied neighbors contain no friend; else the first free cell; else
`None`.  The unused `start_idx=0` parameter of the source is omitted. -/
def find_non_adjacent_position (student_id : String)
    (assigned_positions : List ((Nat × Nat) × String))
    (friend_graph : List (String × List String)) (cols rows : Nat) :
    Option (Nat × Nat × Nat) :=
  let total_seats := cols * rows
  match (List.range total_seats).find? (fun idx =>
      decide (alookup (idx % cols, idx / cols) assigned_positions = none) &&
      !(is_adjacent_to_friend (idx % cols) (idx / cols) student_id
          assigned_positions friend_graph cols rows)) with
  | some idx => some (idx % cols, idx / cols, idx + 1)
  | none =>
      match (List.range total_seats).find? (fun idx =>
          decide (alookup (idx % cols, idx / cols) assigned_positions = none)) with
      | some idx => some (idx % cols, idx / cols, idx + 1)
      | none => none

/-- `interleave_groups(groups)`: one round of the `while any(queues)` loop
takes the head of every non-empty queue, in queue order. -/
def interleaveRounds {α : Type} : Nat → List (List α) → List α
  | 0, _ => []
  | fuel + 1, queues =>
      if queues.all (fun q => q.isEmpty) then []
      else (queues.filterMap List.head?) ++
        interleaveRounds fuel (queues.map List.tail)

def interleave_groups {α : Type} (groups : List (List α)) : List α :=
  let nonEmpty := groups.filter (fun g => !g.isEmpty)
  interleaveRounds (nonEmpty.map List.length).sum nonEmpty

/-- One output seat record (the metadata echo fields carried by the
source's dict are included). -/
structure Seat where
  x : Nat
  y : Nat
  student_id : String
  seat_no : Nat
  name : String
  department : String
  branch : String
  year : Int
  subject : String
  examTime : String
deriving DecidableEq

def mkSeat (x y : Nat) (sid : String) (seat_no : Nat)
    (meta : String → StudentMeta) : Seat :=
  { x := x, y := y, student_id := sid, seat_no := seat_no
    name := (meta sid).name, department := (meta sid).department
    branch := (meta sid).branch, year := (meta sid).year
    subject := (meta sid).subject, examTime := (meta sid).examTime }

/-- The per-room layout lookup: `layout_columns`/`layout_rows` of the
room-config dict, defaulting to the 6×5 grid. -/
def layoutOf (room_config : List (String × (Nat × Nat))) (room : String) :
    Nat × Nat :=
  (alookup room room_config).getD (6, 5)

/-- `year_groups`: group a room's students by their metadata year. -/
def yearGroups (meta : String → StudentMeta) (students : List String) :
    List (Int × List String) :=
  groupByKey (fun sid => (meta sid).year) students

/-- The inner fold of `assign_seats_with_separation`: place one student,
recording the position, the seat and any detected adjacency violation
(the violation list is a local in the source and is dropped from its
return value). -/
def sepPlaceStudent (friend_graph : List (String × List String))
    (meta : String → StudentMeta) (cols rows : Nat)
    (acc : List ((Nat × Nat) × String) × List Seat × List ((Nat × Nat) × String))
    (student_id : String) :
    List ((Nat × Nat) × String) × List Seat × List ((Nat × Nat) × String) :=
  let (assigned, seats, violations) := acc
  match find_non_adjacent_position student_id assigned friend_graph cols rows with
  | none => (assigned, seats, violations)
  | some (x, y, seat_no) =>
      let assigned' := assigned ++ [((x, y), student_id)]
      let violations' :=
        if is_adjacent_to_friend x y student_id assigned' friend_graph cols rows then
          violations ++ [((x, y), student_id)]
        else violations
      (assigned', seats ++ [mkSeat x y student_id seat_no meta], violations')

/-- One room of `assign_seats_with_separation`: the interleaved queue is
placed one student at a time; returns (seats, violations). -/
def sepSeatRoom (friend_graph : List (String × List String))
    (meta : String → StudentMeta) (cols rows : Nat)
    (students : List String) : List Seat × List ((Nat × Nat) × String) :=
  let queue := interleave_groups ((yearGroups meta students).map Prod.snd)
  let r := queue.foldl (sepPlaceStudent friend_graph meta cols rows) ([], [], [])
  (r.2.1, r.2.2)

/-- `assign_seats_with_separation(room_assignment, metadata, room_config,
friend_graph)`: only the seating dict is returned; the collected
`adjacency_violations` list is discarded by the source. -/
def assign_seats_with_separation (room_assignment : List (String × List String))
    (meta : String → StudentMeta) (room_config : List (String × (Nat × Nat)))
    (friend_graph : List (String × List String)) : List (String × List Seat) :=
  room_assignment.foldl (fun seating kv =>
    if kv.2.isEmpty then seating
    else
      let (cols, rows) := layoutOf room_config kv.1
      dictInsert kv.1 (sepSeatRoom friend_graph meta cols rows kv.2).1 seating) []

/-- The final value of the source's local `adjacency_violations` list for
one run of `assign_seats_with_separation` (room, position, student). -/
def adjacencyViolationsOf (room_assignment : List (String × List String))
    (meta : String → StudentMeta) (room_config : List (String × (Nat × Nat)))
    (friend_graph : List (String × List String)) :
    List (String × (Nat × Nat) × String) :=
  room_assignment.foldl (fun acc kv =>
    if kv.2.isEmpty then acc
    else
      let (cols, rows) := layoutOf room_config kv.1
      acc ++ ((sepSeatRoom friend_graph meta cols rows kv.2).2.map
        (fun v => (kv.1, v)))) []

/-- `get_spread_positions(num_students, cols, rows)`: all seats when the
room is full, a two-pass checkerboard when `spacing ≥ 2`, else sequential
row-major fill. -/
def checkerCells (cols rows phase : Nat) : List (Nat × Nat × Nat) :=
  ((List.range rows).map (fun row =>
    ((List.range cols).filter (fun col => col % 2 = (row + phase) % 2)).map
      (fun col => (col, row, row * cols + col + 1)))).flatten

def get_spread_positions (num_students cols rows : Nat) :
    List (Nat × Nat × Nat) :=
  let total_seats := cols * rows
  if num_students ≥ total_seats then
    (List.range total_seats).map (fun i => (i % cols, i / cols, i + 1))
  else
    let spacing := max 1 (total_seats / num_students)
    if spacing ≥ 2 then
      let p0 := checkerCells cols rows 0
      let p1 := (checkerCells cols rows 1).filter (fun pos => ¬ pos ∈ p0)
      (p0 ++ p1).take num_students
    else
      (List.range (min num_students total_seats)).map
        (fun i => (i % cols, i / cols, i + 1))

/-- The spread path of `assign_seats_in_room` for one room: zip the
interleaved queue with the spread positions (`break` once positions run
out). -/
def spreadSeatRoom (meta : String → StudentMeta) (cols rows : Nat)
    (students : List String) : List Seat :=
  let queue := interleave_groups ((yearGroups meta students).map Prod.snd)
  let positions := get_spread_positions queue.length cols rows
  (queue.zip positions).map (fun sp => mkSeat sp.2.1 sp.2.2.1 sp.1 sp.2.2.2 meta)

/-- `assign_seats_in_room(room_assignment, metadata, room_config,
friend_graph)`: the separation path when the friend graph is truthy
(non-`None` and non-empty), else the spread path. -/
def assign_seats_in_room (room_assignment : List (String × List String))
    (meta : String → StudentMeta) (room_config : List (String × (Nat × Nat)))
    (friend_graph : List (String × List String)) : List (String × List Seat) :=
  if !friend_graph.isEmpty then
    assign_seats_with_separation room_assignment meta room_config friend_graph
  else
    room_assignment.foldl (fun seating kv =>
      if kv.2.isEmpty then seating
      else
        let (cols, rows) := layoutOf room_config kv.1
        dictInsert kv.1 (spreadSeatRoom meta cols rows kv.2) seating) []

/-- The friend set of a student (`friend_graph.get(sid, ∅)`). -/
def friendsOf (friend_graph : List (String × List String)) (sid : String) :
    List String :=
  (alookup sid friend_graph).getD []

/-- The invariant of the per-student placement fold: the assigned-position
dict mirrors the seats emitted so far, cells are distinct and in bounds,
and seat numbers follow the row-major formula. -/
def SepInvariant (cols rows : Nat)
    (acc : List ((Nat × Nat) × String) × List Seat ×
      List ((Nat × Nat) × String)) : Prop :=
  acc.1 = acc.2.1.map (fun s => ((s.x, s.y), s.student_id)) ∧
  (acc.1.map Prod.fst).Nodup ∧
  (∀ kv ∈ acc.1, kv.1.1 < cols ∧ kv.1.2 < rows) ∧
  (∀ s ∈ acc.2.1, s.seat_no = s.y * cols + s.x + 1)

/-- Every adjacent related pair among the seats has (at least) one of its
members recorded in the violations list. -/
def SepFlagged (friend_graph : List (String × List String)) (cols rows : Nat)
    (seats : List Seat) (violations : List ((Nat × Nat) × String)) : Prop :=
  ∀ s ∈ seats, ∀ t ∈ seats,
    t.student_id ∈ friendsOf friend_graph s.student_id →
    (t.x, t.y) ∈ get_adjacent_positions s.x s.y cols rows →
    ((s.x, s.y), s.student_id) ∈ violations ∨
      ((t.x, t.y), t.student_id) ∈ violations

/-! ### The three-stage pipeline (C8) -/

/-- Metadata lookup as the engine uses it downstream of
`extract_student_metadata` (ids fed to it always come from the roster). -/
def metaLookup (df : List Row) : String → StudentMeta :=
  fun sid => (alookup sid (extract_student_metadata df)).getD
    { name := "", subject := "", department := "", examTime := ""
      examDate := "", year := 0, branch := "", batch := "" }

/-- The full coloring → room allocation → seat placement pipeline as
`app.py` chains it. -/
def pipeline (df : List Row) (friendPairs : List (String × String))
    (roomsConfig : List RoomConfigInput)
    (room_config : List (String × (Nat × Nat)))
    (friend_graph : List (String × List String)) :
    Except PyError (List (String × List Seat)) :=
  let groups := get_colored_groups df friendPairs true true
  let meta := metaLookup df
  match assign_rooms_to_groups groups meta roomsConfig with
  | Except.error e => Except.error e
  | Except.ok room_assignment =>
      Except.ok (assign_seats_in_room room_assignment meta room_config friend_graph)

/-! ### Concrete fixtures used by witnesses and counterexamples -/

/-- A complete graph on three nodes. -/
def gK3 : Graph Nat := { nodes := [0, 1, 2], edges := [(0, 1), (0, 2), (1, 2)] }

def rowA1 : Row :=
  { studentID := "a", name := "A", subject := "Math", department := "CS"
    examDate := "D1", examTime := "AM", year := 1, batch := "B1" }

def rowA2 : Row :=
  { studentID := "b", name := "B", subject := "Math", department := "CS"
    examDate := "D1", examTime := "AM", year := 1, batch := "B1" }

def rowA3 : Row :=
  { studentID := "c", name := "C", subject := "Phys", department := "CS"
    examDate := "D2", examTime := "AM", year := 2, batch := "B1" }

/-- A three-row roster: `a` and `b` share an exam slot, `c` does not. -/
def dfA : List Row := [rowA1, rowA2, rowA3]

/-- Metadata for the room-assignment fixtures: ids `a`, `b`, `c` carry
years 1, 2, 3 and subjects S1, S2, S3. -/
def metaB : String → StudentMeta := fun sid =>
  { name := sid
    subject := if sid = "a" then "S1" else if sid = "b" then "S2" else "S3"
    department := "D1", examTime := "AM", examDate := "E1"
    year := if sid = "a" then 1 else if sid = "b" then 2 else 3
    branch := "B1", batch := "B1" }

/-- A room `R1` of capacity 2 with every ceiling left to its default. -/
def rcB : RoomConfigInput :=
  { room_name := "R1", capacity := 2, max_subjects := none
    max_branches := none, max_departments := none, max_years := none
    allowed_years := none }

def gB : List (Nat × List String) := [(0, ["a"]), (1, ["b"])]

def resB : List (String × List String) := [("R1", ["a", "b"])]

/-- Rooms allowing only year 1, used by the infeasibility counterexample. -/
def rcY1 : RoomConfigInput :=
  { room_name := "R1", capacity := 2, max_subjects := none
    max_branches := none, max_departments := none, max_years := none
    allowed_years := some [1] }

def rcY2 : RoomConfigInput :=
  { room_name := "R2", capacity := 3, max_subjects := none
    max_branches := none, max_departments := none, max_years := none
    allowed_years := some [1] }

def rB : RoomConfig := RoomConfig.ofConfig rcB

/-- Uniform metadata (one shared year) for the seat-layout fixtures. -/
def metaS : String → StudentMeta := fun sid =>
  { name := sid, subject := "S", department := "D", examTime := "AM"
    examDate := "E1", year := 1, branch := "B", batch := "B" }

/-- A symmetric relationship map: `a` and `b` are friends. -/
def fgAB : List (String × List String) := [("a", ["b"]), ("b", ["a"])]

/-- Soundness of the collected adjacency-violation records: each recorded
(position, student) really is adjacent to an occupied cell holding one of
the student's friends. -/
def ViolSound (friend_graph : List (String × List String)) (cols rows : Nat)
    (assigned : List ((Nat × Nat) × String))
    (violations : List ((Nat × Nat) × String)) : Prop :=
  ∀ v ∈ violations, ∃ fsid, fsid ∈ friendsOf friend_graph v.2 ∧
    ∃ pos ∈ get_adjacent_positions v.1.1 v.1.2 cols rows,
      alookup pos assigned = some fsid

/-- The invariant carried through the DSatur loop: the coloring has
distinct keys, keys are graph nodes, and it is a proper partial coloring. -/
def DsaturInv {V : Type} [DecidableEq V] (g : Graph V)
    (colors : List (V × Nat)) : Prop :=
  (akeys colors).Nodup ∧ (∀ k ∈ akeys colors, k ∈ g.nodes) ∧
  ∀ u w cu cw, alookup u colors = some cu → alookup w colors = some cw →
    u ≠ w → g.hasEdge u w = true → cu ≠ cw

/-! ### Basic lemmas about the dict helpers -/

theorem akeys_nil {κ α : Type} : akeys ([] : List (κ × α)) = [] := rfl

theorem akeys_cons {κ α : Type} (p : κ × α) (m : List (κ × α)) :
    akeys (p :: m) = p.1 :: akeys m := rfl

theorem akeys_append {κ α : Type} (m₁ m₂ : List (κ × α)) :
    akeys (m₁ ++ m₂) = akeys m₁ ++ akeys m₂ :=
  List.map_append _ _ _

theorem alookup_eq_none {κ α : Type} [DecidableEq κ] {k : κ} :
    ∀ {m : List (κ × α)}, alookup k m = none ↔ k ∉ akeys m
  | [] => by simp [alookup, akeys]
  | (k', v) :: rest => by
      rcases eq_or_ne k' k with rfl | h
      · simp [alookup, akeys_cons]
      · simp [alookup, akeys_cons, h, Ne.symm h, alookup_eq_none (m := rest)]

theorem alookup_isSome {κ α : Type} [DecidableEq κ] {k : κ} {m : List (κ × α)} :
    (alookup k m).isSome ↔ k ∈ akeys m := by
  rcases h : alookup k m with _ | v
  · simpa using alookup_eq_none.mp h
  · have : ¬ alookup k m = none := by simp [h]
    rw [alookup_eq_none] at this
    simpa using this

theorem alookup_mem {κ α : Type} [DecidableEq κ] {k : κ} {v : α} :
    ∀ {m : List (κ × α)}, alookup k m = some v → (k, v) ∈ m
  | [], h => by simp [alookup] at h
  | (k', v') :: rest, h => by
      rcases eq_or_ne k' k with rfl | hk
      · have he : v' = v := by
          have hl : alookup k' ((k', v') :: rest) = some v' := by simp [alookup]
          rw [hl] at h
          exact Option.some.inj h
        subst he
        exact List.mem_cons_self _ _
      · simp only [alookup, if_neg hk] at h
        exact List.mem_cons_of_mem _ (alookup_mem h)

theorem mem_alookup {κ α : Type} [DecidableEq κ] {k : κ} {v : α} :
    ∀ {m : List (κ × α)}, (akeys m).Nodup → (k, v) ∈ m → alookup k m = some v
  | [], _, h => by simp at h
  | (k', v') :: rest, hnd, h => by
      rw [akeys_cons, List.nodup_cons] at hnd
      rcases List.mem_cons.mp h with heq | hmem
      · cases heq
        simp [alookup]
      · have hk : k' ≠ k := by
          rintro rfl
          have hmk := List.mem_map_of_mem Prod.fst hmem
          exact hnd.1 (by simpa [akeys] using hmk)
        rw [show alookup k ((k', v') :: rest) = alookup k rest from by
              simp [alookup, hk]]
        exact mem_alookup hnd.2 hmem

theorem alookup_append {κ α : Type} [DecidableEq κ] {k : κ} :
    ∀ {m₁ m₂ : List (κ × α)},
      alookup k (m₁ ++ m₂) =
        (match alookup k m₁ with
         | some v => some v
         | none => alookup k m₂)
  | [], m₂ => by simp [alookup]
  | (k', v') :: rest, m₂ => by
      rcases eq_or_ne k' k with rfl | h
      · simp [alookup]
      · simp only [List.cons_append, alookup, if_neg h]
        exact @alookup_append _ _ _ k rest m₂

theorem alookup_single {κ α : Type} [DecidableEq κ] {k k' : κ} {v : α} :
    alookup k [(k', v)] = if k' = k then some v else none := by
  simp [alookup]

/-! ### `mex` returns an unused color -/

theorem length_filter_le_of_imp {l : List Nat} {p q : Nat → Bool}
    (h : ∀ x, p x = true → q x = true) :
    (l.filter p).length ≤ (l.filter q).length := by
  induction l with
  | nil => simp
  | cons a t ih =>
    rcases hp : p a with _ | _
    · rcases hq : q a with _ | _ <;>
        simp [List.filter_cons, hp, hq] <;> omega
    · simp [List.filter_cons, hp, h a hp]
      omega

theorem filter_ge_succ_lt {used : List Nat} {c : Nat} (hc : c ∈ used) :
    (used.filter (fun x => decide (c + 1 ≤ x))).length <
      (used.filter (fun x => decide (c ≤ x))).length := by
  induction used with
  | nil => cases hc
  | cons a t ih =>
    have hmono := length_filter_le_of_imp (l := t)
      (p := fun x => decide (c + 1 ≤ x)) (q := fun x => decide (c ≤ x))
      (fun x hx => by simp at hx ⊢; omega)
    by_cases h1 : c + 1 ≤ a
    · have h2 : c ≤ a := Nat.le_of_succ_le h1
      have hmem : c ∈ t := by
        rcases List.mem_cons.mp hc with rfl | hm
        · omega
        · exact hm
      have e1 : decide (c + 1 ≤ a) = true := by simp [h1]
      have e2 : decide (c ≤ a) = true := by simp [h2]
      simp only [List.filter_cons]
      rw [e1, e2]
      have := ih hmem
      simp at this ⊢
      omega
    · by_cases h2 : c ≤ a
      · simp only [List.filter_cons]
        have e1 : decide (c + 1 ≤ a) = false := by simp [h1]
        have e2 : decide (c ≤ a) = true := by simp [h2]
        rw [e1, e2]
        simp only [if_false, if_true, List.length_cons, Bool.false_eq_true, if_neg]
        omega
      · have hmem : c ∈ t := by
          rcases List.mem_cons.mp hc with rfl | hm
          · omega
          · exact hm
        have e1 : decide (c + 1 ≤ a) = false := by simp [h1]
        have e2 : decide (c ≤ a) = false := by simp [h2]
        simp only [List.filter_cons]
        rw [e1, e2]
        simpa using ih hmem

theorem mexAux_not_mem {used : List Nat} :
    ∀ (fuel c : Nat), (used.filter (fun x => decide (c ≤ x))).length < fuel →
      mexAux used fuel c ∉ used := by
  intro fuel
  induction fuel with
  | zero => intro c h; omega
  | succ n ih =>
    intro c h
    by_cases hc : c ∈ used
    · have hlt := filter_ge_succ_lt hc
      simp only [mexAux, if_pos hc]
      exact ih (c + 1) (by omega)
    · simp [mexAux, hc]

theorem mex_not_mem (used : List Nat) : mex used ∉ used := by
  apply mexAux_not_mem
  have : (used.filter (fun x => decide (0 ≤ x))).length ≤ used.length :=
    List.length_filter_le _ _
  omega

/-! ### Python `max` -/

theorem pyFold_mem {α : Type} (better : α → α → Bool) :
    ∀ (xs : List α) (b : α),
      xs.foldl (fun best y => if better best y then y else best) b ∈ b :: xs
  | [], b => by simp
  | y :: ys, b => by
      simp only [List.foldl_cons]
      by_cases h : better b y = true
      · rw [if_pos h]
        have := pyFold_mem better ys y
        simp only [List.mem_cons] at this ⊢
        tauto
      · rw [if_neg h]
        have := pyFold_mem better ys b
        simp only [List.mem_cons] at this ⊢
        tauto

theorem pyMaxBy_mem {α : Type} {better : α → α → Bool} :
    ∀ {l : List α} {x : α}, pyMaxBy better l = some x → x ∈ l := by
  intro l x
  cases l with
  | nil => simp [pyMaxBy]
  | cons a t =>
    simp only [pyMaxBy, Option.some.injEq]
    rintro rfl
    exact pyFold_mem better t a

theorem pyMaxBy_eq_none {α : Type} {better : α → α → Bool} :
    ∀ {l : List α}, pyMaxBy better l = none ↔ l = [] := by
  intro l
  cases l <;> simp [pyMaxBy]

theorem insertStable_perm {α : Type} (le : α → α → Bool) (x : α) :
    ∀ (l : List α), (insertStable le x l).Perm (x :: l)
  | [] => List.Perm.refl _
  | y :: ys => by
      rw [insertStable]
      by_cases h : le y x = true
      · rw [if_pos h]
        exact ((insertStable_perm le x ys).cons y).trans (List.Perm.swap _ _ _)
      · rw [if_neg h]

theorem pySorted_perm {α : Type} (le : α → α → Bool) (l : List α) :
    (pySorted le l).Perm l := by
  have haux : ∀ (t acc : List α),
      (t.foldl (fun acc x => insertStable le x acc) acc).Perm (acc ++ t) := by
    intro t
    induction t with
    | nil => intro acc; simp
    | cons x ts ih =>
      intro acc
      simp only [List.foldl_cons]
      have h1 := ih (insertStable le x acc)
      have h2 : (insertStable le x acc ++ ts).Perm ((x :: acc) ++ ts) :=
        List.Perm.append_right ts (insertStable_perm le x acc)
      have h3 : ((x :: acc) ++ ts).Perm (acc ++ x :: ts) := List.perm_middle.symm
      exact (h1.trans h2).trans h3
  have hl := haux l []
  rw [List.nil_append] at hl
  exact hl

/-! ### DSatur: invariants, totality, properness -/

theorem hasEdgeList_symm {V : Type} [DecidableEq V] {es : List (V × V)} {u v : V}
    (h : hasEdgeList es u v = true) : hasEdgeList es v u = true := by
  rw [hasEdgeList, List.any_eq_true] at h ⊢
  obtain ⟨e, he, hcond⟩ := h
  exact ⟨e, he, by revert hcond; simp; tauto⟩

theorem Graph.hasEdge_symm {V : Type} [DecidableEq V] {g : Graph V} {u v : V}
    (h : g.hasEdge u v = true) : g.hasEdge v u = true :=
  hasEdgeList_symm h

theorem mem_neighbors {V : Type} [DecidableEq V] {g : Graph V} {u v : V} :
    u ∈ g.neighbors v ↔ u ∈ g.nodes ∧ g.hasEdge v u = true := by
  simp [Graph.neighbors]

theorem mem_usedColors {V : Type} [DecidableEq V] {g : Graph V}
    {colors : List (V × Nat)} {v w : V} {cw : Nat}
    (hw : w ∈ g.neighbors v) (h : alookup w colors = some cw) :
    cw ∈ usedColors g colors v :=
  List.mem_filterMap.mpr ⟨w, hw, h⟩

theorem dsaturStep_inv {V : Type} [DecidableEq V] (g : Graph V)
    {colors : List (V × Nat)} {v : V} (hv : v ∈ g.nodes)
    (hnone : alookup v colors = none) (hinv : DsaturInv g colors) :
    DsaturInv g (colors ++ [(v, mex (usedColors g colors v))]) := by
  obtain ⟨hnd, hsub, hprop⟩ := hinv
  have hvk : v ∉ akeys colors := alookup_eq_none.mp hnone
  refine ⟨?_, ?_, ?_⟩
  · rw [akeys_append]
    simp only [akeys_cons, akeys_nil]
    rw [List.nodup_append]
    exact ⟨hnd, List.nodup_singleton v, by simpa using hvk⟩
  · intro k hk
    rw [akeys_append] at hk
    rcases List.mem_append.mp hk with h | h
    · exact hsub k h
    · simp only [akeys_cons, akeys_nil, List.mem_singleton] at h
      subst h
      exact hv
  · intro u w cu cw hu hw hne hedge
    rw [alookup_append] at hu hw
    rcases h1 : alookup u colors with _ | cu' <;>
      rcases h2 : alookup w colors with _ | cw' <;>
      rw [h1] at hu <;> rw [h2] at hw <;>
      simp only [alookup_single] at hu hw
    · -- both new: both must be v, contradicting u ≠ w
      rcases eq_or_ne v u with rfl | hvu
      · rcases eq_or_ne v w with rfl | hvw
        · exact absurd rfl hne
        · rw [if_neg hvw] at hw; cases hw
      · rw [if_neg hvu] at hu; cases hu
    · -- u is the new node v, w was already colored
      rcases eq_or_ne v u with rfl | hvu
      · rw [if_pos rfl] at hu
        have hwnb : w ∈ g.neighbors v := by
          rw [mem_neighbors]
          exact ⟨hsub w (alookup_isSome.mp (by simp [h2])), hedge⟩
        have hused : cw' ∈ usedColors g colors v := mem_usedColors hwnb h2
        have hmex := mex_not_mem (usedColors g colors v)
        rw [← Option.some.inj hu, ← Option.some.inj hw]
        intro hcc
        exact hmex (hcc ▸ hused)
      · rw [if_neg hvu] at hu; cases hu
    · -- w is the new node v, u was already colored
      rcases eq_or_ne v w with rfl | hvw
      · rw [if_pos rfl] at hw
        have hunb : u ∈ g.neighbors v := by
          rw [mem_neighbors]
          exact ⟨hsub u (alookup_isSome.mp (by simp [h1])),
            Graph.hasEdge_symm hedge⟩
        have hused : cu' ∈ usedColors g colors v := mem_usedColors hunb h1
        have hmex := mex_not_mem (usedColors g colors v)
        rw [← Option.some.inj hu, ← Option.some.inj hw]
        intro hcc
        exact hmex (hcc ▸ hused)
      · rw [if_neg hvw] at hw; cases hw
    · have hcu : cu' = cu := Option.some.inj hu
      have hcw : cw' = cw := Option.some.inj hw
      exact hprop u w cu cw (hcu ▸ h1) (hcw ▸ h2) hne hedge

theorem dsaturLoop_inv {V : Type} [DecidableEq V] (g : Graph V) :
    ∀ (fuel : Nat) (colors : List (V × Nat)), DsaturInv g colors →
      DsaturInv g (dsaturLoop g fuel colors) := by
  intro fuel
  induction fuel with
  | zero => intro colors h; exact h
  | succ n ih =>
    intro colors h
    rw [dsaturLoop]
    rcases hmax : pyMaxPair
        (fun v => (satDegree g colors v, g.degree v))
        (g.nodes.filter (fun v => (alookup v colors).isNone)) with _ | v
    · exact h
    · have hvmem := pyMaxBy_mem hmax
      rw [List.mem_filter] at hvmem
      exact ih _ (dsaturStep_inv g hvmem.1
        (by simpa using hvmem.2) h)

/-- Lookup in a coloring extended by one node. -/
theorem alookup_snoc_isNone {V : Type} [DecidableEq V]
    (colors : List (V × Nat)) (v u : V) (c : Nat) :
    (alookup u (colors ++ [(v, c)])).isNone
      = ((alookup u colors).isNone && decide (¬ u = v)) := by
  rw [alookup_append]
  rcases h : alookup u colors with _ | cu
  · rw [alookup_single]
    rcases eq_or_ne v u with rfl | hvu
    · simp
    · simp [if_neg hvu, Ne.symm hvu]
  · simp

theorem dsaturLoop_total {V : Type} [DecidableEq V] (g : Graph V) :
    ∀ (fuel : Nat) (colors : List (V × Nat)),
      (g.nodes.filter (fun v => (alookup v colors).isNone)).length ≤ fuel →
      ∀ v ∈ g.nodes, (alookup v (dsaturLoop g fuel colors)).isSome := by
  intro fuel
  induction fuel with
  | zero =>
    intro colors hlen v hv
    have hempty : g.nodes.filter (fun v => (alookup v colors).isNone) = [] :=
      List.eq_nil_of_length_eq_zero (Nat.le_zero.mp hlen)
    rw [dsaturLoop]
    have := List.filter_eq_nil_iff.mp hempty v hv
    rcases hl : alookup v colors with _ | c
    · exact absurd (by simp [hl]) this
    · simp
  | succ n ih =>
    intro colors hlen v hv
    rw [dsaturLoop]
    rcases hmax : pyMaxPair
        (fun w => (satDegree g colors w, g.degree w))
        (g.nodes.filter (fun w => (alookup w colors).isNone)) with _ | w
    · have hempty := pyMaxBy_eq_none.mp hmax
      have := List.filter_eq_nil_iff.mp hempty v hv
      rcases hl : alookup v colors with _ | c
      · exact absurd (by simp [hl]) this
      · simp
    · have hwmem := pyMaxBy_mem hmax
      apply ih
      · -- the uncolored list shrinks by at least the element w
        have hfe : g.nodes.filter
              (fun u => (alookup u (colors ++ [(w, mex (usedColors g colors w))])).isNone)
            = (g.nodes.filter (fun u => (alookup u colors).isNone)).filter
                (fun u => decide (¬ u = w)) := by
          rw [List.filter_filter]
          apply List.filter_congr
          intro u _
          rw [alookup_snoc_isNone, Bool.and_comm]
        rw [hfe]
        have hlt : ((g.nodes.filter (fun u => (alookup u colors).isNone)).filter
              (fun u => decide (¬ u = w))).length
            < (g.nodes.filter (fun u => (alookup u colors).isNone)).length := by
          apply List.length_filter_lt_length_iff_exists.mpr
          exact ⟨w, hwmem, by simp⟩
        omega
      · exact hv

theorem dsatur_inv {V : Type} [DecidableEq V] (g : Graph V) :
    DsaturInv g (dsatur_coloring g) := by
  rw [dsatur_coloring]
  rcases hmax : pyMaxNat (fun v => g.degree v) g.nodes with _ | start
  · exact ⟨List.nodup_nil, by simp [akeys], by simp [alookup]⟩
  · apply dsaturLoop_inv
    refine ⟨by simp [akeys], ?_, ?_⟩
    · intro k hk
      simp only [akeys_cons, akeys_nil, List.mem_singleton] at hk
      subst hk
      exact pyMaxBy_mem hmax
    · intro u w cu cw hu hw hne _
      rw [alookup_single] at hu hw
      rcases eq_or_ne start u with rfl | h1
      · rcases eq_or_ne start w with rfl | h2
        · exact absurd rfl hne
        · rw [if_neg h2] at hw; cases hw
      · rw [if_neg h1] at hu; cases hu

theorem dsatur_total {V : Type} [DecidableEq V] (g : Graph V) :
    ∀ v ∈ g.nodes, (alookup v (dsatur_coloring g)).isSome := by
  rw [dsatur_coloring]
  rcases hmax : pyMaxNat (fun v => g.degree v) g.nodes with _ | start
  · intro v hv
    rw [pyMaxNat, pyMaxBy_eq_none] at hmax
    rw [hmax] at hv
    cases hv
  · apply dsaturLoop_total
    calc (g.nodes.filter (fun v => (alookup v [(start, 0)]).isNone)).length
        ≤ g.nodes.length := List.length_filter_le _ _

/-! ### `firstKeys`, group folds, pair scans -/

theorem firstKeys_aux {κ : Type} [DecidableEq κ] :
    ∀ (l acc : List κ), acc.Nodup →
      (l.foldl (fun acc k => if k ∈ acc then acc else acc ++ [k]) acc).Nodup ∧
      (∀ a, a ∈ l.foldl (fun acc k => if k ∈ acc then acc else acc ++ [k]) acc ↔
        a ∈ acc ∨ a ∈ l) := by
  intro l
  induction l with
  | nil => intro acc h; simpa using h
  | cons x t ih =>
    intro acc hacc
    simp only [List.foldl_cons]
    by_cases hx : x ∈ acc
    · rw [if_pos hx]
      obtain ⟨h1, h2⟩ := ih acc hacc
      refine ⟨h1, fun a => ?_⟩
      rw [h2]
      constructor
      · rintro (h | h)
        · exact Or.inl h
        · exact Or.inr (List.mem_cons_of_mem _ h)
      · rintro (h | h)
        · exact Or.inl h
        · rcases List.mem_cons.mp h with rfl | h
          · exact Or.inl hx
          · exact Or.inr h
    · rw [if_neg hx]
      have hacc' : (acc ++ [x]).Nodup := by
        rw [List.nodup_append]
        exact ⟨hacc, List.nodup_singleton x, by simpa using hx⟩
      obtain ⟨h1, h2⟩ := ih (acc ++ [x]) hacc'
      refine ⟨h1, fun a => ?_⟩
      rw [h2]
      simp only [List.mem_append, List.mem_singleton, List.mem_cons]
      tauto

theorem firstKeys_nodup {κ : Type} [DecidableEq κ] (l : List κ) :
    (firstKeys l).Nodup :=
  (firstKeys_aux l [] List.nodup_nil).1

theorem mem_firstKeys {κ : Type} [DecidableEq κ] {l : List κ} {a : κ} :
    a ∈ firstKeys l ↔ a ∈ l := by
  rw [firstKeys, (firstKeys_aux l [] List.nodup_nil).2]
  simp

theorem firstKeys_eq_self {κ : Type} [DecidableEq κ] :
    ∀ {l : List κ}, l.Nodup → firstKeys l = l := by
  have haux : ∀ (l acc : List κ), l.Nodup → (∀ a ∈ l, a ∉ acc) →
      l.foldl (fun acc k => if k ∈ acc then acc else acc ++ [k]) acc = acc ++ l := by
    intro l
    induction l with
    | nil => intro acc _ _; simp
    | cons x t ih =>
      intro acc hnd hdis
      rw [List.nodup_cons] at hnd
      simp only [List.foldl_cons]
      rw [if_neg (hdis x (List.mem_cons_self x t))]
      rw [ih (acc ++ [x]) hnd.2 ?_]
      · simp
      · intro a ha
        simp only [List.mem_append, List.mem_singleton]
        rintro (h | rfl)
        · exact hdis a (List.mem_cons_of_mem _ ha) h
        · exact hnd.1 ha
  intro l hl
  simpa using haux l [] hl (by simp)

theorem avaluesJoin_aappend {κ : Type} [DecidableEq κ] (k : κ) (x : String) :
    ∀ (m : List (κ × List String)),
      (avaluesJoin (aappend k x m)).Perm (avaluesJoin m ++ [x])
  | [] => by simp [aappend, aextend, avaluesJoin]
  | (k', l) :: rest => by
      by_cases h : k' = k
      · simp only [aappend, aextend, if_pos h, avaluesJoin, List.map_cons,
          List.flatten_cons]
        have hstep : ((l ++ [x]) ++ (rest.map Prod.snd).flatten).Perm
            ((l ++ (rest.map Prod.snd).flatten) ++ [x]) := by
          simp only [List.append_assoc]
          exact List.Perm.append_left l (List.perm_append_comm)
        simpa [avaluesJoin] using hstep
      · simp only [aappend, aextend, if_neg h, avaluesJoin, List.map_cons,
          List.flatten_cons]
        have ih := avaluesJoin_aappend k x rest
        have h1 : (l ++ avaluesJoin (aextend k [x] rest)).Perm
            (l ++ (avaluesJoin rest ++ [x])) :=
          List.Perm.append_left l (by simpa [aappend, avaluesJoin] using ih)
        simpa [avaluesJoin, List.append_assoc] using h1

theorem avaluesJoin_groups_fold :
    ∀ (cm : List (String × Nat)) (gs : List (Nat × List String)),
      (avaluesJoin (cm.foldl (fun gs sc => aappend sc.2 sc.1 gs) gs)).Perm
        (avaluesJoin gs ++ cm.map Prod.fst)
  | [], gs => by simp
  | (s, c) :: rest, gs => by
      simp only [List.foldl_cons, List.map_cons]
      have h1 := avaluesJoin_groups_fold rest (aappend c s gs)
      have h2 : (avaluesJoin (aappend c s gs) ++ rest.map Prod.fst).Perm
          ((avaluesJoin gs ++ [s]) ++ rest.map Prod.fst) :=
        List.Perm.append_right _ (avaluesJoin_aappend c s gs)
      have h3 := h1.trans h2
      simpa [List.append_assoc] using h3

theorem avaluesJoin_groupsOfColoring (cm : List (String × Nat)) :
    (avaluesJoin (groupsOfColoring cm)).Perm (cm.map Prod.fst) := by
  have := avaluesJoin_groups_fold cm []
  simpa [groupsOfColoring, avaluesJoin] using this

theorem aappend_forall {κ : Type} [DecidableEq κ] {P : κ → String → Prop}
    {k : κ} {x : String} (hx : P k x) :
    ∀ {m : List (κ × List String)},
      (∀ kv ∈ m, ∀ y ∈ kv.2, P kv.1 y) →
      ∀ kv ∈ aappend k x m, ∀ y ∈ kv.2, P kv.1 y
  | [], _ => by
      intro kv hkv y hy
      simp only [aappend, aextend, List.mem_singleton] at hkv
      subst hkv
      simp only [List.mem_singleton] at hy
      subst hy
      exact hx
  | (k', l) :: rest, hm => by
      intro kv hkv y hy
      by_cases h : k' = k
      · simp only [aappend, aextend, if_pos h] at hkv
        rcases List.mem_cons.mp hkv with rfl | hmem
        · simp only [List.mem_append, List.mem_singleton] at hy
          rcases hy with hy | rfl
          · exact hm (k', l) (List.mem_cons_self _ _) y hy
          · exact h ▸ hx
        · exact hm kv (List.mem_cons_of_mem _ hmem) y hy
      · simp only [aappend, aextend, if_neg h] at hkv
        rcases List.mem_cons.mp hkv with rfl | hmem
        · exact hm (k', l) (List.mem_cons_self _ _) y hy
        · exact aappend_forall hx
            (fun kv hkv => hm kv (List.mem_cons_of_mem _ hkv)) kv
            (by simpa [aappend] using hmem) y hy

theorem groupsOfColoring_mem :
    ∀ (cm : List (String × Nat)) {c : Nat} {gl : List String},
      (c, gl) ∈ groupsOfColoring cm → ∀ s ∈ gl, (s, c) ∈ cm := by
  have haux : ∀ (l : List (String × Nat)) (gs : List (Nat × List String))
      (P : Nat → String → Prop),
      (∀ kv ∈ gs, ∀ y ∈ kv.2, P kv.1 y) →
      (∀ sc ∈ l, P sc.2 sc.1) →
      ∀ kv ∈ l.foldl (fun gs sc => aappend sc.2 sc.1 gs) gs, ∀ y ∈ kv.2, P kv.1 y := by
    intro l
    induction l with
    | nil => intro gs P hgs _; exact hgs
    | cons sc rest ih =>
      intro gs P hgs hl
      simp only [List.foldl_cons]
      exact ih _ P
        (aappend_forall (hl sc (List.mem_cons_self _ _)) hgs)
        (fun sc' h => hl sc' (List.mem_cons_of_mem _ h))
  intro cm c gl hmem s hs
  exact haux cm [] (fun c s => (s, c) ∈ cm) (by simp) (fun sc h => h)
    (c, gl) hmem s hs

theorem pairsOf_mem {α : Type} :
    ∀ {l : List α} {a b : α}, a ∈ l → b ∈ l → a ≠ b →
      (a, b) ∈ pairsOf l ∨ (b, a) ∈ pairsOf l := by
  intro l
  induction l with
  | nil => intro a b ha; cases ha
  | cons x t ih =>
    intro a b ha hb hne
    rcases List.mem_cons.mp ha with rfl | ha'
    · have hb' : b ∈ t := by
        rcases List.mem_cons.mp hb with rfl | h
        · exact absurd rfl hne
        · exact h
      exact Or.inl (by
        simp only [pairsOf, List.mem_append]
        exact Or.inl (List.mem_map_of_mem _ hb'))
    · rcases List.mem_cons.mp hb with rfl | hb'
      · exact Or.inr (by
          simp only [pairsOf, List.mem_append]
          exact Or.inl (List.mem_map_of_mem _ ha'))
      · rcases ih ha' hb' hne with h | h
        · exact Or.inl (by simp [pairsOf, List.mem_append, h])
        · exact Or.inr (by simp [pairsOf, List.mem_append, h])

theorem hasEdgeList_of_mem {V : Type} [DecidableEq V] {es : List (V × V)}
    {a b : V} (h : (a, b) ∈ es) : hasEdgeList es a b = true := by
  rw [hasEdgeList, List.any_eq_true]
  exact ⟨(a, b), h, by simp⟩

theorem hasEdgeList_append_left {V : Type} [DecidableEq V]
    {es es' : List (V × V)} {a b : V} (h : hasEdgeList es a b = true) :
    hasEdgeList (es ++ es') a b = true := by
  rw [hasEdgeList, List.any_eq_true] at h ⊢
  obtain ⟨e, he, hc⟩ := h
  exact ⟨e, List.mem_append_left _ he, hc⟩

/-- The colored keys are a permutation of the graph's nodes. -/
theorem dsatur_keys_perm {V : Type} [DecidableEq V] (g : Graph V)
    (hnd : g.nodes.Nodup) : (akeys (dsatur_coloring g)).Perm g.nodes := by
  obtain ⟨hknd, hsub, _⟩ := dsatur_inv g
  apply List.Subperm.antisymm
  · exact List.subperm_of_subset hknd (fun a ha => hsub a ha)
  · apply List.subperm_of_subset hnd
    intro v hv
    exact alookup_isSome.mp (dsatur_total g v hv)

/-! ### Claim C6: DSatur always yields a proper total coloring -/

/-- **C6.** For every finite (simple) graph — nodes distinct, edge endpoints
among the nodes, no self-loops — `dsatur_coloring` returns a color for
every node, the endpoints of every edge get different colors, the empty
graph yields the empty mapping, a single node gets the single color 0, and
a complete graph on `k` nodes receives exactly `k` distinct colors. -/
theorem dsatur_coloring_valid_c6 {V : Type} [DecidableEq V] (g : Graph V)
    (hnd : g.nodes.Nodup)
    (hends : ∀ e ∈ g.edges, e.1 ∈ g.nodes ∧ e.2 ∈ g.nodes)
    (hloop : ∀ e ∈ g.edges, e.1 ≠ e.2) :
    (∀ v ∈ g.nodes, ∃ c, alookup v (dsatur_coloring g) = some c)
    ∧ (∀ e ∈ g.edges, ∃ c1 c2, alookup e.1 (dsatur_coloring g) = some c1 ∧
        alookup e.2 (dsatur_coloring g) = some c2 ∧ c1 ≠ c2)
    ∧ (g.nodes = [] → dsatur_coloring g = [])
    ∧ (∀ v, g.nodes = [v] → dsatur_coloring g = [(v, 0)])
    ∧ ((∀ u ∈ g.nodes, ∀ w ∈ g.nodes, u ≠ w → g.hasEdge u w = true) →
        ((dsatur_coloring g).map Prod.snd).dedup.length = g.nodes.length) := by
  obtain ⟨hknd, hsub, hprop⟩ := dsatur_inv g
  refine ⟨?_, ?_, ?_, ?_, ?_⟩
  · intro v hv
    exact Option.isSome_iff_exists.mp (dsatur_total g v hv)
  · intro e he
    obtain ⟨c1, h1⟩ := Option.isSome_iff_exists.mp
      (dsatur_total g e.1 (hends e he).1)
    obtain ⟨c2, h2⟩ := Option.isSome_iff_exists.mp
      (dsatur_total g e.2 (hends e he).2)
    have hme : (e.1, e.2) ∈ g.edges := by
      obtain ⟨a, b⟩ := e
      exact he
    exact ⟨c1, c2, h1, h2,
      hprop e.1 e.2 c1 c2 h1 h2 (hloop e he) (hasEdgeList_of_mem hme)⟩
  · intro h
    rw [dsatur_coloring]
    rcases hmax : pyMaxNat (fun v => g.degree v) g.nodes with _ | s
    · rfl
    · have := pyMaxBy_mem hmax
      rw [h] at this
      cases this
  · intro v h
    rw [dsatur_coloring]
    have h1 : pyMaxNat (fun w => g.degree w) g.nodes = some v := by
      rw [h]
      rfl
    rw [h1]
    have h2 : g.nodes.length = 1 := by rw [h]; rfl
    rw [h2]
    have h3 : g.nodes.filter (fun u => (alookup u [(v, 0)]).isNone) = [] := by
      rw [h]
      simp [alookup]
    show dsaturLoop g (0 + 1) [(v, 0)] = [(v, 0)]
    rw [dsaturLoop]
    simp only [h3]
    rfl
  · intro hcomp
    have hperm := dsatur_keys_perm g hnd
    have hlen : (dsatur_coloring g).length = g.nodes.length := by
      have := hperm.length_eq
      simpa [akeys] using this
    have hpw0 : List.Pairwise (fun a b => a ≠ b)
        (akeys (dsatur_coloring g)) := hknd
    rw [akeys] at hpw0
    have hpw1 := List.pairwise_map.mp hpw0
    have hpw2 : (dsatur_coloring g).Pairwise (fun a b => a.2 ≠ b.2) := by
      refine List.Pairwise.imp_of_mem (fun {a b} ha hb hr => ?_) hpw1
      have hma : (a.1, a.2) ∈ dsatur_coloring g := by
        obtain ⟨x, y⟩ := a; exact ha
      have hmb : (b.1, b.2) ∈ dsatur_coloring g := by
        obtain ⟨x, y⟩ := b; exact hb
      have h1 : alookup a.1 (dsatur_coloring g) = some a.2 := mem_alookup hknd hma
      have h2 : alookup b.1 (dsatur_coloring g) = some b.2 := mem_alookup hknd hmb
      have hna : a.1 ∈ g.nodes := hsub a.1 (List.mem_map_of_mem Prod.fst ha)
      have hnb : b.1 ∈ g.nodes := hsub b.1 (List.mem_map_of_mem Prod.fst hb)
      exact hprop a.1 b.1 a.2 b.2 h1 h2 hr (hcomp a.1 hna b.1 hnb hr)
    have hnd2 : ((dsatur_coloring g).map Prod.snd).Nodup :=
      List.pairwise_map.mpr hpw2
    rw [List.dedup_eq_self.mpr hnd2, List.length_map, hlen]

/-- Witness for C6: the complete graph on 3 nodes gets exactly 3 colors. -/
theorem dsatur_coloring_valid_c6_witness :
    ((dsatur_coloring gK3).map Prod.snd).dedup.length = gK3.nodes.length :=
  (dsatur_coloring_valid_c6 gK3 (by decide) (by decide) (by decide)).2.2.2.2
    (by decide)

/-! ### Claim C1: same-slot examinees get different colors, and the color
groups partition the roster -/

/-- The graph colored by `get_colored_groups` always has the roster's
(first-occurrence) student ids as nodes. -/
theorem gcgGraph_nodes (df : List Row) (fp : List (String × String))
    (fs ss : Bool) : (gcgGraph df fp fs ss).nodes = rosterNodes df := by
  cases fs <;> cases ss <;> rfl

/-- Every hard time-conflict edge is an edge of the colored graph,
whatever the separation flags. -/
theorem gcgGraph_time_edge {df : List Row} {fp : List (String × String)}
    {fs ss : Bool} {a b : String}
    (h : hasEdgeList (timeConflictEdges df) a b = true) :
    (gcgGraph df fp fs ss).hasEdge a b = true := by
  cases fs <;> cases ss
  · exact h
  all_goals exact hasEdgeList_append_left (hasEdgeList_append_left h)

/-- **C1.** For every roster with distinct student ids (the data model's
"identifier (unique, stable string)"), whatever the separation flags and
friend pairs: every roster student appears in exactly one color group, and
two students sharing exam date and time never share a group. -/
theorem get_colored_groups_c1 (df : List Row) (fp : List (String × String))
    (fs ss : Bool) (hids : (df.map Row.studentID).Nodup) :
    (∀ r ∈ df, (avaluesJoin (get_colored_groups df fp fs ss)).count r.studentID = 1)
    ∧ (∀ r1 ∈ df, ∀ r2 ∈ df, r1.studentID ≠ r2.studentID →
        r1.examDate = r2.examDate → r1.examTime = r2.examTime →
        ∀ c gl, (c, gl) ∈ get_colored_groups df fp fs ss →
          r1.studentID ∈ gl → r2.studentID ∉ gl) := by
  obtain ⟨hknd, hsub, hprop⟩ := dsatur_inv (gcgGraph df fp fs ss)
  have hnodes := gcgGraph_nodes df fp fs ss
  have hnd : (gcgGraph df fp fs ss).nodes.Nodup := by
    rw [hnodes]
    exact firstKeys_nodup _
  have hperm2 := dsatur_keys_perm _ hnd
  constructor
  · intro r hr
    have hpg : (avaluesJoin (get_colored_groups df fp fs ss)).Perm
        (gcgGraph df fp fs ss).nodes := by
      rw [get_colored_groups]
      exact (avaluesJoin_groupsOfColoring _).trans
        (by simpa [akeys] using hperm2)
    rw [hpg.count_eq, hnodes, rosterNodes, firstKeys_eq_self hids]
    exact List.count_eq_one_of_mem hids (List.mem_map_of_mem Row.studentID hr)
  · intro r1 h1 r2 h2 hne hd ht c gl hgl hs1 hs2
    have hrne : r1 ≠ r2 := by
      rintro rfl
      exact hne rfl
    have hedge : (gcgGraph df fp fs ss).hasEdge r1.studentID r2.studentID = true := by
      rcases pairsOf_mem h1 h2 hrne with hp | hp
      · exact gcgGraph_time_edge (hasEdgeList_of_mem
          (List.mem_filterMap.mpr ⟨(r1, r2), hp, by simp [hd, ht]⟩))
      · apply gcgGraph_time_edge
        apply hasEdgeList_symm
        exact hasEdgeList_of_mem
          (List.mem_filterMap.mpr ⟨(r2, r1), hp, by simp [hd, ht]⟩)
    have hm1 : (r1.studentID, c) ∈ dsatur_coloring (gcgGraph df fp fs ss) :=
      groupsOfColoring_mem _ hgl _ hs1
    have hm2 : (r2.studentID, c) ∈ dsatur_coloring (gcgGraph df fp fs ss) :=
      groupsOfColoring_mem _ hgl _ hs2
    exact hprop r1.studentID r2.studentID c c
      (mem_alookup hknd hm1) (mem_alookup hknd hm2) hne hedge rfl

/-- Witness for C1: in the three-row roster, student `a` appears in exactly
one color group. -/
theorem get_colored_groups_c1_witness :
    (avaluesJoin (get_colored_groups dfA [("a", "c")] true true)).count "a" = 1 :=
  (get_colored_groups_c1 dfA [("a", "c")] true true (by decide)).1 rowA1
    (by decide)

/-! ### More dict-helper lemmas (updates, extends, inserts) -/

theorem dictInsert_of_not_mem {κ α : Type} [DecidableEq κ] {k : κ} {v : α} :
    ∀ {m : List (κ × α)}, k ∉ akeys m → dictInsert k v m = m ++ [(k, v)]
  | [], _ => rfl
  | (k', v') :: rest, h => by
      have hk : k' ≠ k := by
        intro he
        exact h (by simp [akeys_cons, he])
      have hrest : k ∉ akeys rest := fun hx => h (by simp [akeys_cons, hx])
      simp only [dictInsert, if_neg hk, List.cons_append]
      rw [dictInsert_of_not_mem hrest]

theorem foldl_dictInsert_eq_map {κ β γ : Type} [DecidableEq κ]
    (f : γ → κ) (g : γ → β) :
    ∀ (l : List γ) (acc : List (κ × β)),
      (akeys acc ++ l.map f).Nodup →
      l.foldl (fun st x => dictInsert (f x) (g x) st) acc =
        acc ++ l.map (fun x => (f x, g x))
  | [], acc, _ => by simp
  | x :: t, acc, hnd => by
      have hx : f x ∉ akeys acc := by
        rw [List.map_cons] at hnd
        intro hmem
        exact (List.disjoint_of_nodup_append hnd) hmem (List.mem_cons_self _ _)
      simp only [List.foldl_cons]
      rw [dictInsert_of_not_mem hx]
      rw [foldl_dictInsert_eq_map f g t (acc ++ [(f x, g x)]) ?_]
      · simp
      · rw [akeys_append]
        simp only [akeys_cons, akeys_nil]
        have : akeys acc ++ [f x] ++ t.map f = akeys acc ++ (x :: t).map f := by
          simp
        rw [this]
        exact hnd

theorem akeys_aupdate {κ α : Type} [DecidableEq κ] (k : κ) (f : α → α) :
    ∀ (m : List (κ × α)), akeys (aupdate k f m) = akeys m
  | [] => rfl
  | (k', v') :: rest => by
      by_cases h : k' = k <;>
        simp [aupdate, h, akeys_cons, akeys_aupdate k f rest]

theorem alookup_aupdate_self {κ α : Type} [DecidableEq κ] {k : κ} {f : α → α} :
    ∀ {m : List (κ × α)} {v : α}, alookup k m = some v →
      alookup k (aupdate k f m) = some (f v)
  | [], v, h => by simp [alookup] at h
  | (k', v') :: rest, v, h => by
      by_cases hk : k' = k
      · subst hk
        have hl : alookup k' ((k', v') :: rest) = some v' := by simp [alookup]
        rw [hl] at h
        have hv := Option.some.inj h
        subst hv
        simp [aupdate, alookup]
      · simp only [alookup, if_neg hk] at h
        simp only [aupdate, if_neg hk, alookup, if_neg hk]
        exact alookup_aupdate_self h

theorem alookup_aupdate_ne {κ α : Type} [DecidableEq κ] {k k' : κ}
    (f : α → α) (hne : k' ≠ k) :
    ∀ (m : List (κ × α)), alookup k' (aupdate k f m) = alookup k' m
  | [] => rfl
  | (k'', v) :: rest => by
      by_cases h : k'' = k
      · subst h
        have h2 : k'' ≠ k' := Ne.symm hne
        simp [aupdate, alookup, h2]
      · by_cases h3 : k'' = k'
        · subst h3
          simp [aupdate, alookup, h]
        · simp [aupdate, alookup, h, h3, alookup_aupdate_ne f hne rest]

theorem akeys_aextend_mem {κ : Type} [DecidableEq κ] {k : κ}
    (xs : List String) :
    ∀ {m : List (κ × List String)}, k ∈ akeys m →
      akeys (aextend k xs m) = akeys m
  | [], h => by cases h
  | (k', l) :: rest, h => by
      by_cases hk : k' = k
      · simp [aextend, hk, akeys_cons]
      · have : k ∈ akeys rest := by
          rcases List.mem_cons.mp (by simpa [akeys_cons] using h) with h1 | h1
          · exact absurd h1.symm hk
          · exact h1
        simp [aextend, hk, akeys_cons, akeys_aextend_mem xs this]

theorem akeys_aextend_not_mem {κ : Type} [DecidableEq κ] {k : κ}
    (xs : List String) :
    ∀ {m : List (κ × List String)}, k ∉ akeys m →
      akeys (aextend k xs m) = akeys m ++ [k]
  | [], _ => rfl
  | (k', l) :: rest, h => by
      have hk : k' ≠ k := by
        intro he
        exact h (by simp [akeys_cons, he])
      have hrest : k ∉ akeys rest := fun hx => h (by simp [akeys_cons, hx])
      simp [aextend, hk, akeys_cons, akeys_aextend_not_mem xs hrest]

theorem alookup_aextend_self {κ : Type} [DecidableEq κ] {k : κ}
    (xs : List String) :
    ∀ (m : List (κ × List String)),
      alookup k (aextend k xs m) = some ((alookup k m).getD [] ++ xs)
  | [] => by simp [aextend, alookup]
  | (k', l) :: rest => by
      by_cases hk : k' = k
      · subst hk
        simp [aextend, alookup]
      · simp [aextend, alookup, hk, alookup_aextend_self xs rest]

theorem alookup_aextend_ne {κ : Type} [DecidableEq κ] {k k' : κ}
    (xs : List String) (hne : k' ≠ k) :
    ∀ (m : List (κ × List String)),
      alookup k' (aextend k xs m) = alookup k' m
  | [] => by
      simp [aextend, alookup, Ne.symm hne]
  | (k'', l) :: rest => by
      by_cases h : k'' = k
      · subst h
        simp [aextend, alookup, Ne.symm hne, alookup_aextend_ne xs hne rest]
      · by_cases h3 : k'' = k'
        · subst h3
          simp [aextend, alookup, h]
        · simp [aextend, alookup, h, h3, alookup_aextend_ne xs hne rest]

theorem avaluesJoin_append {κ : Type} (m₁ m₂ : List (κ × List String)) :
    avaluesJoin (m₁ ++ m₂) = avaluesJoin m₁ ++ avaluesJoin m₂ := by
  simp [avaluesJoin]

theorem avaluesJoin_aextend {κ : Type} [DecidableEq κ] (k : κ)
    (xs : List String) :
    ∀ (m : List (κ × List String)),
      (avaluesJoin (aextend k xs m)).Perm (avaluesJoin m ++ xs)
  | [] => by simp [aextend, avaluesJoin]
  | (k', l) :: rest => by
      by_cases h : k' = k
      · simp only [aextend, if_pos h, avaluesJoin, List.map_cons, List.flatten_cons]
        have hstep : ((l ++ xs) ++ (rest.map Prod.snd).flatten).Perm
            ((l ++ (rest.map Prod.snd).flatten) ++ xs) := by
          simp only [List.append_assoc]
          exact List.Perm.append_left l (List.perm_append_comm)
        simpa [avaluesJoin] using hstep
      · simp only [aextend, if_neg h, avaluesJoin, List.map_cons, List.flatten_cons]
        have ih := avaluesJoin_aextend k xs rest
        have h1 : (l ++ avaluesJoin (aextend k xs rest)).Perm
            (l ++ (avaluesJoin rest ++ xs)) :=
          List.Perm.append_left l (by simpa [avaluesJoin] using ih)
        simpa [avaluesJoin, List.append_assoc] using h1

theorem avaluesJoin_filter_nonempty {κ : Type} :
    ∀ (m : List (κ × List String)),
      avaluesJoin (m.filter (fun kv => !kv.2.isEmpty)) = avaluesJoin m
  | [] => rfl
  | (k, l) :: rest => by
      rcases l with _ | ⟨a, t⟩
      · simpa [avaluesJoin, List.filter_cons] using
          avaluesJoin_filter_nonempty rest
      · simpa [avaluesJoin, List.filter_cons] using
          congrArg (fun z => a :: t ++ z) (avaluesJoin_filter_nonempty rest)

theorem mem_avaluesJoin {κ : Type} {m : List (κ × List String)} {x : String} :
    x ∈ avaluesJoin m ↔ ∃ kv ∈ m, x ∈ kv.2 := by
  simp only [avaluesJoin, List.mem_flatten, List.mem_map]
  constructor
  · rintro ⟨l, ⟨kv, hkv, rfl⟩, hx⟩
    exact ⟨kv, hkv, hx⟩
  · rintro ⟨kv, hkv, hx⟩
    exact ⟨kv.2, ⟨kv, hkv, rfl⟩, hx⟩

/-- The group's ids filter themselves out. -/
theorem filter_self_out (gids : List String) :
    gids.filter (fun sid => ¬ sid ∈ gids) = [] := by
  apply List.filter_eq_nil_iff.mpr
  intro a ha
  simp [ha]

/-- A list disjoint from `gids` survives the undo filter. -/
theorem filter_keep_disjoint {l gids : List String}
    (h : ∀ x ∈ l, x ∉ gids) :
    l.filter (fun sid => ¬ sid ∈ gids) = l := by
  apply List.filter_eq_self.mpr
  intro a ha
  simpa using h a ha

/-- Python's backtracking undo restores the assignments dict exactly when
the touched key was already present. -/
theorem undo_aextend_mem {κ : Type} [DecidableEq κ] {k : κ} {gids : List String} :
    ∀ {m : List (κ × List String)}, k ∈ akeys m →
      (∀ kv ∈ m, ∀ x ∈ kv.2, x ∉ gids) →
      aupdate k (fun l => l.filter (fun sid => ¬ sid ∈ gids)) (aextend k gids m)
        = m
  | [], hmem, _ => by cases hmem
  | (k', l) :: rest, hmem, h => by
      by_cases hk : k' = k
      · subst hk
        simp only [aextend, if_pos rfl, aupdate, if_pos rfl]
        have hfl : (l ++ gids).filter (fun sid => ¬ sid ∈ gids) = l := by
          rw [List.filter_append,
            filter_keep_disjoint (h (k', l) (List.mem_cons_self _ _)),
            filter_self_out, List.append_nil]
        rw [hfl]
        simp
      · have hmem' : k ∈ akeys rest := by
          rcases List.mem_cons.mp (by simpa [akeys_cons] using hmem) with h1 | h1
          · exact absurd h1.symm hk
          · exact h1
        simp only [aextend, if_neg hk, aupdate, if_neg hk]
        rw [undo_aextend_mem hmem'
          (fun kv hkv => h kv (List.mem_cons_of_mem _ hkv))]

/-- When the touched key was absent, the undo leaves an empty entry at the
end (the `defaultdict` access created it). -/
theorem undo_aextend_not_mem {κ : Type} [DecidableEq κ] {k : κ}
    {gids : List String} :
    ∀ {m : List (κ × List String)}, k ∉ akeys m →
      aupdate k (fun l => l.filter (fun sid => ¬ sid ∈ gids)) (aextend k gids m)
        = m ++ [(k, [])]
  | [], _ => by
      show aupdate k (fun l => l.filter (fun sid => ¬ sid ∈ gids)) [(k, gids)]
        = [] ++ [(k, [])]
      simp only [aupdate, if_pos rfl, List.nil_append]
      rw [filter_self_out]
      simp
  | (k', l) :: rest, hmem => by
      have hk : k' ≠ k := by
        intro he
        exact hmem (by simp [akeys_cons, he])
      have hmem' : k ∉ akeys rest := fun hx => hmem (by simp [akeys_cons, hx])
      simp only [aextend, if_neg hk, aupdate, if_neg hk, List.cons_append]
      rw [undo_aextend_not_mem hmem']

/-- With distinct room ids, `next(r for r in rooms if r.room_id == rid)`
finds the room itself. -/
theorem find?_room_self {rooms : List RoomConfig}
    (hnd : (rooms.map RoomConfig.room_id).Nodup) {r : RoomConfig}
    (hr : r ∈ rooms) :
    rooms.find? (fun x => x.room_id = r.room_id) = some r := by
  induction rooms with
  | nil => cases hr
  | cons a t ih =>
    rw [List.map_cons, List.nodup_cons] at hnd
    rcases List.mem_cons.mp hr with rfl | hmem
    · simp [List.find?]
    · have hane : a.room_id ≠ r.room_id := by
        intro he
        exact hnd.1 (he ▸ List.mem_map_of_mem RoomConfig.room_id hmem)
      simp only [List.find?]
      rw [show decide (a.room_id = r.room_id) = false by simp [hane]]
      exact ih hnd.2 hmem

/-! ### Room assignment: the acceptance predicate and the loop invariant -/

theorem roomAccepts_iff {room : RoomConfig} {status : RoomStatus}
    {group : List Student} :
    roomAccepts room status group = true ↔
      (group.length ≤ status.remaining_capacity ∧
       groupYears group ⊆ room.allowed_years ∧
       (room.max_years > 0 →
         (status.years ∪ groupYears group).card ≤ room.max_years) ∧
       (room.max_departments > 0 →
         (status.departments ∪ groupDepartments group).card ≤ room.max_departments) ∧
       (room.max_subjects > 0 →
         (status.subjects ∪ groupSubjects group).card ≤ room.max_subjects) ∧
       (room.max_branches > 0 →
         (status.branches ∪ groupBranches group).card ≤ room.max_branches)) := by
  unfold roomAccepts
  by_cases h1 : group.length > status.remaining_capacity
  · rw [if_pos h1]
    refine iff_of_false (by simp) ?_
    rintro ⟨c1, -⟩
    omega
  · rw [if_neg h1]
    by_cases h2 : groupYears group ⊆ room.allowed_years
    · rw [if_neg (not_not_intro h2)]
      by_cases h3 : room.max_years > 0 ∧
          (status.years ∪ groupYears group).card > room.max_years
      · rw [if_pos h3]
        refine iff_of_false (by simp) ?_
        rintro ⟨-, -, c3, -⟩
        have := c3 h3.1
        have := h3.2
        omega
      · rw [if_neg h3]
        by_cases h4 : room.max_departments > 0 ∧
            (status.departments ∪ groupDepartments group).card > room.max_departments
        · rw [if_pos h4]
          refine iff_of_false (by simp) ?_
          rintro ⟨-, -, -, c4, -⟩
          have := c4 h4.1
          have := h4.2
          omega
        · rw [if_neg h4]
          by_cases h5 : room.max_subjects > 0 ∧
              (status.subjects ∪ groupSubjects group).card > room.max_subjects
          · rw [if_pos h5]
            refine iff_of_false (by simp) ?_
            rintro ⟨-, -, -, -, c5, -⟩
            have := c5 h5.1
            have := h5.2
            omega
          · rw [if_neg h5]
            by_cases h6 : room.max_branches > 0 ∧
                (status.branches ∪ groupBranches group).card > room.max_branches
            · rw [if_pos h6]
              refine iff_of_false (by simp) ?_
              rintro ⟨-, -, -, -, -, c6⟩
              have := c6 h6.1
              have := h6.2
              omega
            · rw [if_neg h6]
              refine iff_of_true rfl ?_
              refine ⟨by omega, h2, ?_, ?_, ?_, ?_⟩
              · intro hp
                by_contra hc
                exact h3 ⟨hp, by omega⟩
              · intro hp
                by_contra hc
                exact h4 ⟨hp, by omega⟩
              · intro hp
                by_contra hc
                exact h5 ⟨hp, by omega⟩
              · intro hp
                by_contra hc
                exact h6 ⟨hp, by omega⟩
    · rw [if_pos h2]
      refine iff_of_false (by simp) ?_
      rintro ⟨-, c2, -⟩
      exact h2 c2

theorem groupMeta_map_attr {α : Type} {meta : String → StudentMeta}
    {group : List Student} (hgm : GroupMeta meta group)
    (f : Student → α) (g : StudentMeta → α)
    (hfg : ∀ sid m, f (Student.ofMeta sid m) = g m) :
    group.map f = (group.map Student.id).map (fun sid => g (meta sid)) := by
  rw [List.map_map]
  apply List.map_congr_left
  intro s hs
  show f s = g (meta s.id)
  conv_lhs => rw [hgm s hs]
  rw [hfg]

theorem initRoomStatus_eq {rooms : List RoomConfig}
    (hrnd : (rooms.map RoomConfig.room_id).Nodup) :
    initRoomStatus rooms = rooms.map (fun r => (r.room_id, RoomStatus.init r)) := by
  have := foldl_dictInsert_eq_map RoomConfig.room_id RoomStatus.init rooms []
    (by simpa [akeys] using hrnd)
  simpa [initRoomStatus] using this

theorem init_consistent {rooms : List RoomConfig} {meta : String → StudentMeta}
    (hrnd : (rooms.map RoomConfig.room_id).Nodup) :
    Consistent rooms meta ⟨[], initRoomStatus rooms⟩ [] := by
  refine ⟨by simp [akeys], by simp [akeys], by simp [avaluesJoin], ?_⟩
  intro r hr
  refine ⟨RoomStatus.init r, ?_, ?_⟩
  · rw [initRoomStatus_eq hrnd]
    apply mem_alookup
    · have he : akeys (rooms.map (fun r => (r.room_id, RoomStatus.init r)))
          = rooms.map RoomConfig.room_id := by
        simp [akeys, List.map_map, Function.comp]
      rw [he]
      exact hrnd
    · exact List.mem_map_of_mem _ hr
  · show RoomOk meta r (assignedTo ⟨[], initRoomStatus rooms⟩ r.room_id)
      (RoomStatus.init r)
    have hl : assignedTo ⟨[], initRoomStatus rooms⟩ r.room_id = [] := by
      simp [assignedTo, alookup]
    rw [hl]
    refine ⟨by simp [RoomStatus.init], by simp [RoomStatus.init],
      by simp [RoomStatus.init], by simp [RoomStatus.init],
      by simp [RoomStatus.init], by simp, ?_, ?_, ?_, ?_⟩ <;>
      intro _ <;> simp

theorem place_consistent {rooms : List RoomConfig} {meta : String → StudentMeta}
    {st : AllocState} {placed : List String} {r : RoomConfig}
    {group : List Student}
    (hrnd : (rooms.map RoomConfig.room_id).Nodup)
    (hr : r ∈ rooms) (hgm : GroupMeta meta group)
    (hacc : roomAccepts r (statusOf st.status r.room_id) group = true)
    (hcons : Consistent rooms meta st placed) :
    Consistent rooms meta (st.place r.room_id group)
      (placed ++ group.map Student.id) := by
  obtain ⟨hknd, hcov, hperm, hrooms⟩ := hcons
  obtain ⟨s, hs, hok⟩ := hrooms r hr
  have hstat : statusOf st.status r.room_id = s := by
    rw [statusOf, hs]
    rfl
  rw [hstat] at hacc
  obtain ⟨hc1, hc2, hc3, hc4, hc5, hc6⟩ := roomAccepts_iff.mp hacc
  have hmapS := groupMeta_map_attr hgm Student.subject StudentMeta.subject
    (fun _ _ => rfl)
  have hmapB := groupMeta_map_attr hgm Student.branch StudentMeta.branch
    (fun _ _ => rfl)
  have hmapY := groupMeta_map_attr hgm Student.year StudentMeta.year
    (fun _ _ => rfl)
  have hmapD := groupMeta_map_attr hgm Student.department StudentMeta.department
    (fun _ _ => rfl)
  refine ⟨?_, ?_, ?_, ?_⟩
  · show (akeys (aextend r.room_id (group.map Student.id) st.assignments)).Nodup
    by_cases hmem : r.room_id ∈ akeys st.assignments
    · rw [akeys_aextend_mem _ hmem]
      exact hknd
    · rw [akeys_aextend_not_mem _ hmem, List.nodup_append]
      exact ⟨hknd, List.nodup_singleton _, by simpa using hmem⟩
  · intro k hk
    by_cases hmem : r.room_id ∈ akeys st.assignments
    · rw [show akeys (st.place r.room_id group).assignments
          = akeys st.assignments from akeys_aextend_mem _ hmem] at hk
      exact hcov k hk
    · rw [show akeys (st.place r.room_id group).assignments
          = akeys st.assignments ++ [r.room_id]
          from akeys_aextend_not_mem _ hmem] at hk
      rcases List.mem_append.mp hk with h | h
      · exact hcov k h
      · exact ⟨r, hr, (List.mem_singleton.mp h).symm⟩
  · exact (avaluesJoin_aextend r.room_id (group.map Student.id)
      st.assignments).trans (hperm.append (List.Perm.refl _))
  · intro r' hr'
    by_cases hid : r'.room_id = r.room_id
    · have hrr : r' = r := List.inj_on_of_nodup_map hrnd hr' hr hid
      subst hrr
      refine ⟨placeInStatus s group, alookup_aupdate_self hs, ?_⟩
      have hasg : assignedTo (st.place r'.room_id group) r'.room_id
          = assignedTo st r'.room_id ++ group.map Student.id := by
        show (alookup r'.room_id
          (aextend r'.room_id (group.map Student.id) st.assignments)).getD []
            = _
        rw [alookup_aextend_self]
        rfl
      rw [hasg]
      obtain ⟨ho1, ho2, ho3, ho4, ho5, ho6, ho7, ho8, ho9, ho10⟩ := hok
      have hgsS : groupSubjects group
          = ((group.map Student.id).map (fun sid => (meta sid).subject)).toFinset := by
        rw [groupSubjects, hmapS]
      have hgsB : groupBranches group
          = ((group.map Student.id).map (fun sid => (meta sid).branch)).toFinset := by
        rw [groupBranches, hmapB]
      have hgsY : groupYears group
          = ((group.map Student.id).map (fun sid => (meta sid).year)).toFinset := by
        rw [groupYears, hmapY]
      have hgsD : groupDepartments group
          = ((group.map Student.id).map (fun sid => (meta sid).department)).toFinset := by
        rw [groupDepartments, hmapD]
      refine ⟨?_, ?_, ?_, ?_, ?_, ?_, ?_, ?_, ?_, ?_⟩
      · show s.remaining_capacity - group.length +
          (assignedTo st r'.room_id ++ group.map Student.id).length = r'.capacity
        rw [List.length_append, List.length_map]
        omega
      · show s.subjects ∪ groupSubjects group = _
        rw [List.map_append, List.toFinset_append, ho2, hgsS]
      · show s.branches ∪ groupBranches group = _
        rw [List.map_append, List.toFinset_append, ho3, hgsB]
      · show s.years ∪ groupYears group = _
        rw [List.map_append, List.toFinset_append, ho4, hgsY]
      · show s.departments ∪ groupDepartments group = _
        rw [List.map_append, List.toFinset_append, ho5, hgsD]
      · intro sid hsid
        rcases List.mem_append.mp hsid with h | h
        · exact ho6 sid h
        · obtain ⟨stu, hstu, rfl⟩ := List.mem_map.mp h
          have hy : (meta stu.id).year = stu.year := by
            conv_rhs => rw [hgm stu hstu]
            rfl
          rw [hy]
          apply hc2
          rw [groupYears]
          exact List.mem_toFinset.mpr (List.mem_map_of_mem Student.year hstu)
      · intro hp
        have he : ((assignedTo st r'.room_id ++ group.map Student.id).map
            (fun sid => (meta sid).year)).toFinset = s.years ∪ groupYears group := by
          rw [List.map_append, List.toFinset_append, ho4, hgsY]
        rw [he]
        exact hc3 hp
      · intro hp
        have he : ((assignedTo st r'.room_id ++ group.map Student.id).map
            (fun sid => (meta sid).department)).toFinset
              = s.departments ∪ groupDepartments group := by
          rw [List.map_append, List.toFinset_append, ho5, hgsD]
        rw [he]
        exact hc4 hp
      · intro hp
        have he : ((assignedTo st r'.room_id ++ group.map Student.id).map
            (fun sid => (meta sid).subject)).toFinset
              = s.subjects ∪ groupSubjects group := by
          rw [List.map_append, List.toFinset_append, ho2, hgsS]
        rw [he]
        exact hc5 hp
      · intro hp
        have he : ((assignedTo st r'.room_id ++ group.map Student.id).map
            (fun sid => (meta sid).branch)).toFinset
              = s.branches ∪ groupBranches group := by
          rw [List.map_append, List.toFinset_append, ho3, hgsB]
        rw [he]
        exact hc6 hp
    · obtain ⟨s', hs', hok'⟩ := hrooms r' hr'
      refine ⟨s', ?_, ?_⟩
      · show alookup r'.room_id
          (aupdate r.room_id (fun s => placeInStatus s group) st.status) = some s'
        rw [alookup_aupdate_ne _ hid]
        exact hs'
      · have he : assignedTo (st.place r.room_id group) r'.room_id
            = assignedTo st r'.room_id := by
          show (alookup r'.room_id
            (aextend r.room_id (group.map Student.id) st.assignments)).getD [] = _
          rw [alookup_aextend_ne _ hid]
          rfl
        rw [he]
        exact hok'

theorem idsOf_cons (g : List Student) (gs : List (List Student)) :
    idsOf (g :: gs) = g.map Student.id ++ idsOf gs := by
  simp [idsOf]

theorem undo_consistent {rooms : List RoomConfig} {meta : String → StudentMeta}
    {st : AllocState} {placed : List String} {r : RoomConfig}
    {group : List Student} (hr : r ∈ rooms)
    (hdisj : ∀ x ∈ group.map Student.id, x ∉ placed)
    (hcons : Consistent rooms meta st placed) :
    Consistent rooms meta ((st.place r.room_id group).undo st r.room_id group)
      placed := by
  obtain ⟨hknd, hcov, hperm, hrooms⟩ := hcons
  have hentries : ∀ kv ∈ st.assignments, ∀ x ∈ kv.2,
      x ∉ group.map Student.id := by
    intro kv hkv x hx hxg
    exact hdisj x hxg (hperm.mem_iff.mp (mem_avaluesJoin.mpr ⟨kv, hkv, hx⟩))
  by_cases hmem : r.room_id ∈ akeys st.assignments
  · have hu : ((st.place r.room_id group).undo st r.room_id group) = st := by
      obtain ⟨a, s⟩ := st
      simp only [AllocState.place, AllocState.undo]
      congr 1
      exact undo_aextend_mem hmem hentries
    rw [hu]
    exact ⟨hknd, hcov, hperm, hrooms⟩
  · have hassg : ((st.place r.room_id group).undo st r.room_id group).assignments
        = st.assignments ++ [(r.room_id, [])] := undo_aextend_not_mem hmem
    refine ⟨?_, ?_, ?_, ?_⟩
    · rw [hassg, akeys_append]
      simp only [akeys_cons, akeys_nil]
      rw [List.nodup_append]
      exact ⟨hknd, List.nodup_singleton _, by simpa using hmem⟩
    · intro k hk
      rw [hassg, akeys_append] at hk
      rcases List.mem_append.mp hk with h | h
      · exact hcov k h
      · simp only [akeys_cons, akeys_nil, List.mem_singleton] at h
        exact ⟨r, hr, h.symm⟩
    · rw [hassg, avaluesJoin_append]
      have he : avaluesJoin [(r.room_id, ([] : List String))] = [] := by
        simp [avaluesJoin]
      rw [he, List.append_nil]
      exact hperm
    · intro r' hr'
      obtain ⟨s', hs', hok'⟩ := hrooms r' hr'
      refine ⟨s', hs', ?_⟩
      have ha : assignedTo ((st.place r.room_id group).undo st r.room_id group)
          r'.room_id = assignedTo st r'.room_id := by
        show (alookup r'.room_id
          ((st.place r.room_id group).undo st r.room_id group).assignments).getD []
            = _
        rw [hassg, alookup_append]
        rcases h : alookup r'.room_id st.assignments with _ | v
        · rw [alookup_single]
          by_cases he : r.room_id = r'.room_id
          · rw [if_pos he]
            simp [assignedTo, h]
          · rw [if_neg he]
            simp [assignedTo, h]
        · simp [assignedTo, h]
      rw [ha]
      exact hok'

theorem ffdFindRoom_spec {st : List (String × RoomStatus)}
    {group : List Student} :
    ∀ {l : List RoomConfig} {r : RoomConfig}, ffdFindRoom st group l = some r →
      r ∈ l ∧ roomAccepts r (statusOf st r.room_id) group = true
  | [], r, h => by simp [ffdFindRoom] at h
  | a :: rs, r, h => by
      by_cases hacc : roomAccepts a (statusOf st a.room_id) group = true
      · rw [ffdFindRoom, if_pos hacc] at h
        have : a = r := Option.some.inj h
        subst this
        exact ⟨List.mem_cons_self _ _, hacc⟩
      · rw [ffdFindRoom, if_neg hacc] at h
        obtain ⟨h1, h2⟩ := ffdFindRoom_spec h
        exact ⟨List.mem_cons_of_mem _ h1, h2⟩

theorem ffdLoop_consistent {rooms : List RoomConfig} {meta : String → StudentMeta}
    (hrnd : (rooms.map RoomConfig.room_id).Nodup) :
    ∀ (gs : List (List Student)) (st : AllocState) (placed : List String)
      (st' : AllocState), (∀ g ∈ gs, GroupMeta meta g) →
      Consistent rooms meta st placed →
      ffdLoop rooms gs st = some st' →
      Consistent rooms meta st' (placed ++ idsOf gs)
  | [], st, placed, st', _, hcons, h => by
      rw [ffdLoop] at h
      have he : st = st' := Option.some.inj h
      subst he
      simpa [idsOf] using hcons
  | g :: rest, st, placed, st', hgm, hcons, h => by
      rw [ffdLoop] at h
      rcases hf : ffdFindRoom st.status g (ffdSortRooms rooms st.status)
        with _ | r
      · rw [hf] at h
        cases h
      · rw [hf] at h
        obtain ⟨hmem, hacc⟩ := ffdFindRoom_spec hf
        have hrin : r ∈ rooms :=
          (pySorted_perm _ rooms).mem_iff.mp hmem
        have hnext := place_consistent hrnd hrin
          (hgm g (List.mem_cons_self _ _)) hacc hcons
        have hrest := ffdLoop_consistent hrnd rest _ _ st'
          (fun g' hg' => hgm g' (List.mem_cons_of_mem _ hg')) hnext h
        rw [idsOf_cons]
        simpa [List.append_assoc] using hrest

theorem btTryRooms_consistent {rooms : List RoomConfig}
    {meta : String → StudentMeta}
    (hrnd : (rooms.map RoomConfig.room_id).Nodup)
    {dfsRest : AllocState → Option AllocState} {group : List Student}
    {rest : List (List Student)}
    (hdfs : ∀ (st : AllocState) (placed : List String) (st' : AllocState),
      (placed ++ idsOf rest).Nodup → Consistent rooms meta st placed →
      dfsRest st = some st' → Consistent rooms meta st' (placed ++ idsOf rest))
    (hgm : GroupMeta meta group) :
    ∀ (roomsLeft : List RoomConfig) (st : AllocState) (placed : List String)
      (st' : AllocState), roomsLeft ⊆ rooms →
      (placed ++ idsOf (group :: rest)).Nodup →
      Consistent rooms meta st placed →
      btTryRooms rooms dfsRest group roomsLeft st = some st' →
      Consistent rooms meta st' (placed ++ idsOf (group :: rest))
  | [], st, placed, st', _, _, _, h => by
      rw [btTryRooms] at h
      cases h
  | r :: rs, st, placed, st', hsub, hnd, hcons, h => by
      rw [btTryRooms] at h
      have hrin : r ∈ rooms := hsub (List.mem_cons_self _ _)
      by_cases hcp : can_place rooms st.status r.room_id group = true
      · rw [if_pos hcp] at h
        have hacc : roomAccepts r (statusOf st.status r.room_id) group = true := by
          rw [can_place, find?_room_self hrnd hrin] at hcp
          exact hcp
        have hplace := place_consistent hrnd hrin hgm hacc hcons
        have hnd' : ((placed ++ group.map Student.id) ++ idsOf rest).Nodup := by
          rw [idsOf_cons] at hnd
          simpa [List.append_assoc] using hnd
        rcases hdfs2 : dfsRest (st.place r.room_id group) with _ | st2
        · rw [hdfs2] at h
          have hdisj : ∀ x ∈ group.map Student.id, x ∉ placed := by
            intro x hx hxp
            rw [idsOf_cons] at hnd
            have hdj := List.disjoint_of_nodup_append hnd
            exact hdj hxp (List.mem_append_left _ hx)
          have hundone := undo_consistent hrin hdisj hcons
          exact btTryRooms_consistent hrnd hdfs hgm rs _ placed st'
            (fun x hx => hsub (List.mem_cons_of_mem _ hx)) hnd hundone h
        · rw [hdfs2] at h
          have he : st2 = st' := Option.some.inj h
          subst he
          have hrest := hdfs _ _ st2 hnd' hplace hdfs2
          rw [idsOf_cons]
          simpa [List.append_assoc] using hrest
      · rw [if_neg hcp] at h
        exact btTryRooms_consistent hrnd hdfs hgm rs st placed st'
          (fun x hx => hsub (List.mem_cons_of_mem _ hx)) hnd hcons h

theorem btDfs_consistent {rooms : List RoomConfig} {meta : String → StudentMeta}
    (hrnd : (rooms.map RoomConfig.room_id).Nodup) :
    ∀ (gs : List (List Student)) (st : AllocState) (placed : List String)
      (st' : AllocState), (∀ g ∈ gs, GroupMeta meta g) →
      (placed ++ idsOf gs).Nodup →
      Consistent rooms meta st placed →
      btDfs rooms gs st = some st' →
      Consistent rooms meta st' (placed ++ idsOf gs)
  | [], st, placed, st', _, _, hcons, h => by
      rw [btDfs] at h
      have he : st = st' := Option.some.inj h
      subst he
      simpa [idsOf] using hcons
  | g :: rest, st, placed, st', hgm, hnd, hcons, h => by
      rw [btDfs] at h
      exact btTryRooms_consistent hrnd
        (fun st2 placed2 st2' hnd2 hcons2 hd =>
          btDfs_consistent hrnd rest st2 placed2 st2'
            (fun g' hg' => hgm g' (List.mem_cons_of_mem _ hg')) hnd2 hcons2 hd)
        (hgm g (List.mem_cons_self _ _)) rooms st placed st'
        (fun x hx => hx) hnd hcons h

/-- What the filtered assignments dict of a consistent final state
satisfies: the placed ids exactly, and every entry valid for its room. -/
theorem consistent_result {rooms : List RoomConfig} {meta : String → StudentMeta}
    {stf : AllocState} {placed : List String}
    (hcons : Consistent rooms meta stf placed) :
    ((avaluesJoin (stf.assignments.filter (fun kv => !kv.2.isEmpty))).Perm placed)
    ∧ ∀ kv ∈ stf.assignments.filter (fun kv => !kv.2.isEmpty),
        ∃ r ∈ rooms, r.room_id = kv.1 ∧
          kv.2.length ≤ r.capacity ∧
          (∀ sid ∈ kv.2, (meta sid).year ∈ r.allowed_years) ∧
          (r.max_subjects > 0 →
            (kv.2.map (fun sid => (meta sid).subject)).toFinset.card ≤ r.max_subjects) ∧
          (r.max_branches > 0 →
            (kv.2.map (fun sid => (meta sid).branch)).toFinset.card ≤ r.max_branches) ∧
          (r.max_departments > 0 →
            (kv.2.map (fun sid => (meta sid).department)).toFinset.card ≤ r.max_departments) ∧
          (r.max_years > 0 →
            (kv.2.map (fun sid => (meta sid).year)).toFinset.card ≤ r.max_years) := by
  obtain ⟨hknd, hcov, hperm, hrooms⟩ := hcons
  constructor
  · rw [avaluesJoin_filter_nonempty]
    exact hperm
  · intro kv hkv
    have hmem : kv ∈ stf.assignments := List.mem_of_mem_filter hkv
    obtain ⟨r, hr, hid⟩ := hcov kv.1 (List.mem_map_of_mem Prod.fst hmem)
    obtain ⟨s, _, hok⟩ := hrooms r hr
    have hlook : alookup kv.1 stf.assignments = some kv.2 := by
      apply mem_alookup hknd
      obtain ⟨a, b⟩ := kv
      exact hmem
    have hassg : assignedTo stf r.room_id = kv.2 := by
      rw [assignedTo, hid, hlook]
      rfl
    rw [hassg] at hok
    obtain ⟨ho1, _, _, _, _, ho6, ho7, ho8, ho9, ho10⟩ := hok
    exact ⟨r, hr, hid, by omega, ho6, ho9, ho10, ho8, ho7⟩

/-- The group lists `assign_rooms_to_groups` builds are metadata-coherent. -/
theorem groupMeta_of_map (meta : String → StudentMeta) (sids : List String) :
    GroupMeta meta (sids.map (fun sid => Student.ofMeta sid (meta sid))) := by
  intro s hs
  obtain ⟨sid, _, rfl⟩ := List.mem_map.mp hs
  rfl

theorem idsOf_ofMeta (meta : String → StudentMeta)
    (groups : List (Nat × List String)) :
    idsOf (groups.map (fun cg => cg.2.map (fun sid => Student.ofMeta sid (meta sid))))
      = avaluesJoin groups := by
  unfold idsOf avaluesJoin
  congr 1
  rw [List.map_map]
  apply List.map_congr_left
  intro cg _
  show (cg.2.map (fun sid => Student.ofMeta sid (meta sid))).map Student.id = cg.2
  rw [List.map_map]
  have he : cg.2.map (Student.id ∘ fun sid => Student.ofMeta sid (meta sid))
      = cg.2.map (fun sid => sid) := List.map_congr_left (fun _ _ => rfl)
  rw [he, List.map_id']

theorem idsOf_perm {gs1 gs2 : List (List Student)} (h : gs1.Perm gs2) :
    (idsOf gs1).Perm (idsOf gs2) := (h.map _).flatten

/-- The `student_groups` dict of `assign_rooms_to_groups` under distinct
color keys. -/
theorem studentGroups_eq {groups : List (Nat × List String)}
    {meta : String → StudentMeta} (hknd : (akeys groups).Nodup) :
    groups.foldl (fun sg cg =>
      dictInsert cg.1 (cg.2.map (fun sid => Student.ofMeta sid (meta sid))) sg) []
      = groups.map (fun cg =>
          (cg.1, cg.2.map (fun sid => Student.ofMeta sid (meta sid)))) := by
  have := foldl_dictInsert_eq_map (Prod.fst)
    (fun cg : Nat × List String => cg.2.map (fun sid => Student.ofMeta sid (meta sid)))
    groups [] (by simpa [akeys] using hknd)
  simpa using this

/-- **C2.** Whenever `assign_rooms_to_groups` returns (given distinct room
names, distinct color keys and distinct student ids), the returned mapping
is a permutation of the input examinees — each placed exactly once — and
every room's list respects its capacity, allowed years, and every positive
diversity ceiling. -/
theorem assign_rooms_to_groups_c2
    (groups : List (Nat × List String)) (meta : String → StudentMeta)
    (roomsConfig : List RoomConfigInput) (asg : List (String × List String))
    (hrnd : (roomsConfig.map RoomConfigInput.room_name).Nodup)
    (hknd : (akeys groups).Nodup)
    (hsnd : (avaluesJoin groups).Nodup)
    (hok : assign_rooms_to_groups groups meta roomsConfig = Except.ok asg) :
    ((avaluesJoin asg).Perm (avaluesJoin groups))
    ∧ (∀ sid ∈ avaluesJoin groups, (avaluesJoin asg).count sid = 1)
    ∧ ∀ kv ∈ asg, ∃ r ∈ roomsConfig.map RoomConfig.ofConfig,
        r.room_id = kv.1 ∧ kv.2.length ≤ r.capacity ∧
        (∀ sid ∈ kv.2, (meta sid).year ∈ r.allowed_years) ∧
        (r.max_subjects > 0 →
          (kv.2.map (fun sid => (meta sid).subject)).toFinset.card ≤ r.max_subjects) ∧
        (r.max_branches > 0 →
          (kv.2.map (fun sid => (meta sid).branch)).toFinset.card ≤ r.max_branches) ∧
        (r.max_departments > 0 →
          (kv.2.map (fun sid => (meta sid).department)).toFinset.card ≤ r.max_departments) ∧
        (r.max_years > 0 →
          (kv.2.map (fun sid => (meta sid).year)).toFinset.card ≤ r.max_years) := by
  have hrnd' : ((roomsConfig.map RoomConfig.ofConfig).map RoomConfig.room_id).Nodup := by
    rw [List.map_map]
    have he : roomsConfig.map (RoomConfig.room_id ∘ RoomConfig.ofConfig)
        = roomsConfig.map RoomConfigInput.room_name :=
      List.map_congr_left (fun _ _ => rfl)
    rw [he]
    exact hrnd
  rw [assign_rooms_to_groups, studentGroups_eq hknd] at hok
  set ro := roomsConfig.map RoomConfig.ofConfig with hro
  set sgl := (groups.map (fun cg =>
    (cg.1, cg.2.map (fun sid => Student.ofMeta sid (meta sid))))).map Prod.snd
    with hsgl
  have hsgl2 : sgl = groups.map (fun cg =>
      cg.2.map (fun sid => Student.ofMeta sid (meta sid))) := by
    rw [hsgl, List.map_map]
    exact List.map_congr_left (fun _ _ => rfl)
  have hidsgl : idsOf sgl = avaluesJoin groups := by
    rw [hsgl2]
    exact idsOf_ofMeta meta groups
  have hgm : ∀ g ∈ sgl, GroupMeta meta g := by
    intro g hg
    rw [hsgl2] at hg
    obtain ⟨cg, _, rfl⟩ := List.mem_map.mp hg
    exact groupMeta_of_map meta cg.2
  have hgmsort : ∀ g ∈ sortGroupsDesc sgl, GroupMeta meta g := by
    intro g hg
    exact hgm g ((pySorted_perm _ sgl).mem_iff.mp hg)
  have hidsort : (idsOf (sortGroupsDesc sgl)).Perm (avaluesJoin groups) := by
    rw [← hidsgl]
    exact idsOf_perm (pySorted_perm _ sgl)
  -- the main argument, shared by the FFD and backtracking branches
  have hmain : ∀ stf : AllocState,
      Consistent ro meta stf (idsOf (sortGroupsDesc sgl)) →
      asg = stf.assignments.filter (fun kv => !kv.2.isEmpty) →
      ((avaluesJoin asg).Perm (avaluesJoin groups))
      ∧ (∀ sid ∈ avaluesJoin groups, (avaluesJoin asg).count sid = 1)
      ∧ ∀ kv ∈ asg, ∃ r ∈ ro,
          r.room_id = kv.1 ∧ kv.2.length ≤ r.capacity ∧
          (∀ sid ∈ kv.2, (meta sid).year ∈ r.allowed_years) ∧
          (r.max_subjects > 0 →
            (kv.2.map (fun sid => (meta sid).subject)).toFinset.card ≤ r.max_subjects) ∧
          (r.max_branches > 0 →
            (kv.2.map (fun sid => (meta sid).branch)).toFinset.card ≤ r.max_branches) ∧
          (r.max_departments > 0 →
            (kv.2.map (fun sid => (meta sid).department)).toFinset.card ≤ r.max_departments) ∧
          (r.max_years > 0 →
            (kv.2.map (fun sid => (meta sid).year)).toFinset.card ≤ r.max_years) := by
    intro stf hcons hres
    obtain ⟨hp, hkv⟩ := consistent_result hcons
    subst hres
    have hperm2 := hp.trans hidsort
    refine ⟨hperm2, ?_, hkv⟩
    intro sid hsid
    rw [hperm2.count_eq]
    exact List.count_eq_one_of_mem hsnd hsid
  by_cases hcap : ((groups.map (fun cg =>
      (cg.1, cg.2.map (fun sid => Student.ofMeta sid (meta sid))))).map
        (fun kv => kv.2.length)).sum > (ro.map RoomConfig.capacity).sum
  · rw [if_pos hcap] at hok
    cases hok
  · rw [if_neg hcap] at hok
    rcases hffd : first_fit_decreasing sgl ro with _ | res
    · rw [hffd] at hok
      rw [backtracking_assign] at hok
      rcases hbt : btDfs ro (sortGroupsDesc sgl)
          { assignments := [], status := initRoomStatus ro } with _ | stf
      · rw [hbt] at hok
        cases hok
      · rw [hbt] at hok
        have hcons := btDfs_consistent hrnd' (sortGroupsDesc sgl) _ [] stf
          hgmsort (by simpa using hidsort.nodup_iff.mpr hsnd)
          (init_consistent hrnd') hbt
        exact hmain stf (by simpa using hcons) (Except.ok.inj hok).symm
    · rw [hffd] at hok
      have hres : res = asg := Except.ok.inj hok
      subst hres
      rw [first_fit_decreasing] at hffd
      rcases hloop : ffdLoop ro (sortGroupsDesc sgl)
          { assignments := [], status := initRoomStatus ro } with _ | stf
      · rw [hloop] at hffd
        cases hffd
      · rw [hloop] at hffd
        have hcons := ffdLoop_consistent hrnd' (sortGroupsDesc sgl) _ [] stf
          hgmsort (init_consistent hrnd') hloop
        exact hmain stf (by simpa using hcons) (Option.some.inj hffd).symm

/-- Witness for C2: in the two-group fixture every student is placed
exactly once. -/
theorem assign_rooms_to_groups_c2_witness :
    (avaluesJoin resB).count "a" = 1 :=
  (assign_rooms_to_groups_c2 gB metaB [rcB] resB (by decide) (by decide)
    (by decide) (by rfl)).2.1 "a" (by decide)

/-! ### Claim C3: the two failure modes of `assign_rooms_to_groups` -/

theorem mapped_sum_eq (meta : String → StudentMeta)
    (groups : List (Nat × List String)) :
    ((groups.map (fun cg =>
      (cg.1, cg.2.map (fun sid => Student.ofMeta sid (meta sid))))).map
        (fun kv => kv.2.length)).sum = totalStudentsOf groups := by
  rw [totalStudentsOf, List.map_map]
  congr 1
  apply List.map_congr_left
  intro cg _
  exact List.length_map _ _

theorem mapped_snd_eq (meta : String → StudentMeta)
    (groups : List (Nat × List String)) :
    (groups.map (fun cg =>
      (cg.1, cg.2.map (fun sid => Student.ofMeta sid (meta sid))))).map Prod.snd
        = studentGroupLists meta groups := by
  rw [studentGroupLists, List.map_map]
  exact List.map_congr_left (fun _ _ => rfl)

/-- **C3 (amended).**  `assign_rooms_to_groups` fails in exactly two cases,
both raised as the same generic `ValueError` and distinguished only by
message: immediately when the examinees outnumber the total capacity (the
message reports the two totals, from which the shortage is derivable), and
after FFD and the backtracking search have both failed.  In every other
case it returns the full assignment the successful algorithm produced. -/
theorem assign_rooms_to_groups_c3 (groups : List (Nat × List String))
    (meta : String → StudentMeta) (roomsConfig : List RoomConfigInput)
    (hknd : (akeys groups).Nodup) :
    (totalStudentsOf groups > totalCapacityOf roomsConfig →
      assign_rooms_to_groups groups meta roomsConfig =
        Except.error (PyError.valueError
          s!"Not enough room capacity. Need {totalStudentsOf groups} seats, have {totalCapacityOf roomsConfig}"))
    ∧ (totalStudentsOf groups ≤ totalCapacityOf roomsConfig →
        ∀ res, first_fit_decreasing (studentGroupLists meta groups)
            (roomObjectsOf roomsConfig) = some res →
          assign_rooms_to_groups groups meta roomsConfig = Except.ok res)
    ∧ (totalStudentsOf groups ≤ totalCapacityOf roomsConfig →
        first_fit_decreasing (studentGroupLists meta groups)
          (roomObjectsOf roomsConfig) = none →
        btDfs (roomObjectsOf roomsConfig)
          (sortGroupsDesc (studentGroupLists meta groups))
          ⟨[], initRoomStatus (roomObjectsOf roomsConfig)⟩ = none →
        assign_rooms_to_groups groups meta roomsConfig =
          Except.error (PyError.valueError
            "No valid room assignment possible with current constraints"))
    ∧ (totalStudentsOf groups ≤ totalCapacityOf roomsConfig →
        first_fit_decreasing (studentGroupLists meta groups)
          (roomObjectsOf roomsConfig) = none →
        ∀ stf, btDfs (roomObjectsOf roomsConfig)
            (sortGroupsDesc (studentGroupLists meta groups))
            ⟨[], initRoomStatus (roomObjectsOf roomsConfig)⟩ = some stf →
          assign_rooms_to_groups groups meta roomsConfig =
            Except.ok (stf.assignments.filter (fun kv => !kv.2.isEmpty))) := by
  have hrw : ∀ (z : Except PyError (List (String × List String))),
      assign_rooms_to_groups groups meta roomsConfig = z ↔
      (if totalStudentsOf groups > totalCapacityOf roomsConfig then
        Except.error (PyError.valueError
          s!"Not enough room capacity. Need {totalStudentsOf groups} seats, have {totalCapacityOf roomsConfig}")
      else
        match first_fit_decreasing (studentGroupLists meta groups)
            (roomObjectsOf roomsConfig) with
        | some res => Except.ok res
        | none => backtracking_assign (studentGroupLists meta groups)
            (roomObjectsOf roomsConfig)) = z := by
    intro z
    rw [assign_rooms_to_groups, studentGroups_eq hknd]
    rw [mapped_sum_eq, mapped_snd_eq]
    rfl
  refine ⟨?_, ?_, ?_, ?_⟩
  · intro hcap
    rw [hrw, if_pos hcap]
  · intro hcap res hffd
    rw [hrw, if_neg (by omega), hffd]
  · intro hcap hffd hbt
    rw [hrw, if_neg (by omega), hffd, backtracking_assign, hbt]
  · intro hcap hffd stf hbt
    rw [hrw, if_neg (by omega), hffd, backtracking_assign, hbt]

/-- Counterexample for C3 as stated: both failure modes surface as the
same generic `ValueError` constructor, distinguished only by their
message, and the capacity message carries the two totals (3 and 2), not a
distinct error kind carrying the computed shortage. -/
theorem assign_rooms_to_groups_c3_counterexample :
    assign_rooms_to_groups [(0, ["a", "b", "c"])] metaB [rcB] =
      Except.error (PyError.valueError
        "Not enough room capacity. Need 3 seats, have 2")
    ∧ assign_rooms_to_groups [(0, ["a", "b"])] metaB [rcY1, rcY2] =
      Except.error (PyError.valueError
        "No valid room assignment possible with current constraints") :=
  ⟨rfl, rfl⟩

/-- Witness for C3 (amended): the capacity branch at the concrete
over-capacity fixture. -/
theorem assign_rooms_to_groups_c3_witness :
    assign_rooms_to_groups [(0, ["a", "b", "c"])] metaB [rcB] =
      Except.error (PyError.valueError
        "Not enough room capacity. Need 3 seats, have 2") :=
  (assign_rooms_to_groups_c3 [(0, ["a", "b", "c"])] metaB [rcB] (by decide)).1
    (by decide)

/-! ### Claim C10: ceiling defaults and zero-disabling -/

/-- **C10.**  Missing `max_subjects`/`max_branches` default to 0 and
missing `max_departments`/`max_years` default to 2; the shared acceptance
predicate of FFD and the backtracking `can_place` enforces a diversity
ceiling only when its value is positive (a ceiling of 0 disables the
check); and `can_place` is exactly that predicate applied to the config
found for the room id. -/
theorem room_constraints_c10 :
    (∀ (name : String) (cap : Nat),
      RoomConfig.ofConfig
        { room_name := name, capacity := cap, max_subjects := none
          max_branches := none, max_departments := none, max_years := none
          allowed_years := none }
        = { room_id := name, capacity := cap, max_subjects := 0
            max_branches := 0, max_departments := 2, max_years := 2
            allowed_years := defaultAllowedYears })
    ∧ (∀ (room : RoomConfig) (status : RoomStatus) (group : List Student),
        roomAccepts room status group = true ↔
          (group.length ≤ status.remaining_capacity ∧
           groupYears group ⊆ room.allowed_years ∧
           (room.max_years > 0 →
             (status.years ∪ groupYears group).card ≤ room.max_years) ∧
           (room.max_departments > 0 →
             (status.departments ∪ groupDepartments group).card ≤ room.max_departments) ∧
           (room.max_subjects > 0 →
             (status.subjects ∪ groupSubjects group).card ≤ room.max_subjects) ∧
           (room.max_branches > 0 →
             (status.branches ∪ groupBranches group).card ≤ room.max_branches)))
    ∧ (∀ (rooms : List RoomConfig) (status : List (String × RoomStatus))
        (rid : String) (group : List Student) (r : RoomConfig),
        rooms.find? (fun x => x.room_id = rid) = some r →
        can_place rooms status rid group
          = roomAccepts r (statusOf status rid) group) := by
  refine ⟨fun _ _ => rfl, fun _ _ _ => roomAccepts_iff, ?_⟩
  intro rooms status rid group r hfind
  rw [can_place, hfind]

/-- Witness for C10: the `can_place` clause at a concrete room list. -/
theorem room_constraints_c10_witness :
    can_place [rB] [] "R1" [] = roomAccepts rB (statusOf [] "R1") [] :=
  room_constraints_c10.2.2 [rB] [] "R1" [] rB (by decide)

/-! ### Seat layout: the interleaved queue is a permutation of the room -/

theorem flatten_filter_ne {α : Type} :
    ∀ (qs : List (List α)),
      (qs.filter (fun g => !g.isEmpty)).flatten = qs.flatten
  | [] => rfl
  | q :: rest => by
      rcases q with _ | ⟨a, t⟩
      · simpa [List.filter_cons] using flatten_filter_ne rest
      · simpa [List.filter_cons] using
          congrArg (fun z => a :: t ++ z) (flatten_filter_ne rest)

theorem flatten_round_perm {α : Type} :
    ∀ (qs : List (List α)),
      qs.flatten.Perm ((qs.filterMap List.head?) ++ (qs.map List.tail).flatten)
  | [] => List.Perm.refl _
  | q :: rest => by
      rcases q with _ | ⟨a, t⟩
      · simpa using flatten_round_perm rest
      · simp only [List.flatten_cons, List.filterMap_cons, List.map_cons,
          List.head?, List.tail]
        have ih := flatten_round_perm rest
        have h1 : (a :: t) ++ rest.flatten =
            a :: (t ++ rest.flatten) := rfl
        rw [h1]
        have h2 : (t ++ rest.flatten).Perm
            (t ++ ((rest.filterMap List.head?) ++ (rest.map List.tail).flatten)) :=
          List.Perm.append_left t ih
        have h3 : (t ++ ((rest.filterMap List.head?) ++ (rest.map List.tail).flatten)).Perm
            ((rest.filterMap List.head?) ++ (t ++ (rest.map List.tail).flatten)) := by
          rw [← List.append_assoc, ← List.append_assoc]
          exact List.Perm.append_right _ List.perm_append_comm
        exact ((h2.trans h3).cons a).trans (List.Perm.refl _)

/-- Total number of queued students. -/
theorem totalLen_tail_ne {α : Type} (qs : List (List α))
    (hne : ¬ qs.all (fun q => q.isEmpty) = true) :
    ((qs.map List.tail).map List.length).sum + (qs.filterMap List.head?).length
      = (qs.map List.length).sum ∧ (qs.filterMap List.head?).length ≥ 1 := by
  constructor
  · clear hne
    induction qs with
    | nil => rfl
    | cons q rest ih =>
      rcases q with _ | ⟨a, t⟩
      · simpa [List.filterMap_cons, List.head?, List.tail] using ih
      · simp only [List.map_cons, List.filterMap_cons, List.head?, List.tail,
          List.sum_cons, List.length_cons]
        omega
  · simp only [List.all_eq_true, not_forall] at hne
    obtain ⟨q, hq, hne'⟩ := hne
    have : ∃ a t, q = a :: t := by
      rcases q with _ | ⟨a, t⟩
      · simp at hne'
      · exact ⟨a, t, rfl⟩
    obtain ⟨a, t, rfl⟩ := this
    have hmem : a ∈ qs.filterMap List.head? :=
      List.mem_filterMap.mpr ⟨a :: t, hq, rfl⟩
    have := List.length_pos_of_mem hmem
    omega

theorem interleaveRounds_perm {α : Type} :
    ∀ (fuel : Nat) (qs : List (List α)),
      (qs.map List.length).sum ≤ fuel →
      (interleaveRounds fuel qs).Perm qs.flatten
  | 0, qs, h => by
      rw [interleaveRounds]
      have hlen : qs.flatten.length = 0 := by
        rw [List.length_flatten]
        omega
      rw [List.eq_nil_of_length_eq_zero hlen]
  | fuel + 1, qs, h => by
      rw [interleaveRounds]
      by_cases hall : qs.all (fun q => q.isEmpty) = true
      · rw [if_pos hall]
        have hlen : qs.flatten.length = 0 := by
          rw [List.length_flatten]
          have : ∀ q ∈ qs, q.length = 0 := by
            intro q hq
            have := List.all_eq_true.mp hall q hq
            simpa [List.isEmpty_iff_length_eq_zero] using this
          have : ∀ x ∈ qs.map List.length, x = 0 := by
            intro x hx
            obtain ⟨q, hq, rfl⟩ := List.mem_map.mp hx
            exact this q hq
          exact List.sum_eq_zero this
        rw [List.eq_nil_of_length_eq_zero hlen]
      · rw [if_neg hall]
        obtain ⟨hsum, hpos⟩ := totalLen_tail_ne qs hall
        have hrec := interleaveRounds_perm fuel (qs.map List.tail) (by omega)
        exact (List.Perm.append_left _ hrec).trans (flatten_round_perm qs).symm

theorem interleave_groups_perm {α : Type} (qs : List (List α)) :
    (interleave_groups qs).Perm qs.flatten := by
  rw [interleave_groups]
  have h1 := interleaveRounds_perm
    ((qs.filter (fun g => !g.isEmpty)).map List.length).sum
    (qs.filter (fun g => !g.isEmpty)) (le_refl _)
  rw [flatten_filter_ne] at h1
  exact h1

theorem avaluesJoin_groupByKey {κ : Type} [DecidableEq κ]
    (key : String → κ) (l : List String) :
    (avaluesJoin (groupByKey key l)).Perm l := by
  have haux : ∀ (t : List String) (gs : List (κ × List String)),
      (avaluesJoin (t.foldl (fun gs a => aappend (key a) a gs) gs)).Perm
        (avaluesJoin gs ++ t) := by
    intro t
    induction t with
    | nil => intro gs; simp
    | cons a ts ih =>
      intro gs
      simp only [List.foldl_cons]
      have h1 := ih (aappend (key a) a gs)
      have h2 : (avaluesJoin (aappend (key a) a gs) ++ ts).Perm
          ((avaluesJoin gs ++ [a]) ++ ts) :=
        List.Perm.append_right ts (avaluesJoin_aextend (key a) [a] gs)
      have h3 : ((avaluesJoin gs ++ [a]) ++ ts).Perm (avaluesJoin gs ++ a :: ts) := by
        rw [List.append_assoc]
        exact List.Perm.append_left _ (List.Perm.refl (a :: ts))
      exact (h1.trans h2).trans h3
  have := haux l []
  simpa [groupByKey, avaluesJoin] using this

/-- The interleaved queue of a room is a permutation of its student list. -/
theorem queue_perm (meta : String → StudentMeta) (students : List String) :
    (interleave_groups ((yearGroups meta students).map Prod.snd)).Perm students := by
  have h1 := interleave_groups_perm ((yearGroups meta students).map Prod.snd)
  have h2 : ((yearGroups meta students).map Prod.snd).flatten
      = avaluesJoin (yearGroups meta students) := rfl
  rw [h2] at h1
  exact h1.trans (avaluesJoin_groupByKey _ students)

/-! ### Seat layout: the 8-neighborhood and the placement search -/

theorem mem_get_adjacent_elim {x y cols rows a b : Nat}
    (h : (a, b) ∈ get_adjacent_positions x y cols rows) :
    ∃ dx ∈ ([-1, 0, 1] : List Int), ∃ dy ∈ ([-1, 0, 1] : List Int),
      ¬(dx = 0 ∧ dy = 0) ∧ 0 ≤ (x : Int) + dx ∧ (x : Int) + dx < cols ∧
      0 ≤ (y : Int) + dy ∧ (y : Int) + dy < rows ∧
      a = ((x : Int) + dx).toNat ∧ b = ((y : Int) + dy).toNat := by
  simp only [get_adjacent_positions, List.mem_flatten, List.mem_map] at h
  obtain ⟨inner, ⟨dx, hdx, rfl⟩, hmem⟩ := h
  simp only [List.mem_flatten, List.mem_map] at hmem
  obtain ⟨cell, ⟨dy, hdy, rfl⟩, hmem⟩ := hmem
  by_cases h0 : dx = 0 ∧ dy = 0
  · rw [if_pos h0] at hmem
    cases hmem
  · rw [if_neg h0] at hmem
    by_cases hb : 0 ≤ (x : Int) + dx ∧ (x : Int) + dx < cols ∧
        0 ≤ (y : Int) + dy ∧ (y : Int) + dy < rows
    · rw [if_pos hb] at hmem
      simp only [List.mem_singleton, Prod.mk.injEq] at hmem
      exact ⟨dx, hdx, dy, hdy, h0, hb.1, hb.2.1, hb.2.2.1, hb.2.2.2,
        hmem.1, hmem.2⟩
    · rw [if_neg hb] at hmem
      cases hmem

theorem mem_get_adjacent_intro {x y cols rows : Nat} {dx dy : Int}
    (hdx : dx ∈ ([-1, 0, 1] : List Int)) (hdy : dy ∈ ([-1, 0, 1] : List Int))
    (h0 : ¬(dx = 0 ∧ dy = 0))
    (hb : 0 ≤ (x : Int) + dx ∧ (x : Int) + dx < cols ∧
      0 ≤ (y : Int) + dy ∧ (y : Int) + dy < rows) :
    (((x : Int) + dx).toNat, ((y : Int) + dy).toNat) ∈
      get_adjacent_positions x y cols rows := by
  simp only [get_adjacent_positions, List.mem_flatten, List.mem_map]
  refine ⟨_, ⟨dx, hdx, rfl⟩, ?_⟩
  simp only [List.mem_flatten, List.mem_map]
  refine ⟨_, ⟨dy, hdy, rfl⟩, ?_⟩
  rw [if_neg h0, if_pos hb]
  exact List.mem_singleton.mpr rfl

theorem get_adjacent_symm {x y a b cols rows : Nat} (hx : x < cols)
    (hy : y < rows) (h : (a, b) ∈ get_adjacent_positions x y cols rows) :
    (x, y) ∈ get_adjacent_positions a b cols rows := by
  obtain ⟨dx, hdx, dy, hdy, h0, hb1, hb2, hb3, hb4, ha, hb⟩ :=
    mem_get_adjacent_elim h
  have hdx3 : dx = -1 ∨ dx = 0 ∨ dx = 1 := by
    simpa only [List.mem_cons, List.not_mem_nil, or_false] using hdx
  have hdy3 : dy = -1 ∨ dy = 0 ∨ dy = 1 := by
    simpa only [List.mem_cons, List.not_mem_nil, or_false] using hdy
  have hdx' : -dx ∈ ([-1, 0, 1] : List Int) := by
    rcases hdx3 with h | h | h <;> rw [h] <;> decide
  have hdy' : -dy ∈ ([-1, 0, 1] : List Int) := by
    rcases hdy3 with h | h | h <;> rw [h] <;> decide
  have h0' : ¬(-dx = 0 ∧ -dy = 0) := by
    intro hc
    exact h0 ⟨by omega, by omega⟩
  have hu : ((a : Int) + -dx).toNat = x := by omega
  have hv : ((b : Int) + -dy).toNat = y := by omega
  have hb' : 0 ≤ (a : Int) + -dx ∧ (a : Int) + -dx < cols ∧
      0 ≤ (b : Int) + -dy ∧ (b : Int) + -dy < rows := by
    refine ⟨by omega, by omega, by omega, by omega⟩
  have hmem := mem_get_adjacent_intro hdx' hdy' h0' hb'
  rw [hu, hv] at hmem
  exact hmem

theorem is_adjacent_of_mem {x y : Nat} {sid : String}
    {assigned : List ((Nat × Nat) × String)}
    {fg : List (String × List String)} {cols rows : Nat}
    {pos : Nat × Nat} {fsid : String}
    (hadj : pos ∈ get_adjacent_positions x y cols rows)
    (hocc : alookup pos assigned = some fsid)
    (hf : fsid ∈ friendsOf fg sid) :
    is_adjacent_to_friend x y sid assigned fg cols rows = true := by
  rw [is_adjacent_to_friend, List.any_eq_true]
  refine ⟨pos, hadj, ?_⟩
  rw [hocc]
  simpa [friendsOf] using hf

theorem is_adjacent_elim {x y : Nat} {sid : String}
    {assigned : List ((Nat × Nat) × String)}
    {fg : List (String × List String)} {cols rows : Nat}
    (h : is_adjacent_to_friend x y sid assigned fg cols rows = true) :
    ∃ pos ∈ get_adjacent_positions x y cols rows, ∃ fsid,
      alookup pos assigned = some fsid ∧ fsid ∈ friendsOf fg sid := by
  rw [is_adjacent_to_friend, List.any_eq_true] at h
  obtain ⟨pos, hadj, hcond⟩ := h
  rcases hocc : alookup pos assigned with _ | fsid
  · rw [hocc] at hcond
    cases hcond
  · rw [hocc] at hcond
    exact ⟨pos, hadj, fsid, hocc, by simpa [friendsOf] using hcond⟩

theorem find_position_props {sid : String}
    {assigned : List ((Nat × Nat) × String)}
    {fg : List (String × List String)} {cols rows x y s : Nat}
    (h : find_non_adjacent_position sid assigned fg cols rows = some (x, y, s)) :
    alookup (x, y) assigned = none ∧ x < cols ∧ y < rows ∧
      s = y * cols + x + 1 := by
  have hmain : ∀ {idx : Nat}, idx ∈ List.range (cols * rows) →
      alookup (idx % cols, idx / cols) assigned = none →
      (x, y, s) = (idx % cols, idx / cols, idx + 1) →
      alookup (x, y) assigned = none ∧ x < cols ∧ y < rows ∧
        s = y * cols + x + 1 := by
    intro idx hidx hfree heq
    rw [List.mem_range] at hidx
    have hcols : 0 < cols := by
      rcases Nat.eq_zero_or_pos cols with h | h
      · rw [h, Nat.zero_mul] at hidx
        exact absurd hidx (Nat.not_lt_zero _)
      · exact h
    obtain ⟨h1, h2, h3⟩ : x = idx % cols ∧ y = idx / cols ∧ s = idx + 1 := by
      have e1 := congrArg Prod.fst heq
      have e2 := congrArg (fun p => p.2.1) heq
      have e3 := congrArg (fun p => p.2.2) heq
      exact ⟨e1, e2, e3⟩
    subst h1
    subst h2
    subst h3
    refine ⟨hfree, Nat.mod_lt _ hcols, ?_, ?_⟩
    · exact Nat.div_lt_of_lt_mul (by omega)
    · have hdm := Nat.div_add_mod idx cols
      rw [Nat.mul_comm] at hdm
      omega
  rw [find_non_adjacent_position] at h
  rcases h1 : (List.range (cols * rows)).find? (fun idx =>
      decide (alookup (idx % cols, idx / cols) assigned = none) &&
      !(is_adjacent_to_friend (idx % cols) (idx / cols) sid
          assigned fg cols rows)) with _ | idx
  · rw [h1] at h
    rcases h2 : (List.range (cols * rows)).find? (fun idx =>
        decide (alookup (idx % cols, idx / cols) assigned = none)) with _ | idx
    · rw [h2] at h
      cases h
    · rw [h2] at h
      have hp := List.find?_some h2
      have hm := List.mem_of_find?_eq_some h2
      simp only [decide_eq_true_eq] at hp
      exact hmain hm hp (Option.some.inj h).symm
  · rw [h1] at h
    have hp := List.find?_some h1
    have hm := List.mem_of_find?_eq_some h1
    simp only [Bool.and_eq_true, decide_eq_true_eq] at hp
    exact hmain hm hp.1 (Option.some.inj h).symm

/-- The search falls back to an adjacent cell only when every free cell is
adjacent to a friend. -/
theorem find_position_fallback {sid : String}
    {assigned : List ((Nat × Nat) × String)}
    {fg : List (String × List String)} {cols rows x y s : Nat}
    (h : find_non_adjacent_position sid assigned fg cols rows = some (x, y, s))
    (hadj : is_adjacent_to_friend x y sid assigned fg cols rows = true) :
    ∀ idx < cols * rows, alookup (idx % cols, idx / cols) assigned = none →
      is_adjacent_to_friend (idx % cols) (idx / cols) sid assigned fg cols rows
        = true := by
  rw [find_non_adjacent_position] at h
  rcases h1 : (List.range (cols * rows)).find? (fun idx =>
      decide (alookup (idx % cols, idx / cols) assigned = none) &&
      !(is_adjacent_to_friend (idx % cols) (idx / cols) sid
          assigned fg cols rows)) with _ | idx
  · intro idx hidx hfree
    have hnone := List.find?_eq_none.mp h1 idx (List.mem_range.mpr hidx)
    by_contra hc
    apply hnone
    simp only [Bool.and_eq_true, decide_eq_true_eq, Bool.not_eq_true']
    exact ⟨hfree, by simpa using hc⟩
  · rw [h1] at h
    have hp := List.find?_some h1
    simp only [Bool.and_eq_true, decide_eq_true_eq, Bool.not_eq_true'] at hp
    have hx : x = idx % cols := congrArg Prod.fst (Option.some.inj h).symm
    have hy : y = idx / cols := congrArg (fun p => p.2.1) (Option.some.inj h).symm
    rw [hx, hy] at hadj
    rw [hp.2] at hadj
    cases hadj

/-- When a free cell exists the search succeeds. -/
theorem find_position_some {sid : String}
    {assigned : List ((Nat × Nat) × String)}
    {fg : List (String × List String)} {cols rows : Nat}
    (hfree : ∃ idx, idx < cols * rows ∧
      alookup (idx % cols, idx / cols) assigned = none) :
    ∃ x y s, find_non_adjacent_position sid assigned fg cols rows
      = some (x, y, s) := by
  rw [find_non_adjacent_position]
  rcases h1 : (List.range (cols * rows)).find? (fun idx =>
      decide (alookup (idx % cols, idx / cols) assigned = none) &&
      !(is_adjacent_to_friend (idx % cols) (idx / cols) sid
          assigned fg cols rows)) with _ | idx
  · rcases h2 : (List.range (cols * rows)).find? (fun idx =>
        decide (alookup (idx % cols, idx / cols) assigned = none)) with _ | idx
    · obtain ⟨idx, hidx, hf⟩ := hfree
      have := List.find?_eq_none.mp h2 idx (List.mem_range.mpr hidx)
      exact absurd (by simpa using hf) this
    · exact ⟨_, _, _, rfl⟩
  · exact ⟨_, _, _, rfl⟩

/-- Fewer assigned positions than cells leaves a free cell. -/
theorem free_cell_exists {assigned : List ((Nat × Nat) × String)}
    {cols rows : Nat}
    (hbound : ∀ kv ∈ assigned, kv.1.1 < cols ∧ kv.1.2 < rows)
    (hlen : assigned.length < cols * rows) :
    ∃ idx, idx < cols * rows ∧
      alookup (idx % cols, idx / cols) assigned = none := by
  by_contra hc
  push_neg at hc
  have hsub : ((List.range (cols * rows)).map
      (fun i => (i % cols, i / cols))) ⊆ assigned.map Prod.fst := by
    intro cell hcell
    obtain ⟨i, hi, rfl⟩ := List.mem_map.mp hcell
    rw [List.mem_range] at hi
    have := hc i hi
    rcases hlk : alookup (i % cols, i / cols) assigned with _ | v
    · exact absurd hlk this
    · have := alookup_mem hlk
      exact List.mem_map_of_mem Prod.fst this
  have hcellnd : (((List.range (cols * rows)).map
      (fun i => (i % cols, i / cols)))).Nodup := by
    have hcols : 0 < cols := by
      rcases Nat.eq_zero_or_pos cols with h | h
      · subst h
        simp at hlen
      · exact h
    apply List.Nodup.map_on ?_ (List.nodup_range _)
    intro i hi j hj hij
    rw [List.mem_range] at hi hj
    have e1 : i % cols = j % cols := congrArg Prod.fst hij
    have e2 : i / cols = j / cols := congrArg Prod.snd hij
    have d1 := Nat.div_add_mod i cols
    have d2 := Nat.div_add_mod j cols
    rw [e1, e2] at d1
    omega
  have hle := (List.subperm_of_subset hcellnd hsub).length_le
  rw [List.length_map, List.length_range, List.length_map] at hle
  omega

/-! ### Seat layout: the spread positions of the friendless path -/

theorem rowMajor_cells_nodup (cols n : Nat) :
    ((List.range n).map (fun i => (i % cols, i / cols))).Nodup := by
  rcases Nat.eq_zero_or_pos cols with hc | hc
  · subst hc
    apply List.Nodup.map_on ?_ (List.nodup_range _)
    intro i _ j _ hij
    have e1 : i % 0 = j % 0 := congrArg Prod.fst hij
    simpa using e1
  · apply List.Nodup.map_on ?_ (List.nodup_range _)
    intro i _ j _ hij
    have e1 : i % cols = j % cols := congrArg Prod.fst hij
    have e2 : i / cols = j / cols := congrArg Prod.snd hij
    have d1 := Nat.div_add_mod i cols
    have d2 := Nat.div_add_mod j cols
    rw [e1, e2] at d1
    omega

theorem rowMajor_mem {cols rows n : Nat} {p : Nat × Nat × Nat}
    (hn : n ≤ cols * rows)
    (hp : p ∈ (List.range n).map (fun i => (i % cols, i / cols, i + 1))) :
    p.1 < cols ∧ p.2.1 < rows ∧ p.2.2 = p.2.1 * cols + p.1 + 1 := by
  obtain ⟨i, hi, rfl⟩ := List.mem_map.mp hp
  rw [List.mem_range] at hi
  have hc : 0 < cols := by
    rcases Nat.eq_zero_or_pos cols with h | h
    · subst h
      omega
    · exact h
  refine ⟨Nat.mod_lt _ hc, Nat.div_lt_of_lt_mul (by omega), ?_⟩
  show i + 1 = i / cols * cols + i % cols + 1
  have hdm := Nat.div_add_mod i cols
  rw [Nat.mul_comm] at hdm
  omega

theorem checkerCells_mem {cols rows phase : Nat} {p : Nat × Nat × Nat} :
    p ∈ checkerCells cols rows phase ↔
      p.1 < cols ∧ p.2.1 < rows ∧ p.1 % 2 = (p.2.1 + phase) % 2 ∧
      p.2.2 = p.2.1 * cols + p.1 + 1 := by
  obtain ⟨c, r, n⟩ := p
  simp only [checkerCells, List.mem_flatten, List.mem_map]
  constructor
  · rintro ⟨inner, ⟨row, hrow, rfl⟩, hmem⟩
    rw [List.mem_range] at hrow
    obtain ⟨col, hcol, heq⟩ := List.mem_map.mp hmem
    rw [List.mem_filter, List.mem_range] at hcol
    obtain ⟨hcl, hpar⟩ := hcol
    have e1 : col = c := congrArg Prod.fst heq
    have e2 : row = r := congrArg (fun q => q.2.1) heq
    have e3 : row * cols + col + 1 = n := congrArg (fun q => q.2.2) heq
    subst e1
    subst e2
    rw [decide_eq_true_eq] at hpar
    exact ⟨hcl, hrow, hpar, e3.symm⟩
  · rintro ⟨h1, h2, h3, h4⟩
    refine ⟨_, ⟨r, List.mem_range.mpr h2, rfl⟩, ?_⟩
    refine List.mem_map.mpr ⟨c, ?_, ?_⟩
    · rw [List.mem_filter, List.mem_range]
      exact ⟨h1, by rw [decide_eq_true_eq]; exact h3⟩
    · rw [h4]

theorem checkerCells_cells_nodup (cols rows phase : Nat) :
    ((checkerCells cols rows phase).map (fun p => (p.1, p.2.1))).Nodup := by
  rw [checkerCells, List.map_flatten, List.map_map, List.nodup_flatten]
  constructor
  · intro l hl
    obtain ⟨row, _, rfl⟩ := List.mem_map.mp hl
    simp only [Function.comp, List.map_map]
    apply List.Nodup.map_on ?_ ((List.nodup_range cols).filter _)
    intro a _ b _ hab
    exact congrArg Prod.fst hab
  · refine List.Pairwise.map _ ?_ (List.nodup_range rows)
    intro a b hab x hxa hxb
    simp only [Function.comp, List.map_map] at hxa hxb
    obtain ⟨ca, _, rfl⟩ := List.mem_map.mp hxa
    obtain ⟨cb, _, he⟩ := List.mem_map.mp hxb
    exact hab (congrArg Prod.snd he).symm

theorem sum_map_add {α : Type} (f g : α → Nat) :
    ∀ l : List α, (l.map f).sum + (l.map g).sum = (l.map (fun x => f x + g x)).sum
  | [] => rfl
  | x :: xs => by
      simp only [List.map_cons, List.sum_cons]
      have := sum_map_add f g xs
      omega

theorem filter_parity_length (cols r : Nat) :
    ((List.range cols).filter (fun col => col % 2 = (r + 0) % 2)).length +
    ((List.range cols).filter (fun col => col % 2 = (r + 1) % 2)).length = cols := by
  have hq : ((List.range cols).filter (fun col => col % 2 = (r + 1) % 2))
      = ((List.range cols).filter
          (fun col => !(decide (col % 2 = (r + 0) % 2)))) := by
    apply List.filter_congr
    intro col _
    by_cases h : col % 2 = (r + 0) % 2
    · have h2 : ¬ (col % 2 = (r + 1) % 2) := by omega
      rw [decide_eq_true h, decide_eq_false h2, Bool.not_true]
    · have h2 : col % 2 = (r + 1) % 2 := by omega
      rw [decide_eq_false h, decide_eq_true h2, Bool.not_false]
  rw [hq]
  have hperm := List.filter_append_perm
    (fun col => decide (col % 2 = (r + 0) % 2)) (List.range cols)
  have hlen := hperm.length_eq
  rw [List.length_append, List.length_range] at hlen
  exact hlen

theorem checkerCells_length (cols rows : Nat) :
    (checkerCells cols rows 0).length + (checkerCells cols rows 1).length
      = cols * rows := by
  rw [checkerCells, checkerCells, List.length_flatten, List.length_flatten,
    List.map_map, List.map_map, sum_map_add]
  have hcongr : (List.range rows).map (fun row =>
        (List.length ∘ fun row => ((List.range cols).filter
          (fun col => col % 2 = (row + 0) % 2)).map
            (fun col => (col, row, row * cols + col + 1))) row +
        (List.length ∘ fun row => ((List.range cols).filter
          (fun col => col % 2 = (row + 1) % 2)).map
            (fun col => (col, row, row * cols + col + 1))) row)
      = (List.range rows).map (fun _ => cols) := by
    apply List.map_congr_left
    intro r _
    simp only [Function.comp, List.length_map]
    exact filter_parity_length cols r
  rw [hcongr]
  have hsum : ∀ n : Nat, ((List.range n).map (fun _ : Nat => cols)).sum = cols * n := by
    intro n
    induction n with
    | zero => simp
    | succ k ih => rw [List.range_succ]; simp [ih, Nat.mul_succ, Nat.mul_comm]
  rw [hsum]

theorem checker01_disjoint {cols rows : Nat} {p : Nat × Nat × Nat}
    (h0 : p ∈ checkerCells cols rows 0)
    (h1 : p ∈ checkerCells cols rows 1) : False := by
  rw [checkerCells_mem] at h0 h1
  omega

theorem checker01_cells_disjoint {cols rows : Nat} {x : Nat × Nat}
    (h0 : x ∈ (checkerCells cols rows 0).map (fun p => (p.1, p.2.1)))
    (h1 : x ∈ (checkerCells cols rows 1).map (fun p => (p.1, p.2.1))) :
    False := by
  obtain ⟨p, hp, hpe⟩ := List.mem_map.mp h0
  obtain ⟨q, hq, hqe⟩ := List.mem_map.mp h1
  rw [checkerCells_mem] at hp hq
  have hpq := hpe.trans hqe.symm
  rw [Prod.mk.injEq] at hpq
  omega

theorem checker_filter_eq (cols rows : Nat) :
    (checkerCells cols rows 1).filter
        (fun pos => ¬ pos ∈ checkerCells cols rows 0)
      = checkerCells cols rows 1 := by
  rw [List.filter_eq_self]
  intro p hp
  rw [decide_eq_true_eq]
  intro h0
  exact checker01_disjoint h0 hp

theorem get_spread_full {num cols rows : Nat} (h : num ≥ cols * rows) :
    get_spread_positions num cols rows
      = (List.range (cols * rows)).map (fun i => (i % cols, i / cols, i + 1)) := by
  simp only [get_spread_positions]
  rw [if_pos h]

theorem get_spread_checker {num cols rows : Nat} (h1 : ¬ num ≥ cols * rows)
    (h2 : max 1 (cols * rows / num) ≥ 2) :
    get_spread_positions num cols rows
      = ((checkerCells cols rows 0) ++ ((checkerCells cols rows 1).filter
          (fun pos => ¬ pos ∈ checkerCells cols rows 0))).take num := by
  simp only [get_spread_positions]
  rw [if_neg h1, if_pos h2]

theorem get_spread_seq {num cols rows : Nat} (h1 : ¬ num ≥ cols * rows)
    (h2 : ¬ max 1 (cols * rows / num) ≥ 2) :
    get_spread_positions num cols rows
      = (List.range (min num (cols * rows))).map
          (fun i => (i % cols, i / cols, i + 1)) := by
  simp only [get_spread_positions]
  rw [if_neg h1, if_neg h2]

theorem get_spread_positions_spec (num cols rows : Nat) :
    (get_spread_positions num cols rows).length = min num (cols * rows) ∧
    (∀ p ∈ get_spread_positions num cols rows,
      p.1 < cols ∧ p.2.1 < rows ∧ p.2.2 = p.2.1 * cols + p.1 + 1) ∧
    ((get_spread_positions num cols rows).map (fun p => (p.1, p.2.1))).Nodup := by
  by_cases h1 : num ≥ cols * rows
  · rw [get_spread_full h1]
    refine ⟨?_, ?_, ?_⟩
    · rw [List.length_map, List.length_range]
      omega
    · intro p hp
      exact rowMajor_mem (Nat.le_refl _) hp
    · rw [List.map_map]
      exact rowMajor_cells_nodup cols (cols * rows)
  · by_cases h2 : max 1 (cols * rows / num) ≥ 2
    · rw [get_spread_checker h1 h2, checker_filter_eq]
      have hlen : (checkerCells cols rows 0 ++ checkerCells cols rows 1).length
          = cols * rows := by
        rw [List.length_append]
        exact checkerCells_length cols rows
      refine ⟨?_, ?_, ?_⟩
      · rw [List.length_take, hlen]
      · intro p hp
        have hp' := (List.take_sublist _ _).subset hp
        rcases List.mem_append.mp hp' with h | h
        · have hm := checkerCells_mem.mp h
          exact ⟨hm.1, hm.2.1, hm.2.2.2⟩
        · have hm := checkerCells_mem.mp h
          exact ⟨hm.1, hm.2.1, hm.2.2.2⟩
      · rw [List.map_take]
        apply List.Nodup.sublist (List.take_sublist _ _)
        rw [List.map_append, List.nodup_append]
        refine ⟨checkerCells_cells_nodup cols rows 0,
          checkerCells_cells_nodup cols rows 1, ?_⟩
        intro x hx0 hx1
        exact checker01_cells_disjoint hx0 hx1
    · rw [get_spread_seq h1 h2]
      refine ⟨?_, ?_, ?_⟩
      · rw [List.length_map, List.length_range]
      · intro p hp
        exact rowMajor_mem (by omega) hp
      · rw [List.map_map]
        exact rowMajor_cells_nodup cols _

theorem spreadSeatRoom_spec (meta : String → StudentMeta) (cols rows : Nat)
    (studs : List String) (hlen : studs.length ≤ cols * rows) :
    ((spreadSeatRoom meta cols rows studs).map Seat.student_id).Perm studs ∧
    ((spreadSeatRoom meta cols rows studs).map (fun s => (s.x, s.y))).Nodup ∧
    (∀ s ∈ spreadSeatRoom meta cols rows studs,
      s.x < cols ∧ s.y < rows ∧ s.seat_no = s.y * cols + s.x + 1) := by
  have hq := queue_perm meta studs
  have hqlen := hq.length_eq
  obtain ⟨hplen, hpmem, hpnd⟩ := get_spread_positions_spec
    (interleave_groups ((yearGroups meta studs).map Prod.snd)).length cols rows
  have hpq : (get_spread_positions
      (interleave_groups ((yearGroups meta studs).map Prod.snd)).length cols rows).length
      = (interleave_groups ((yearGroups meta studs).map Prod.snd)).length := by
    omega
  have hseats : spreadSeatRoom meta cols rows studs
      = ((interleave_groups ((yearGroups meta studs).map Prod.snd)).zip
          (get_spread_positions
            (interleave_groups ((yearGroups meta studs).map Prod.snd)).length
            cols rows)).map
          (fun sp => mkSeat sp.2.1 sp.2.2.1 sp.1 sp.2.2.2 meta) := rfl
  refine ⟨?_, ?_, ?_⟩
  · rw [hseats, List.map_map]
    have hfst : (((interleave_groups ((yearGroups meta studs).map Prod.snd)).zip
        (get_spread_positions
          (interleave_groups ((yearGroups meta studs).map Prod.snd)).length
          cols rows)).map
        (Seat.student_id ∘ fun sp => mkSeat sp.2.1 sp.2.2.1 sp.1 sp.2.2.2 meta))
        = (interleave_groups ((yearGroups meta studs).map Prod.snd)) :=
      List.map_fst_zip _ _ (by omega)
    rw [hfst]
    exact hq
  · rw [hseats, List.map_map]
    have hcells : (((interleave_groups ((yearGroups meta studs).map Prod.snd)).zip
        (get_spread_positions
          (interleave_groups ((yearGroups meta studs).map Prod.snd)).length
          cols rows)).map
        ((fun s => (s.x, s.y)) ∘ fun sp => mkSeat sp.2.1 sp.2.2.1 sp.1 sp.2.2.2 meta))
        = ((get_spread_positions
            (interleave_groups ((yearGroups meta studs).map Prod.snd)).length
            cols rows).map (fun p => (p.1, p.2.1))) := by
      have hsnd := List.map_snd_zip
        (interleave_groups ((yearGroups meta studs).map Prod.snd))
        (get_spread_positions
          (interleave_groups ((yearGroups meta studs).map Prod.snd)).length
          cols rows) (by omega)
      rw [show ((fun s => (s.x, s.y)) ∘
          fun sp : String × Nat × Nat × Nat =>
            mkSeat sp.2.1 sp.2.2.1 sp.1 sp.2.2.2 meta)
          = ((fun p : Nat × Nat × Nat => (p.1, p.2.1)) ∘ Prod.snd) from rfl]
      rw [← List.map_map, hsnd]
    rw [hcells]
    exact hpnd
  · intro s hs
    rw [hseats] at hs
    obtain ⟨sp, hsp, rfl⟩ := List.mem_map.mp hs
    obtain ⟨a, p⟩ := sp
    have hmp := (List.of_mem_zip hsp).2
    have := hpmem p hmp
    exact this

theorem alookup_append_some {κ α : Type} [DecidableEq κ] {k : κ}
    {m₁ m₂ : List (κ × α)} {v : α} (h : alookup k m₁ = some v) :
    alookup k (m₁ ++ m₂) = some v := by
  rw [alookup_append, h]

theorem not_self_adjacent (x y cols rows : Nat) :
    (x, y) ∉ get_adjacent_positions x y cols rows := by
  intro h
  obtain ⟨dx, _, dy, _, h0, hb1, _, hb3, _, ha, hb⟩ := mem_get_adjacent_elim h
  exact h0 ⟨by omega, by omega⟩

theorem assigned_length_le {assigned : List ((Nat × Nat) × String)}
    {cols rows : Nat}
    (hnd : (assigned.map Prod.fst).Nodup)
    (hbound : ∀ kv ∈ assigned, kv.1.1 < cols ∧ kv.1.2 < rows) :
    assigned.length ≤ cols * rows := by
  have hsub : assigned.map Prod.fst ⊆
      (List.range (cols * rows)).map (fun i => (i % cols, i / cols)) := by
    intro cell hcell
    obtain ⟨kv, hkv, rfl⟩ := List.mem_map.mp hcell
    obtain ⟨hx, hy⟩ := hbound kv hkv
    have hc : 0 < cols := by omega
    refine List.mem_map.mpr ⟨kv.1.2 * cols + kv.1.1, ?_, ?_⟩
    · rw [List.mem_range]
      have h1 : (kv.1.2 + 1) * cols ≤ rows * cols :=
        Nat.mul_le_mul_right cols (by omega)
      rw [Nat.succ_mul, Nat.mul_comm rows cols] at h1
      omega
    · have hmod : (kv.1.2 * cols + kv.1.1) % cols = kv.1.1 := by
        rw [Nat.mul_comm kv.1.2 cols, Nat.mul_add_mod]
        exact Nat.mod_eq_of_lt hx
      have hdiv : (kv.1.2 * cols + kv.1.1) / cols = kv.1.2 := by
        rw [Nat.mul_comm kv.1.2 cols, Nat.mul_add_div hc, Nat.div_eq_of_lt hx]
        omega
      rw [hmod, hdiv]
  have hle := (List.subperm_of_subset hnd hsub).length_le
  rw [List.length_map, List.length_map, List.length_range] at hle
  exact hle

theorem occupied_length_ge {assigned : List ((Nat × Nat) × String)}
    {cols rows : Nat}
    (hocc : ∀ idx, idx < cols * rows →
      ¬ alookup (idx % cols, idx / cols) assigned = none) :
    cols * rows ≤ assigned.length := by
  have hsub : ((List.range (cols * rows)).map (fun i => (i % cols, i / cols)))
      ⊆ assigned.map Prod.fst := by
    intro cell hcell
    obtain ⟨i, hi, rfl⟩ := List.mem_map.mp hcell
    rw [List.mem_range] at hi
    have hne := hocc i hi
    rcases hlk : alookup (i % cols, i / cols) assigned with _ | v
    · exact absurd hlk hne
    · exact List.mem_map_of_mem Prod.fst (alookup_mem hlk)
  have hle := (List.subperm_of_subset
    (rowMajor_cells_nodup cols (cols * rows)) hsub).length_le
  rw [List.length_map, List.length_map, List.length_range] at hle
  exact hle

theorem find_position_none {sid : String}
    {assigned : List ((Nat × Nat) × String)}
    {fg : List (String × List String)} {cols rows : Nat}
    (h : ∀ idx, idx < cols * rows →
      ¬ alookup (idx % cols, idx / cols) assigned = none) :
    find_non_adjacent_position sid assigned fg cols rows = none := by
  rw [find_non_adjacent_position]
  have h1 : (List.range (cols * rows)).find? (fun idx =>
      decide (alookup (idx % cols, idx / cols) assigned = none) &&
      !(is_adjacent_to_friend (idx % cols) (idx / cols) sid
          assigned fg cols rows)) = none := by
    rw [List.find?_eq_none]
    intro idx hidx htrue
    rw [Bool.and_eq_true, decide_eq_true_eq] at htrue
    exact h idx (List.mem_range.mp hidx) htrue.1
  have h2 : (List.range (cols * rows)).find? (fun idx =>
      decide (alookup (idx % cols, idx / cols) assigned = none)) = none := by
    rw [List.find?_eq_none]
    intro idx hidx htrue
    rw [decide_eq_true_eq] at htrue
    exact h idx (List.mem_range.mp hidx) htrue
  rw [h1, h2]

/-- The master invariant lemma about the per-student placement loop of
`assign_seats_with_separation`: the assigned-positions dict stays in sync
with the emitted seats, exactly `min (already placed + queue) (cols*rows)`
cells end up occupied, everybody is seated while the room has room,
the violation list only grows, stays sound, records only seated students,
and (for a symmetric friend map) flags every adjacent related pair. -/
theorem sepFold_master (fg : List (String × List String))
    (meta : String → StudentMeta) (cols rows : Nat) :
    ∀ (queue : List String)
      (acc : List ((Nat × Nat) × String) × List Seat ×
        List ((Nat × Nat) × String)),
    SepInvariant cols rows acc →
    SepInvariant cols rows (queue.foldl (sepPlaceStudent fg meta cols rows) acc) ∧
    (∃ placed : List String, placed.Sublist queue ∧
      (queue.foldl (sepPlaceStudent fg meta cols rows) acc).2.1.map Seat.student_id
        = acc.2.1.map Seat.student_id ++ placed) ∧
    (queue.foldl (sepPlaceStudent fg meta cols rows) acc).1.length
      = min (acc.1.length + queue.length) (cols * rows) ∧
    (acc.1.length + queue.length ≤ cols * rows →
      (queue.foldl (sepPlaceStudent fg meta cols rows) acc).2.1.map Seat.student_id
        = acc.2.1.map Seat.student_id ++ queue) ∧
    (∃ newv, (queue.foldl (sepPlaceStudent fg meta cols rows) acc).2.2
      = acc.2.2 ++ newv) ∧
    (ViolSound fg cols rows acc.1 acc.2.2 →
      ViolSound fg cols rows
        (queue.foldl (sepPlaceStudent fg meta cols rows) acc).1
        (queue.foldl (sepPlaceStudent fg meta cols rows) acc).2.2) ∧
    ((∀ v ∈ acc.2.2, v ∈ acc.1) →
      ∀ v ∈ (queue.foldl (sepPlaceStudent fg meta cols rows) acc).2.2,
        v ∈ (queue.foldl (sepPlaceStudent fg meta cols rows) acc).1) ∧
    ((∀ a b, a ∈ friendsOf fg b → b ∈ friendsOf fg a) →
      SepFlagged fg cols rows acc.2.1 acc.2.2 →
      SepFlagged fg cols rows
        (queue.foldl (sepPlaceStudent fg meta cols rows) acc).2.1
        (queue.foldl (sepPlaceStudent fg meta cols rows) acc).2.2) := by
  intro queue
  induction queue with
  | nil =>
      intro acc hinv
      obtain ⟨hmirror, hnd, hbound, hformula⟩ := hinv
      have hle := assigned_length_le hnd hbound
      refine ⟨⟨hmirror, hnd, hbound, hformula⟩,
        ⟨[], List.nil_sublist _, by simp⟩, by simp; omega, ?_, ⟨[], by simp⟩,
        fun hs => hs, fun hs => hs, fun _ hf => hf⟩
      intro _
      simp
  | cons sid rest ih =>
      intro acc hinv
      obtain ⟨assigned, seats, violations⟩ := acc
      obtain ⟨hmirror, hnd, hbound, hformula⟩ := hinv
      have hmirror' : assigned
          = seats.map (fun t => ((t.x, t.y), t.student_id)) := hmirror
      have hbound' : ∀ kv ∈ assigned, kv.1.1 < cols ∧ kv.1.2 < rows := hbound
      have hnd0 : (assigned.map Prod.fst).Nodup := hnd
      rw [List.foldl_cons]
      by_cases hfree : ∃ idx, idx < cols * rows ∧
          alookup (idx % cols, idx / cols) assigned = none
      · obtain ⟨x, y, s, hfind⟩ := @find_position_some sid assigned fg cols rows hfree
        obtain ⟨hfreecell, hx, hy, hseatno⟩ := find_position_props hfind
        have hstep : sepPlaceStudent fg meta cols rows
            (assigned, seats, violations) sid
            = (assigned ++ [((x, y), sid)],
               seats ++ [mkSeat x y sid s meta],
               if is_adjacent_to_friend x y sid (assigned ++ [((x, y), sid)])
                   fg cols rows
               then violations ++ [((x, y), sid)] else violations) := by
          simp only [sepPlaceStudent, hfind]
        rw [hstep]
        have hnotmem : (x, y) ∉ assigned.map Prod.fst := by
          have := alookup_eq_none.mp hfreecell
          simpa [akeys] using this
        have hnd' : ((assigned ++ [((x, y), sid)]).map Prod.fst).Nodup := by
          rw [List.map_append, List.nodup_append]
          refine ⟨hnd, by simp, ?_⟩
          intro a ha hb
          simp only [List.map_cons, List.map_nil, List.mem_singleton] at hb
          subst hb
          exact hnotmem ha
        have hinv' : SepInvariant cols rows
            (assigned ++ [((x, y), sid)],
             seats ++ [mkSeat x y sid s meta],
             if is_adjacent_to_friend x y sid (assigned ++ [((x, y), sid)])
                 fg cols rows
             then violations ++ [((x, y), sid)] else violations) := by
          refine ⟨?_, hnd', ?_, ?_⟩
          · show assigned ++ [((x, y), sid)]
              = (seats ++ [mkSeat x y sid s meta]).map
                  (fun t => ((t.x, t.y), t.student_id))
            rw [List.map_append, ← hmirror]
            rfl
          · intro kv hkv
            rcases List.mem_append.mp hkv with h | h
            · exact hbound kv h
            · rw [List.mem_singleton] at h
              subst h
              exact ⟨hx, hy⟩
          · intro t ht
            rcases List.mem_append.mp ht with h | h
            · exact hformula t h
            · rw [List.mem_singleton] at h
              subst h
              exact hseatno
        obtain ⟨rinv, ⟨placed, hplsub, hplids⟩, rlen, rall, ⟨newv, hnewv⟩,
          rsound, rsub, rflag⟩ := ih _ hinv'
        refine ⟨rinv, ⟨sid :: placed, List.Sublist.cons₂ sid hplsub, ?_⟩,
          ?_, ?_, ?_, ?_, ?_, ?_⟩
        · rw [hplids]
          simp [mkSeat]
        · rw [rlen]
          simp only [List.length_append, List.length_cons]
          simp
          omega
        · intro hcap
          simp only [List.length_cons] at hcap
          have hcap' : (assigned ++ [((x, y), sid)]).length + rest.length
              ≤ cols * rows := by
            simp only [List.length_append, List.length_cons, List.length_nil]
            omega
          rw [rall hcap']
          simp [mkSeat]
        · by_cases hadj : is_adjacent_to_friend x y sid
              (assigned ++ [((x, y), sid)]) fg cols rows = true
          · refine ⟨((x, y), sid) :: newv, ?_⟩
            rw [hnewv, if_pos hadj, List.append_assoc]
            rfl
          · refine ⟨newv, ?_⟩
            rw [hnewv, if_neg hadj]
        · intro hs
          apply rsound
          intro v hv
          by_cases hadj : is_adjacent_to_friend x y sid
              (assigned ++ [((x, y), sid)]) fg cols rows = true
          · rw [if_pos hadj] at hv
            rcases List.mem_append.mp hv with h | h
            · obtain ⟨fsid, hf, pos, hpos, hlk⟩ := hs v h
              exact ⟨fsid, hf, pos, hpos, alookup_append_some hlk⟩
            · rw [List.mem_singleton] at h
              subst h
              obtain ⟨pos, hpos, fsid, hlk, hf⟩ := is_adjacent_elim hadj
              exact ⟨fsid, hf, pos, hpos, hlk⟩
          · rw [if_neg hadj] at hv
            obtain ⟨fsid, hf, pos, hpos, hlk⟩ := hs v hv
            exact ⟨fsid, hf, pos, hpos, alookup_append_some hlk⟩
        · intro hs
          apply rsub
          intro v hv
          by_cases hadj : is_adjacent_to_friend x y sid
              (assigned ++ [((x, y), sid)]) fg cols rows = true
          · rw [if_pos hadj] at hv
            rcases List.mem_append.mp hv with h | h
            · exact List.mem_append_left _ (hs v h)
            · rw [List.mem_singleton] at h
              subst h
              exact List.mem_append_right _ (by simp)
          · rw [if_neg hadj] at hv
            exact List.mem_append_left _ (hs v hv)
        · intro hsym hflag
          apply rflag hsym
          intro t1 ht1 t2 ht2 hfr hadjpos
          have hlkOld : ∀ t ∈ seats,
              alookup (t.x, t.y) (assigned ++ [((x, y), sid)])
                = some t.student_id := by
            intro t ht
            apply mem_alookup (by simpa [akeys] using hnd')
            apply List.mem_append_left
            rw [hmirror']
            exact List.mem_map_of_mem _ ht
          rcases List.mem_append.mp ht1 with h1 | h1 <;>
            rcases List.mem_append.mp ht2 with h2 | h2
          · -- both old: use the accumulated flagging, weakened to the new list
            have := hflag t1 h1 t2 h2 hfr hadjpos
            by_cases hadj : is_adjacent_to_friend x y sid
                (assigned ++ [((x, y), sid)]) fg cols rows = true
            · rw [if_pos hadj]
              rcases this with h | h
              · exact Or.inl (List.mem_append_left _ h)
              · exact Or.inr (List.mem_append_left _ h)
            · rw [if_neg hadj]
              exact this
          · -- t1 old, t2 is the new seat
            rw [List.mem_singleton] at h2
            subst h2
            have hb1 := hbound' _ (by rw [hmirror']; exact List.mem_map_of_mem _ h1)
            have hsymadj : (t1.x, t1.y) ∈ get_adjacent_positions x y cols rows :=
              get_adjacent_symm hb1.1 hb1.2 hadjpos
            have hf2 : t1.student_id ∈ friendsOf fg sid := hsym _ _ hfr
            have hadj : is_adjacent_to_friend x y sid
                (assigned ++ [((x, y), sid)]) fg cols rows = true :=
              is_adjacent_of_mem hsymadj (hlkOld t1 h1) hf2
            rw [if_pos hadj]
            exact Or.inr (List.mem_append_right _ (by simp [mkSeat]))
          · -- t1 is the new seat, t2 old
            rw [List.mem_singleton] at h1
            subst h1
            have hadj : is_adjacent_to_friend x y sid
                (assigned ++ [((x, y), sid)]) fg cols rows = true :=
              is_adjacent_of_mem hadjpos (hlkOld t2 h2) hfr
            rw [if_pos hadj]
            exact Or.inl (List.mem_append_right _ (by simp [mkSeat]))
          · -- both are the new seat: a cell is never adjacent to itself
            rw [List.mem_singleton] at h1 h2
            subst h1
            subst h2
            exact absurd hadjpos (not_self_adjacent x y cols rows)
      · push_neg at hfree
        have hnone := @find_position_none sid assigned fg cols rows hfree
        have hstep : sepPlaceStudent fg meta cols rows
            (assigned, seats, violations) sid = (assigned, seats, violations) := by
          simp only [sepPlaceStudent, hnone]
        rw [hstep]
        have hfull : assigned.length = cols * rows := by
          have h1 := assigned_length_le hnd0 hbound'
          have h2 := occupied_length_ge hfree
          omega
        obtain ⟨rinv, ⟨placed, hplsub, hplids⟩, rlen, rall, hnewv,
          rsound, rsub, rflag⟩ := ih (assigned, seats, violations)
            ⟨hmirror, hnd, hbound, hformula⟩
        refine ⟨rinv, ⟨placed, hplsub.cons sid, hplids⟩, ?_, ?_, hnewv,
          rsound, rsub, rflag⟩
        · rw [rlen]
          show min (assigned.length + rest.length) (cols * rows)
            = min (assigned.length + (sid :: rest).length) (cols * rows)
          simp only [List.length_cons]
          omega
        · intro hcap
          have hcap' : assigned.length + (sid :: rest).length ≤ cols * rows := hcap
          simp only [List.length_cons] at hcap'
          exact absurd hcap' (by omega)

theorem sepSeatRoom_spec (fg : List (String × List String))
    (meta : String → StudentMeta) (cols rows : Nat) (studs : List String)
    (hlen : studs.length ≤ cols * rows) :
    ((sepSeatRoom fg meta cols rows studs).1.map Seat.student_id).Perm studs ∧
    ((sepSeatRoom fg meta cols rows studs).1.map (fun s => (s.x, s.y))).Nodup ∧
    (∀ s ∈ (sepSeatRoom fg meta cols rows studs).1,
      s.x < cols ∧ s.y < rows ∧ s.seat_no = s.y * cols + s.x + 1) := by
  have hq := queue_perm meta studs
  have hqlen := hq.length_eq
  have hinit : SepInvariant cols rows
      (([] : List ((Nat × Nat) × String)), ([] : List Seat),
        ([] : List ((Nat × Nat) × String))) := by
    refine ⟨rfl, List.nodup_nil, ?_, ?_⟩ <;> intro kv hkv <;> cases hkv
  obtain ⟨⟨hmirror, hnd, hbound, hformula⟩, _, _, hall, _, _, _, _⟩ :=
    sepFold_master fg meta cols rows
      (interleave_groups ((yearGroups meta studs).map Prod.snd)) _ hinit
  have hids' := hall (by simpa [hqlen] using hlen)
  have hids : ((interleave_groups ((yearGroups meta studs).map Prod.snd)).foldl
      (sepPlaceStudent fg meta cols rows) ([], [], [])).2.1.map Seat.student_id
      = interleave_groups ((yearGroups meta studs).map Prod.snd) := by
    rw [hids']
    rfl
  refine ⟨?_, ?_, ?_⟩
  · rw [show (sepSeatRoom fg meta cols rows studs).1
        = ((interleave_groups ((yearGroups meta studs).map Prod.snd)).foldl
            (sepPlaceStudent fg meta cols rows) ([], [], [])).2.1 from rfl]
    rw [hids]
    exact hq
  · have hkeys : ((sepSeatRoom fg meta cols rows studs).1.map
        (fun s => (s.x, s.y))) = (((interleave_groups
          ((yearGroups meta studs).map Prod.snd)).foldl
            (sepPlaceStudent fg meta cols rows) ([], [], [])).1.map Prod.fst) := by
      rw [show ((interleave_groups ((yearGroups meta studs).map Prod.snd)).foldl
            (sepPlaceStudent fg meta cols rows) ([], [], [])).1
          = (sepSeatRoom fg meta cols rows studs).1.map
              (fun s => ((s.x, s.y), s.student_id)) from hmirror]
      rw [List.map_map]
      rfl
    rw [hkeys]
    exact hnd
  · intro s hs
    have hf := hformula s hs
    have hmem : ((s.x, s.y), s.student_id) ∈ ((interleave_groups
        ((yearGroups meta studs).map Prod.snd)).foldl
          (sepPlaceStudent fg meta cols rows) ([], [], [])).1 := by
      rw [hmirror]
      exact List.mem_map_of_mem _ hs
    have hb := hbound _ hmem
    exact ⟨hb.1, hb.2, hf⟩

theorem sepSeatRoom_flagged (fg : List (String × List String))
    (meta : String → StudentMeta) (cols rows : Nat) (studs : List String)
    (hsym : ∀ a b, a ∈ friendsOf fg b → b ∈ friendsOf fg a) :
    SepFlagged fg cols rows (sepSeatRoom fg meta cols rows studs).1
      (sepSeatRoom fg meta cols rows studs).2 ∧
    (∀ v ∈ (sepSeatRoom fg meta cols rows studs).2,
      ∃ t ∈ (sepSeatRoom fg meta cols rows studs).1,
        t.student_id ∈ friendsOf fg v.2 ∧
        (t.x, t.y) ∈ get_adjacent_positions v.1.1 v.1.2 cols rows) ∧
    (∀ v ∈ (sepSeatRoom fg meta cols rows studs).2,
      ∃ s ∈ (sepSeatRoom fg meta cols rows studs).1,
        s.x = v.1.1 ∧ s.y = v.1.2 ∧ s.student_id = v.2) := by
  have hinit : SepInvariant cols rows
      (([] : List ((Nat × Nat) × String)), ([] : List Seat),
        ([] : List ((Nat × Nat) × String))) := by
    refine ⟨rfl, List.nodup_nil, ?_, ?_⟩ <;> intro kv hkv <;> cases hkv
  obtain ⟨⟨hmirror, _, _, _⟩, _, _, _, _, hsound, hsub, hflag⟩ :=
    sepFold_master fg meta cols rows
      (interleave_groups ((yearGroups meta studs).map Prod.snd)) _ hinit
  refine ⟨hflag hsym (fun t ht _ _ _ _ => absurd ht (List.not_mem_nil t)), ?_, ?_⟩
  · intro v hv
    obtain ⟨fsid, hf, pos, hpos, hlk⟩ :=
      hsound (fun v hv => absurd hv (List.not_mem_nil v)) v hv
    have hmem := alookup_mem hlk
    rw [hmirror] at hmem
    obtain ⟨t, ht, hte⟩ := List.mem_map.mp hmem
    refine ⟨t, ht, ?_, ?_⟩
    · rw [show t.student_id = fsid from congrArg Prod.snd hte]
      exact hf
    · rw [show (t.x, t.y) = pos from congrArg Prod.fst hte]
      exact hpos
  · intro v hv
    have hmem := hsub (fun v hv => absurd hv (List.not_mem_nil v)) v hv
    rw [hmirror] at hmem
    obtain ⟨t, ht, hte⟩ := List.mem_map.mp hmem
    refine ⟨t, ht, ?_, ?_, ?_⟩
    · have := congrArg (fun q => q.1.1) hte
      exact this
    · have := congrArg (fun q => q.1.2) hte
      exact this
    · exact congrArg Prod.snd hte

theorem sepSeatRoom_len (fg : List (String × List String))
    (meta : String → StudentMeta) (cols rows : Nat) (studs : List String)
    (hlen : cols * rows < studs.length) :
    (sepSeatRoom fg meta cols rows studs).1.length = cols * rows ∧
    ∀ s ∈ (sepSeatRoom fg meta cols rows studs).1, s.student_id ∈ studs := by
  have hq := queue_perm meta studs
  have hqlen := hq.length_eq
  have hinit : SepInvariant cols rows
      (([] : List ((Nat × Nat) × String)), ([] : List Seat),
        ([] : List ((Nat × Nat) × String))) := by
    refine ⟨rfl, List.nodup_nil, ?_, ?_⟩ <;> intro kv hkv <;> cases hkv
  obtain ⟨⟨hmirror, _, _, _⟩, ⟨placed, hplsub, hplids⟩, hrlen, _, _, _, _, _⟩ :=
    sepFold_master fg meta cols rows
      (interleave_groups ((yearGroups meta studs).map Prod.snd)) _ hinit
  constructor
  · have hlen1 : ((sepSeatRoom fg meta cols rows studs).1.map
        (fun s => ((s.x, s.y), s.student_id))).length
        = min (interleave_groups ((yearGroups meta studs).map Prod.snd)).length
            (cols * rows) := by
      rw [show (sepSeatRoom fg meta cols rows studs).1
          = ((interleave_groups ((yearGroups meta studs).map Prod.snd)).foldl
              (sepPlaceStudent fg meta cols rows) ([], [], [])).2.1 from rfl]
      rw [← hmirror, hrlen]
      simp
    rw [List.length_map] at hlen1
    rw [hlen1]
    omega
  · intro s hs
    have hsid : s.student_id ∈ (sepSeatRoom fg meta cols rows studs).1.map
        Seat.student_id := List.mem_map_of_mem _ hs
    rw [show (sepSeatRoom fg meta cols rows studs).1.map Seat.student_id
        = placed from by simpa using hplids] at hsid
    exact hq.subset (hplsub.subset hsid)

/-! ### The per-room folds of the two seat-assignment entry points -/

theorem seating_foldl_eq (f : String → List String → List Seat) :
    ∀ (ra : List (String × List String)) (init : List (String × List Seat)),
    (∀ kv ∈ ra, ¬ kv.1 ∈ akeys init) → (ra.map Prod.fst).Nodup →
    ra.foldl (fun seating kv => if kv.2.isEmpty then seating
      else dictInsert kv.1 (f kv.1 kv.2) seating) init
    = init ++ (ra.filter (fun kv => !kv.2.isEmpty)).map
        (fun kv => (kv.1, f kv.1 kv.2))
  | [], init, _, _ => by simp
  | kv :: rest, init, hfresh, hnd => by
      rw [List.foldl_cons]
      rw [List.map_cons, List.nodup_cons] at hnd
      by_cases hemp : kv.2.isEmpty = true
      · rw [if_pos hemp]
        have hrest := seating_foldl_eq f rest init
          (fun kv' hkv' => hfresh kv' (List.mem_cons_of_mem _ hkv')) hnd.2
        rw [hrest, List.filter_cons_of_neg (by simp [hemp])]
      · rw [if_neg hemp]
        have hnotin : ¬ kv.1 ∈ akeys init := hfresh kv (List.mem_cons_self _ _)
        rw [dictInsert_of_not_mem hnotin]
        have hfresh' : ∀ kv' ∈ rest, ¬ kv'.1 ∈ akeys (init ++ [(kv.1, f kv.1 kv.2)]) := by
          intro kv' hkv'
          rw [akeys_append, List.mem_append]
          rintro (h | h)
          · exact hfresh kv' (List.mem_cons_of_mem _ hkv') h
          · simp only [akeys, List.map_cons, List.map_nil,
              List.mem_singleton] at h
            exact hnd.1 (h ▸ List.mem_map_of_mem Prod.fst hkv')
        have hrest := seating_foldl_eq f rest
          (init ++ [(kv.1, f kv.1 kv.2)]) hfresh' hnd.2
        rw [hrest, List.filter_cons_of_pos (by simp [hemp]), List.map_cons,
          List.append_assoc]
        rfl

theorem assign_sep_eq (ra : List (String × List String))
    (meta : String → StudentMeta) (rc : List (String × (Nat × Nat)))
    (fg : List (String × List String)) (hnd : (ra.map Prod.fst).Nodup) :
    assign_seats_with_separation ra meta rc fg
    = (ra.filter (fun kv => !kv.2.isEmpty)).map
        (fun kv => (kv.1, (sepSeatRoom fg meta (layoutOf rc kv.1).1
          (layoutOf rc kv.1).2 kv.2).1)) := by
  have h := seating_foldl_eq (fun rid studs => (sepSeatRoom fg meta
      (layoutOf rc rid).1 (layoutOf rc rid).2 studs).1) ra []
    (fun kv _ h => by cases h) hnd
  rw [List.nil_append] at h
  exact h

theorem assign_spread_eq (ra : List (String × List String))
    (meta : String → StudentMeta) (rc : List (String × (Nat × Nat)))
    (hnd : (ra.map Prod.fst).Nodup) :
    assign_seats_in_room ra meta rc []
    = (ra.filter (fun kv => !kv.2.isEmpty)).map
        (fun kv => (kv.1, spreadSeatRoom meta (layoutOf rc kv.1).1
          (layoutOf rc kv.1).2 kv.2)) := by
  have h := seating_foldl_eq (fun rid studs => spreadSeatRoom meta
      (layoutOf rc rid).1 (layoutOf rc rid).2 studs) ra []
    (fun kv _ h => by cases h) hnd
  rw [List.nil_append] at h
  exact h

/-- Looking up one room in the assembled seating dict. -/
theorem seating_lookup {ra : List (String × List String)}
    {rid : String} {studs : List String}
    (f : String → List String → List Seat)
    (hnd : (ra.map Prod.fst).Nodup) (hmem : (rid, studs) ∈ ra)
    (hne : studs ≠ []) :
    alookup rid ((ra.filter (fun kv => !kv.2.isEmpty)).map
        (fun kv => (kv.1, f kv.1 kv.2)))
      = some (f rid studs) := by
  apply mem_alookup
  · have h1 : akeys ((ra.filter (fun kv => !kv.2.isEmpty)).map
        (fun kv => (kv.1, f kv.1 kv.2)))
        = (ra.filter (fun kv => !kv.2.isEmpty)).map Prod.fst := by
      rw [akeys, List.map_map]
      rfl
    rw [h1]
    exact ((List.filter_sublist _).map Prod.fst).nodup hnd
  · apply List.mem_map.mpr
    refine ⟨(rid, studs), ?_, rfl⟩
    rw [List.mem_filter]
    exact ⟨hmem, by simpa using hne⟩

theorem viol_foldl_eq (g : String → List String → List ((Nat × Nat) × String)) :
    ∀ (ra : List (String × List String))
      (init : List (String × (Nat × Nat) × String)),
    ra.foldl (fun acc kv => if kv.2.isEmpty then acc
      else acc ++ ((g kv.1 kv.2).map (fun v => (kv.1, v)))) init
    = init ++ ra.flatMap (fun kv => if kv.2.isEmpty then []
        else ((g kv.1 kv.2).map (fun v => (kv.1, v))))
  | [], init => by simp
  | kv :: rest, init => by
      rw [List.foldl_cons, List.flatMap_cons]
      by_cases hemp : kv.2.isEmpty = true
      · rw [if_pos hemp, if_pos hemp, viol_foldl_eq g rest init,
          List.nil_append]
      · rw [if_neg hemp, if_neg hemp, viol_foldl_eq g rest _,
          List.append_assoc]

theorem adjViol_eq (ra : List (String × List String))
    (meta : String → StudentMeta) (rc : List (String × (Nat × Nat)))
    (fg : List (String × List String)) :
    adjacencyViolationsOf ra meta rc fg
    = ra.flatMap (fun kv => if kv.2.isEmpty then []
        else ((sepSeatRoom fg meta (layoutOf rc kv.1).1
          (layoutOf rc kv.1).2 kv.2).2.map (fun v => (kv.1, v)))) := by
  have h := viol_foldl_eq (fun rid studs => (sepSeatRoom fg meta
      (layoutOf rc rid).1 (layoutOf rc rid).2 studs).2) ra []
  rw [List.nil_append] at h
  exact h

/-- With distinct room names, two room entries with the same name agree. -/
theorem room_entry_unique {ra : List (String × List String)}
    {rid : String} {studs studs' : List String}
    (hnd : (ra.map Prod.fst).Nodup) (h1 : (rid, studs) ∈ ra)
    (h2 : (rid, studs') ∈ ra) : studs = studs' := by
  have e1 := mem_alookup (by simpa [akeys] using hnd) h1
  have e2 := mem_alookup (by simpa [akeys] using hnd) h2
  rw [e1] at e2
  exact Option.some.inj e2

theorem spreadSeatRoom_len (meta : String → StudentMeta) (cols rows : Nat)
    (studs : List String) (hlen : cols * rows < studs.length) :
    (spreadSeatRoom meta cols rows studs).length = cols * rows ∧
    ∀ s ∈ spreadSeatRoom meta cols rows studs, s.student_id ∈ studs := by
  have hq := queue_perm meta studs
  have hqlen := hq.length_eq
  obtain ⟨hplen, _, _⟩ := get_spread_positions_spec
    (interleave_groups ((yearGroups meta studs).map Prod.snd)).length cols rows
  have hseats : spreadSeatRoom meta cols rows studs
      = ((interleave_groups ((yearGroups meta studs).map Prod.snd)).zip
          (get_spread_positions
            (interleave_groups ((yearGroups meta studs).map Prod.snd)).length
            cols rows)).map
          (fun sp => mkSeat sp.2.1 sp.2.2.1 sp.1 sp.2.2.2 meta) := rfl
  constructor
  · rw [hseats, List.length_map, List.length_zip]
    omega
  · intro s hs
    rw [hseats] at hs
    obtain ⟨sp, hsp, rfl⟩ := List.mem_map.mp hs
    obtain ⟨a, p⟩ := sp
    have hma := (List.of_mem_zip hsp).1
    exact hq.subset hma

theorem seats_seatno_nodup {seats : List Seat} {cols rows : Nat}
    (hb : ∀ s ∈ seats, s.x < cols ∧ s.y < rows ∧
      s.seat_no = s.y * cols + s.x + 1)
    (hc : (seats.map (fun s => (s.x, s.y))).Nodup) :
    (seats.map Seat.seat_no).Nodup := by
  have hmapeq : seats.map Seat.seat_no
      = (seats.map (fun s => (s.x, s.y))).map
          (fun c => c.2 * cols + c.1 + 1) := by
    rw [List.map_map]
    apply List.map_congr_left
    intro s hs
    exact (hb s hs).2.2
  rw [hmapeq]
  apply List.Nodup.map_on ?_ hc
  intro c1 h1 c2 h2 he
  obtain ⟨s1, hs1, he1⟩ := List.mem_map.mp h1
  obtain ⟨s2, hs2, he2⟩ := List.mem_map.mp h2
  have hx1 : c1.1 < cols := by
    rw [← he1]
    exact (hb s1 hs1).1
  have hx2 : c2.1 < cols := by
    rw [← he2]
    exact (hb s2 hs2).1
  obtain ⟨a1, b1⟩ := c1
  obtain ⟨a2, b2⟩ := c2
  have he' : b1 * cols + a1 + 1 = b2 * cols + a2 + 1 := he
  have hx1' : a1 < cols := hx1
  have hx2' : a2 < cols := hx2
  have hcols : 0 < cols := by omega
  have m1 : (b1 * cols + a1) % cols = a1 := by
    rw [Nat.mul_comm b1 cols, Nat.mul_add_mod]
    exact Nat.mod_eq_of_lt hx1
  have m2 : (b2 * cols + a2) % cols = a2 := by
    rw [Nat.mul_comm b2 cols, Nat.mul_add_mod]
    exact Nat.mod_eq_of_lt hx2
  have hsum : b1 * cols + a1 = b2 * cols + a2 := by omega
  have ea : a1 = a2 := by
    rw [← m1, ← m2, hsum]
  have eb : b1 = b2 := by
    have hbc : b1 * cols = b2 * cols := by omega
    exact Nat.eq_of_mul_eq_mul_right hcols hbc
  rw [ea, eb]

theorem assign_in_room_sep (ra : List (String × List String))
    (meta : String → StudentMeta) (rc : List (String × (Nat × Nat)))
    (fg : List (String × List String)) (h : fg.isEmpty = false) :
    assign_seats_in_room ra meta rc fg
      = assign_seats_with_separation ra meta rc fg := by
  simp [assign_seats_in_room, h]

/-- The friend map `fgAB` is symmetric. -/
theorem fgAB_symm : ∀ a b : String, a ∈ friendsOf fgAB b → b ∈ friendsOf fgAB a := by
  intro a b h
  by_cases hb : b = "a"
  · subst hb
    have ha : a = "b" := by
      simpa [friendsOf, fgAB, alookup] using h
    subst ha
    simp [friendsOf, fgAB, alookup]
  · by_cases hb2 : b = "b"
    · subst hb2
      have ha : a = "a" := by
        simpa [friendsOf, fgAB, alookup] using h
      subst ha
      simp [friendsOf, fgAB, alookup]
    · exfalso
      have hnone : friendsOf fgAB b = [] := by
        simp [friendsOf, fgAB, alookup, Ne.symm hb, Ne.symm hb2]
      rw [hnone] at h
      cases h

/-- C4: for every room whose assigned student count is at most
columns·rows, seat assignment — with or without a relationship map — gives
each of that room's students exactly one seat, the cells are pairwise
distinct and within `x ∈ [0, cols)`, `y ∈ [0, rows)`, and each seat number
is the row-major cell index plus one (hence seat numbers are unique). -/
theorem assign_seats_c4 (ra : List (String × List String))
    (meta : String → StudentMeta) (rc : List (String × (Nat × Nat)))
    (fg : List (String × List String))
    (hkeys : (ra.map Prod.fst).Nodup)
    (rid : String) (studs : List String)
    (hmem : (rid, studs) ∈ ra) (hne : studs ≠ [])
    (hlen : studs.length ≤ (layoutOf rc rid).1 * (layoutOf rc rid).2) :
    ∃ seats, alookup rid (assign_seats_in_room ra meta rc fg) = some seats ∧
      (seats.map Seat.student_id).Perm studs ∧
      (seats.map (fun s => (s.x, s.y))).Nodup ∧
      (∀ s ∈ seats, s.x < (layoutOf rc rid).1 ∧ s.y < (layoutOf rc rid).2 ∧
        s.seat_no = s.y * (layoutOf rc rid).1 + s.x + 1) ∧
      (seats.map Seat.seat_no).Nodup := by
  by_cases hfg : fg.isEmpty = true
  · have hfgnil : fg = [] := by simpa using hfg
    subst hfgnil
    rw [assign_spread_eq ra meta rc hkeys]
    obtain ⟨hperm, hcell, hbf⟩ := spreadSeatRoom_spec meta (layoutOf rc rid).1
      (layoutOf rc rid).2 studs hlen
    exact ⟨_, seating_lookup
      (fun rid studs => spreadSeatRoom meta (layoutOf rc rid).1 (layoutOf rc rid).2 studs) hkeys hmem hne, hperm, hcell, hbf,
      seats_seatno_nodup hbf hcell⟩
  · have hfg' : fg.isEmpty = false := by simpa using hfg
    rw [assign_in_room_sep ra meta rc fg hfg', assign_sep_eq ra meta rc fg hkeys]
    obtain ⟨hperm, hcell, hbf⟩ := sepSeatRoom_spec fg meta (layoutOf rc rid).1
      (layoutOf rc rid).2 studs hlen
    exact ⟨_, seating_lookup
      (fun rid studs => (sepSeatRoom fg meta (layoutOf rc rid).1 (layoutOf rc rid).2 studs).1) hkeys hmem hne, hperm, hcell, hbf,
      seats_seatno_nodup hbf hcell⟩

theorem assign_seats_c4_witness :
    ∃ seats, alookup "R1" (assign_seats_in_room [("R1", ["a", "b"])] metaS
        [("R1", (2, 2))] fgAB) = some seats ∧
      (seats.map Seat.student_id).Perm ["a", "b"] ∧
      (seats.map (fun s => (s.x, s.y))).Nodup ∧
      (∀ s ∈ seats,
        s.x < (layoutOf [("R1", (2, 2))] "R1").1 ∧
        s.y < (layoutOf [("R1", (2, 2))] "R1").2 ∧
        s.seat_no = s.y * (layoutOf [("R1", (2, 2))] "R1").1 + s.x + 1) ∧
      (seats.map Seat.seat_no).Nodup :=
  assign_seats_c4 [("R1", ["a", "b"])] metaS [("R1", (2, 2))] fgAB
    (by simp) "R1" ["a", "b"] (by simp) (by simp) (by decide)

/-- C9: a room whose assigned list exceeds columns·rows still produces a
seating (no error): exactly columns·rows seats are emitted, strictly fewer
than the room's students, and every emitted seat belongs to one of the
room's students — the excess students are silently dropped. -/
theorem assign_seats_c9 (ra : List (String × List String))
    (meta : String → StudentMeta) (rc : List (String × (Nat × Nat)))
    (fg : List (String × List String))
    (hkeys : (ra.map Prod.fst).Nodup)
    (rid : String) (studs : List String)
    (hmem : (rid, studs) ∈ ra)
    (hlen : (layoutOf rc rid).1 * (layoutOf rc rid).2 < studs.length) :
    ∃ seats, alookup rid (assign_seats_in_room ra meta rc fg) = some seats ∧
      seats.length = (layoutOf rc rid).1 * (layoutOf rc rid).2 ∧
      seats.length < studs.length ∧
      ∀ s ∈ seats, s.student_id ∈ studs := by
  have hne : studs ≠ [] := by
    intro h
    subst h
    simp at hlen
  by_cases hfg : fg.isEmpty = true
  · have hfgnil : fg = [] := by simpa using hfg
    subst hfgnil
    rw [assign_spread_eq ra meta rc hkeys]
    obtain ⟨hl, hm⟩ := spreadSeatRoom_len meta (layoutOf rc rid).1
      (layoutOf rc rid).2 studs hlen
    exact ⟨spreadSeatRoom meta (layoutOf rc rid).1 (layoutOf rc rid).2 studs,
      seating_lookup
      (fun rid studs => spreadSeatRoom meta (layoutOf rc rid).1 (layoutOf rc rid).2 studs) hkeys hmem hne, hl, by omega, hm⟩
  · have hfg' : fg.isEmpty = false := by simpa using hfg
    rw [assign_in_room_sep ra meta rc fg hfg', assign_sep_eq ra meta rc fg hkeys]
    obtain ⟨hl, hm⟩ := sepSeatRoom_len fg meta (layoutOf rc rid).1
      (layoutOf rc rid).2 studs hlen
    exact ⟨(sepSeatRoom fg meta (layoutOf rc rid).1 (layoutOf rc rid).2 studs).1,
      seating_lookup
      (fun rid studs => (sepSeatRoom fg meta (layoutOf rc rid).1 (layoutOf rc rid).2 studs).1) hkeys hmem hne, hl, by omega, hm⟩

theorem assign_seats_c9_witness :
    ∃ seats, alookup "R1" (assign_seats_in_room [("R1", ["a", "b", "c", "d", "e"])]
        metaS [("R1", (2, 2))] []) = some seats ∧
      seats.length = (layoutOf [("R1", (2, 2))] "R1").1 *
        (layoutOf [("R1", (2, 2))] "R1").2 ∧
      seats.length < (["a", "b", "c", "d", "e"] : List String).length ∧
      ∀ s ∈ seats, s.student_id ∈ (["a", "b", "c", "d", "e"] : List String) :=
  assign_seats_c9 [("R1", ["a", "b", "c", "d", "e"])] metaS [("R1", (2, 2))] []
    (by simp) "R1" ["a", "b", "c", "d", "e"] (by simp) (by decide)

/-- C5: the adjacency violation produced by the fallback placement is
recorded in the function's local list (modelled by
`adjacencyViolationsOf`) but the function returns only the seating dict —
the record is discarded, not surfaced. -/
theorem assign_seats_c5 :
    adjacencyViolationsOf [("R", ["a", "b"])] metaS [("R", (2, 2))] fgAB
      = [("R", ((1, 0), "b"))] ∧
    assign_seats_with_separation [("R", ["a", "b"])] metaS [("R", (2, 2))] fgAB
      = [("R", [mkSeat 0 0 "a" 1 metaS, mkSeat 1 0 "b" 2 metaS])] :=
  ⟨rfl, rfl⟩

/-- C7 (amended): with a symmetric relationship map and occupancy at most
columns·rows, relationship-aware placement seats everyone, and the local
violation list is a sound and complete record of the adjacent related
pairs: every adjacent related pair has a member recorded, and every record
points at a seated student genuinely adjacent to a friend. -/
theorem assign_seats_c7 (ra : List (String × List String))
    (meta : String → StudentMeta) (rc : List (String × (Nat × Nat)))
    (fg : List (String × List String))
    (hkeys : (ra.map Prod.fst).Nodup)
    (hsym : ∀ a b, a ∈ friendsOf fg b → b ∈ friendsOf fg a)
    (rid : String) (studs : List String)
    (hmem : (rid, studs) ∈ ra) (hne : studs ≠ [])
    (hocc : studs.length ≤ (layoutOf rc rid).1 * (layoutOf rc rid).2) :
    ∃ seats, alookup rid (assign_seats_with_separation ra meta rc fg)
        = some seats ∧
      (seats.map Seat.student_id).Perm studs ∧
      (∀ s ∈ seats, ∀ t ∈ seats,
        t.student_id ∈ friendsOf fg s.student_id →
        (t.x, t.y) ∈ get_adjacent_positions s.x s.y
          (layoutOf rc rid).1 (layoutOf rc rid).2 →
        (rid, (s.x, s.y), s.student_id) ∈ adjacencyViolationsOf ra meta rc fg ∨
        (rid, (t.x, t.y), t.student_id) ∈ adjacencyViolationsOf ra meta rc fg) ∧
      (∀ p sid, (rid, p, sid) ∈ adjacencyViolationsOf ra meta rc fg →
        (∃ s ∈ seats, s.x = p.1 ∧ s.y = p.2 ∧ s.student_id = sid) ∧
        (∃ t ∈ seats, t.student_id ∈ friendsOf fg sid ∧
          (t.x, t.y) ∈ get_adjacent_positions p.1 p.2
            (layoutOf rc rid).1 (layoutOf rc rid).2)) := by
  rw [assign_sep_eq ra meta rc fg hkeys]
  obtain ⟨hperm, _, _⟩ := sepSeatRoom_spec fg meta (layoutOf rc rid).1
    (layoutOf rc rid).2 studs hocc
  obtain ⟨hflag, hsound, hself⟩ := sepSeatRoom_flagged fg meta
    (layoutOf rc rid).1 (layoutOf rc rid).2 studs hsym
  have hviolmem : ∀ v ∈ (sepSeatRoom fg meta (layoutOf rc rid).1
      (layoutOf rc rid).2 studs).2,
      (rid, v) ∈ adjacencyViolationsOf ra meta rc fg := by
    intro v hv
    rw [adjViol_eq]
    apply List.mem_flatMap.mpr
    refine ⟨(rid, studs), hmem, ?_⟩
    rw [if_neg (by simpa using hne)]
    exact List.mem_map_of_mem _ hv
  have hviolrev : ∀ p sid,
      (rid, p, sid) ∈ adjacencyViolationsOf ra meta rc fg →
      (p, sid) ∈ (sepSeatRoom fg meta (layoutOf rc rid).1
        (layoutOf rc rid).2 studs).2 := by
    intro p sid h
    rw [adjViol_eq] at h
    obtain ⟨kv, hkv, hin⟩ := List.mem_flatMap.mp h
    by_cases hemp : kv.2.isEmpty = true
    · rw [if_pos hemp] at hin
      cases hin
    · rw [if_neg hemp] at hin
      obtain ⟨v, hv, hve⟩ := List.mem_map.mp hin
      have hkv1 : kv.1 = rid := congrArg Prod.fst hve
      have hveq : v = (p, sid) := congrArg Prod.snd hve
      subst hveq
      have hmem2 : (rid, kv.2) ∈ ra := by
        rw [← hkv1]
        exact hkv
      have hkv2 : kv.2 = studs := room_entry_unique hkeys hmem2 hmem
      rw [hkv1, hkv2] at hv
      exact hv
  refine ⟨_, seating_lookup
    (fun rid studs => (sepSeatRoom fg meta (layoutOf rc rid).1 (layoutOf rc rid).2 studs).1) hkeys hmem hne, hperm, ?_, ?_⟩
  · intro s hs t ht hfr hadj
    rcases hflag s hs t ht hfr hadj with h | h
    · exact Or.inl (hviolmem _ h)
    · exact Or.inr (hviolmem _ h)
  · intro p sid h
    have hv := hviolrev p sid h
    constructor
    · obtain ⟨s, hs, h1, h2, h3⟩ := hself _ hv
      exact ⟨s, hs, h1, h2, h3⟩
    · obtain ⟨t, ht, h1, h2⟩ := hsound _ hv
      exact ⟨t, ht, h1, h2⟩

theorem assign_seats_c7_witness :
    ∃ seats, alookup "R" (assign_seats_with_separation [("R", ["a", "b"])]
        metaS [("R", (2, 2))] fgAB) = some seats ∧
      (seats.map Seat.student_id).Perm ["a", "b"] ∧
      (∀ s ∈ seats, ∀ t ∈ seats,
        t.student_id ∈ friendsOf fgAB s.student_id →
        (t.x, t.y) ∈ get_adjacent_positions s.x s.y
          (layoutOf [("R", (2, 2))] "R").1 (layoutOf [("R", (2, 2))] "R").2 →
        ("R", (s.x, s.y), s.student_id)
          ∈ adjacencyViolationsOf [("R", ["a", "b"])] metaS
              [("R", (2, 2))] fgAB ∨
        ("R", (t.x, t.y), t.student_id)
          ∈ adjacencyViolationsOf [("R", ["a", "b"])] metaS
              [("R", (2, 2))] fgAB) ∧
      (∀ p sid, ("R", p, sid) ∈ adjacencyViolationsOf [("R", ["a", "b"])]
          metaS [("R", (2, 2))] fgAB →
        (∃ s ∈ seats, s.x = p.1 ∧ s.y = p.2 ∧ s.student_id = sid) ∧
        (∃ t ∈ seats, t.student_id ∈ friendsOf fgAB sid ∧
          (t.x, t.y) ∈ get_adjacent_positions p.1 p.2
            (layoutOf [("R", (2, 2))] "R").1 (layoutOf [("R", (2, 2))] "R").2)) :=
  assign_seats_c7 [("R", ["a", "b"])] metaS [("R", (2, 2))] fgAB
    (by simp) fgAB_symm "R" ["a", "b"] (by simp) (by simp) (by decide)

/-- C7 counterexample: a symmetric non-empty friend map on a 2×2 room at
half occupancy (spread spacing factor `max 1 (4 / 2) = 2 ≥ 2`), yet the
relationship-aware placement seats the two friends in each other's
8-neighborhood. -/
theorem assign_seats_c7_counterexample :
    fgAB.isEmpty = false ∧
    (∀ a b : String, a ∈ friendsOf fgAB b → b ∈ friendsOf fgAB a) ∧
    max 1 ((2 * 2) / 2) ≥ 2 ∧
    ∃ seats, alookup "R" (assign_seats_with_separation [("R", ["a", "b"])]
        metaS [("R", (2, 2))] fgAB) = some seats ∧
      ∃ s ∈ seats, ∃ t ∈ seats,
        t.student_id ∈ friendsOf fgAB s.student_id ∧
        (t.x, t.y) ∈ get_adjacent_positions s.x s.y 2 2 := by
  refine ⟨rfl, fgAB_symm, by decide, ?_⟩
  refine ⟨[mkSeat 0 0 "a" 1 metaS, mkSeat 1 0 "b" 2 metaS], rfl, ?_⟩
  refine ⟨mkSeat 0 0 "a" 1 metaS, by simp, mkSeat 1 0 "b" 2 metaS, by simp,
    ?_, ?_⟩
  · show "b" ∈ friendsOf fgAB "a"
    simp [friendsOf, fgAB, alookup]
  · show ((1 : Nat), (0 : Nat)) ∈ get_adjacent_positions 0 0 2 2
    decide

/-- C8: the embedded three-stage pipeline is a function of its inputs:
identical rosters, friend pairs, room configurations and friend graphs
give identical seating results. -/
theorem pipeline_deterministic_c8 (df df' : List Row)
    (fp fp' : List (String × String)) (rcs rcs' : List RoomConfigInput)
    (rc rc' : List (String × (Nat × Nat)))
    (fg fg' : List (String × List String))
    (h1 : df = df') (h2 : fp = fp') (h3 : rcs = rcs') (h4 : rc = rc')
    (h5 : fg = fg') :
    pipeline df fp rcs rc fg = pipeline df' fp' rcs' rc' fg' := by
  subst h1
  subst h2
  subst h3
  subst h4
  subst h5
  rfl

theorem pipeline_deterministic_c8_witness :
    pipeline dfA [] [rcB] [] fgAB = pipeline dfA [] [rcB] [] fgAB :=
  pipeline_deterministic_c8 dfA dfA [] [] [rcB] [rcB] [] [] fgAB fgAB
    rfl rfl rfl rfl rfl

end Seating
